import Mathlib

/-!
# Moesekai: cache facade and HTTP middleware

A shallow embedding of `internal/cache/cache.go` and
`internal/middleware/middleware.go`, followed by the properties proved
about them.

Modelling conventions

* A Go `string` and a Go `[]byte` are both finite byte sequences, so the
  conversions `[]byte(s)` and `string(b)` keep the bytes as they are.
* `time.Time` is an instant on one integer timeline (nanoseconds) and
  `time.Duration` a signed number of nanoseconds; `Time.Add` is integer
  addition and `Time.Before` is `<`.  Every call of `time.Now()` is an
  explicit argument of the operation that makes it.
* `sync.Map` is a finite association list with at most one binding per key.
* The go-redis client is not part of the repository: its commands are a
  parameter `RedisAPI`, each returning its outcome and the next state of
  the remote store.
* An operation returns `none` where the Go code would panic (a method call
  on a nil client).
* `net/http` is not part of the repository either: `http.FileServer` and
  `http.NotFound` are parameters, and a response writer is the state of the
  response behind it.
* The file system is what `os.Stat` and `os.ReadFile` answer; the static file
  handler returns, with its response, the paths it asked about.
* `filepath.Clean` and `filepath.Join` follow the rules of their
  documentation on Unix paths, element by element.
-/

namespace Moesekai

/-! ## Byte sequences, strings, time -/

/-- Go `[]byte`. -/
abbrev Bytes := List UInt8

/-- Go `string`: an immutable byte sequence. -/
abbrev GoString := List UInt8

/-- The bytes of a string literal of the source. -/
def lit (s : String) : GoString := s.toUTF8.data.toList

/-- Conversion `[]byte(s)`. -/
def bytesOfString (s : GoString) : Bytes := s

/-- Conversion `string(b)`. -/
def stringOfBytes (b : Bytes) : GoString := b

/-- An instant, in nanoseconds. -/
abbrev Time := Int

/-- Go `time.Duration`, in nanoseconds. -/
abbrev Duration := Int

/-- Go `time.Minute`. -/
def Minute : Duration := 60 * 1000000000

/-- Go `time.Hour`. -/
def Hour : Duration := 60 * Minute

/-! ## Maps keyed by strings -/

/-- A Go map (or `sync.Map`) keyed by strings. -/
abbrev GoMap (V : Type) := List (GoString × V)

/-- Lookup: `m[key]` with the presence flag, `sync.Map.Load`. -/
def GoMap.Load {V : Type} : GoMap V → GoString → Option V
  | [], _ => none
  | (k, v) :: rest, key => if k = key then some v else GoMap.Load rest key

/-- Removal: `delete(m, key)`, `sync.Map.Delete`. -/
def GoMap.Delete {V : Type} (m : GoMap V) (key : GoString) : GoMap V :=
  m.filter (fun p => decide (p.1 ≠ key))

/-- Assignment: `m[key] = v`, `sync.Map.Store`. -/
def GoMap.Store {V : Type} (m : GoMap V) (key : GoString) (v : V) : GoMap V :=
  (key, v) :: m.Delete key

/-- The keys a map enumerates (`sync.Map.Range`). -/
def GoMap.keys {V : Type} (m : GoMap V) : List GoString := m.map Prod.fst

/-! ## The cache (`internal/cache/cache.go`) -/

/-- Go `MemoryCacheItem`. -/
structure MemoryCacheItem where
  Data : Bytes
  ExpiresAt : Time
  deriving DecidableEq, Repr

/-- The commands of the go-redis client used by the cache, over a remote
store state `R` and an error type `E` (`none` is the nil error). -/
structure RedisAPI (R E : Type) where
  Get : R → GoString → Except E Bytes × R
  Set : R → GoString → Bytes → Duration → Option E × R
  Del : R → GoString → Option E × R
  Close : R → Option E × R

/-- Go `Cache`. `redis = none` is the nil client pointer. -/
structure Cache (R : Type) where
  redis : Option R
  memoryCache : GoMap MemoryCacheItem
  useRedis : Bool

/-- Go `(*Cache).Get`. `now` is the reading of `time.Now()`. -/
def Cache.Get {R E : Type} (api : RedisAPI R E) (c : Cache R) (now : Time) (key : GoString) :
    Option ((Bytes × Bool) × Cache R) :=
  if c.useRedis then
    match c.redis with
    | none => none
    | some r =>
      match api.Get r key with
      | (Except.ok val, r1) => some ((val, true), { c with redis := some r1 })
      | (Except.error _, r1) => some (([], false), { c with redis := some r1 })
  else
    match c.memoryCache.Load key with
    | some cached =>
      if now < cached.ExpiresAt then
        some ((cached.Data, true), c)
      else
        some (([], false), { c with memoryCache := c.memoryCache.Delete key })
    | none => some (([], false), c)

/-- Go `(*Cache).Set`. `now` is the reading of `time.Now()`. -/
def Cache.Set {R E : Type} (api : RedisAPI R E) (c : Cache R) (now : Time) (key : GoString)
    (value : Bytes) (ttl : Duration) : Option (Option E × Cache R) :=
  if c.useRedis then
    match c.redis with
    | none => none
    | some r =>
      match api.Set r key value ttl with
      | (err, r1) => some (err, { c with redis := some r1 })
  else
    some (none, { c with memoryCache :=
      c.memoryCache.Store key { Data := value, ExpiresAt := now + ttl } })

/-- Go `(*Cache).Delete`. -/
def Cache.Delete {R E : Type} (api : RedisAPI R E) (c : Cache R) (key : GoString) :
    Option (Option E × Cache R) :=
  if c.useRedis then
    match c.redis with
    | none => none
    | some r =>
      match api.Del r key with
      | (err, r1) => some (err, { c with redis := some r1 })
  else
    some (none, { c with memoryCache := c.memoryCache.Delete key })

/-- Go `DynamicCacheTTL`. -/
def DynamicCacheTTL : Duration := 10 * Minute

/-- Go `ImageCacheTTL`. -/
def ImageCacheTTL : Duration := 1 * Hour

/-- Go `(*Cache).GetDynamic`. -/
def Cache.GetDynamic {R E : Type} (api : RedisAPI R E) (c : Cache R) (now : Time)
    (uid : GoString) : Option ((Bytes × Bool) × Cache R) :=
  c.Get api now (lit "dynamic:" ++ uid)

/-- Go `(*Cache).SetDynamic`. -/
def Cache.SetDynamic {R E : Type} (api : RedisAPI R E) (c : Cache R) (now : Time)
    (uid : GoString) (data : Bytes) : Option (Option E × Cache R) :=
  c.Set api now (lit "dynamic:" ++ uid) data DynamicCacheTTL

/-- Go `(*Cache).GetImage`. `now1` and `now2` are the clock readings of the
first and of the second `Get`. -/
def Cache.GetImage {R E : Type} (api : RedisAPI R E) (c : Cache R) (now1 now2 : Time)
    (url : GoString) : Option ((Bytes × GoString × Bool) × Cache R) :=
  match c.Get api now1 (lit "img:" ++ url) with
  | none => none
  | some ((data, ok), c1) =>
    if !ok then
      some (([], lit "", false), c1)
    else
      match c1.Get api now2 (lit "img_ct:" ++ url) with
      | none => none
      | some ((contentType, ok2), c2) =>
        if !ok2 then
          some (([], lit "", false), c2)
        else
          some ((data, stringOfBytes contentType, true), c2)

/-- Go `(*Cache).SetImage`. `now1` and `now2` are the clock readings of the
first and of the second `Set`. -/
def Cache.SetImage {R E : Type} (api : RedisAPI R E) (c : Cache R) (now1 now2 : Time)
    (url : GoString) (data : Bytes) (contentType : GoString) : Option (Option E × Cache R) :=
  match c.Set api now1 (lit "img:" ++ url) data ImageCacheTTL with
  | none => none
  | some (some err, c1) => some (some err, c1)
  | some (none, c1) => c1.Set api now2 (lit "img_ct:" ++ url) (bytesOfString contentType) ImageCacheTTL

/-- Go `(*Cache).IsRedisEnabled`. -/
def Cache.IsRedisEnabled {R : Type} (c : Cache R) : Bool := c.useRedis

/-! ## Client programs: sequences of cache calls -/

/-- One call of the generic cache surface, with the clock reading at which
it happens. -/
inductive Op where
  | get (now : Time) (key : GoString)
  | set (now : Time) (key : GoString) (value : Bytes) (ttl : Duration)
  | delete (now : Time) (key : GoString)

/-- The clock reading of a call. -/
def Op.now : Op → Time
  | Op.get now _ => now
  | Op.set now _ _ _ => now
  | Op.delete now _ => now

/-- Whether a call is a `Set` or a `Delete` on `key`. -/
def Op.writes : Op → GoString → Bool
  | Op.get _ _, _ => false
  | Op.set _ k _ _, key => decide (k = key)
  | Op.delete _ k, key => decide (k = key)

/-- The cache after one call (results discarded). -/
def Cache.step {R E : Type} (api : RedisAPI R E) (c : Cache R) : Op → Option (Cache R)
  | Op.get now key => (c.Get api now key).map Prod.snd
  | Op.set now key value ttl => (c.Set api now key value ttl).map Prod.snd
  | Op.delete _ key => (c.Delete api key).map Prod.snd

/-- The cache after a sequence of calls. -/
def Cache.run {R E : Type} (api : RedisAPI R E) (c : Cache R) : List Op → Option (Cache R)
  | [] => some c
  | op :: rest =>
    match c.step api op with
    | none => none
    | some c1 => Cache.run api c1 rest

/-- A remote store that holds nothing: every GET fails with an error and
every write is accepted. Used to instantiate the backend parameter. -/
def emptyRedis : RedisAPI Unit Unit where
  Get := fun r _ => (Except.error (), r)
  Set := fun r _ _ _ => (none, r)
  Del := fun r _ => (none, r)
  Close := fun r => (none, r)

/-- A fresh cache in Memory mode, as `New("")` builds it. -/
def emptyMemoryCache : Cache Unit :=
  { redis := none, memoryCache := [], useRedis := false }

/-- A Memory-mode cache holding one entry, key `a` with deadline 10. -/
def oneEntryCache : Cache Unit :=
  { redis := none, memoryCache := [(lit "a", { Data := [9], ExpiresAt := 10 })],
    useRedis := false }

/-- In Memory mode, key `k` is bound to payload `v` with deadline `dl`, or
it was bound so and has been dropped by a read no later than `T` that found
it expired. -/
def Pinned {R : Type} (c : Cache R) (k : GoString) (v : Bytes) (dl T : Time) : Prop :=
  c.useRedis = false ∧
    (c.memoryCache.Load k = some { Data := v, ExpiresAt := dl } ∨
      (c.memoryCache.Load k = none ∧ dl ≤ T))

/-! ## HTTP (`net/http`, `strings`), as far as the middleware uses it

Header names are kept in canonical MIME form, which is the form of every
name the middleware passes to `Get` and `Set`. -/

/-- Go `strings.Contains`: `substr` occurs in `s` as a run of bytes. -/
def strings.Contains : GoString → GoString → Bool
  | [], substr => substr.isEmpty
  | c :: s, substr => substr.isPrefixOf (c :: s) || strings.Contains s substr

/-- Go `strings.ToLower` on ASCII text. -/
def strings.ToLower (s : GoString) : GoString :=
  s.map (fun b => if 65 ≤ b.toNat ∧ b.toNat ≤ 90 then UInt8.ofNat (b.toNat + 32) else b)

/-- Go `http.Header`: header name to the list of its values. -/
abbrev http.Header := GoMap (List GoString)

/-- Go `Header.Get`: the first value of the header, or `""`. -/
def http.Header.Get (h : http.Header) (key : GoString) : GoString :=
  match GoMap.Load h key with
  | some (v :: _) => v
  | _ => lit ""

/-- Go `Header.Set`: replaces the values of the header by the single `value`. -/
def http.Header.Set (h : http.Header) (key value : GoString) : http.Header :=
  GoMap.Store h key [value]

/-- Go `http.Request`, the fields the middleware reads. -/
structure http.Request where
  Method : GoString
  Path : GoString
  Header : http.Header
  deriving DecidableEq

/-- The response the server is building: headers, the status once
`WriteHeader` has run, and the body bytes written so far. -/
structure http.Response where
  header : http.Header
  status : Option Nat
  body : Bytes
  deriving DecidableEq

/-- Go `http.ResponseWriter`: the server's own writer, or the
`gzipResponseWriter` wrapped around a writer, whose `Write` feeds the gzip
encoder (`pending` is what the encoder has been given). -/
inductive http.ResponseWriter where
  | server (resp : http.Response)
  | gzip (pending : Bytes) (under : http.ResponseWriter)
  deriving DecidableEq

/-- Go `w.Header()`; the gzip writer answers with the embedded writer's map. -/
def http.ResponseWriter.Header : http.ResponseWriter → http.Header
  | server resp => resp.header
  | gzip _ under => http.ResponseWriter.Header under

/-- Go `w.Header().Set(key, value)`. -/
def http.ResponseWriter.setHeader : http.ResponseWriter → GoString → GoString →
    http.ResponseWriter
  | server resp, key, value =>
    server { resp with header := http.Header.Set resp.header key value }
  | gzip pending under, key, value =>
    gzip pending (http.ResponseWriter.setHeader under key value)

/-- Go `w.WriteHeader(code)`; only the first call sets the status. -/
def http.ResponseWriter.WriteHeader : http.ResponseWriter → Nat → http.ResponseWriter
  | server resp, code =>
    server { resp with status := some (resp.status.getD code) }
  | gzip pending under, code => gzip pending (http.ResponseWriter.WriteHeader under code)

/-- Go `w.Write(b)`; the server's writer sends status 200 first if none was
sent, `gzipResponseWriter.Write` hands the bytes to the encoder. -/
def http.ResponseWriter.Write : http.ResponseWriter → Bytes → http.ResponseWriter
  | server resp, b =>
    server { resp with status := some (resp.status.getD 200), body := resp.body ++ b }
  | gzip pending under, b => gzip (pending ++ b) under

/-- Go `gz.Close()` for the encoder of a gzip writer: the compressed form of
what the encoder was given goes to the writer underneath. `compress` is the
gzip encoding of `compress/gzip`. -/
def gzipClose (compress : Bytes → Bytes) : http.ResponseWriter → http.ResponseWriter
  | http.ResponseWriter.gzip pending under => under.Write (compress pending)
  | http.ResponseWriter.server resp => http.ResponseWriter.server resp

/-- How many gzip writers are wrapped around the server's writer. -/
def http.ResponseWriter.depth : http.ResponseWriter → Nat
  | server _ => 0
  | gzip _ under => http.ResponseWriter.depth under + 1

/-- The server's response behind a writer. -/
def http.ResponseWriter.response : http.ResponseWriter → http.Response
  | server resp => resp
  | gzip _ under => http.ResponseWriter.response under

/-- Go `http.Handler`: `ServeHTTP(w, r)` as the writer state it leaves. -/
abbrev http.Handler := http.ResponseWriter → http.Request → http.ResponseWriter

/-! ## The middleware (`internal/middleware/middleware.go`) -/

/-- Go `Gzip`. -/
def Gzip (compress : Bytes → Bytes) (next : http.Handler) : http.Handler :=
  fun w r =>
    if !strings.Contains (http.Header.Get r.Header (lit "Accept-Encoding")) (lit "gzip") then
      next w r
    else
      let w1 := w.setHeader (lit "Content-Encoding") (lit "gzip")
      let gzw := http.ResponseWriter.gzip [] w1
      gzipClose compress (next gzw r)

/-- The map `allowedOrigins` of Go `CORS`. -/
def allowedOrigins : GoMap Bool :=
  [(lit "https://pjsk.moe", true),
   (lit "https://www.pjsk.moe", true),
   (lit "https://snowyviewer.exmeaning.com", true)]

/-- Go `m[key]` on a `map[string]bool`: `false` for a missing key. -/
def GoMap.index (m : GoMap Bool) (key : GoString) : Bool :=
  (GoMap.Load m key).getD false

/-- Go `CORS`. -/
def CORS (next : http.Handler) : http.Handler :=
  fun w r =>
    let origin := http.Header.Get r.Header (lit "Origin")
    let w1 :=
      if allowedOrigins.index origin then
        (w.setHeader (lit "Access-Control-Allow-Origin") origin).setHeader (lit "Vary")
          (lit "Origin")
      else w
    let w2 := w1.setHeader (lit "Access-Control-Allow-Methods") (lit "GET, OPTIONS")
    let w3 := w2.setHeader (lit "Access-Control-Allow-Headers") (lit "Content-Type")
    if r.Method = lit "OPTIONS" then
      w3.WriteHeader 200
    else
      next w3 r

/-- The loop of Go `Chain`, with `n = i + 1` iterations left. -/
def Chain.loop (middlewares : List (http.Handler → http.Handler)) : Nat → http.Handler →
    http.Handler
  | 0, h => h
  | n + 1, h =>
    match middlewares[n]? with
    | some m => Chain.loop middlewares n (m h)
    | none => Chain.loop middlewares n h

/-- Go `Chain`. -/
def Chain (h : http.Handler) (middlewares : List (http.Handler → http.Handler)) :
    http.Handler :=
  Chain.loop middlewares middlewares.length h

/-- The nesting the specification gives for `Chain`: `w1(w2(...wn(h)...))`. -/
def nested (h : http.Handler) : List (http.Handler → http.Handler) → http.Handler
  | [] => h
  | w :: rest => w (nested h rest)

/-- A middleware that writes `enter` on the way in and `leave` on the way out. -/
def marking (enter leave : Bytes) (next : http.Handler) : http.Handler :=
  fun w r => (next (w.Write enter) r).Write leave

/-- The specification's test for compression: `Accept-Encoding` contains
`gzip` under a case-insensitive substring match. -/
def specAcceptsGzip (acceptEncoding : GoString) : Bool :=
  strings.Contains (strings.ToLower acceptEncoding) (lit "gzip")

/-- A GET request for `/` whose only header is `Accept-Encoding: v`. -/
def requestAccepting (v : GoString) : http.Request :=
  { Method := lit "GET", Path := lit "/", Header := [(lit "Accept-Encoding", [v])] }

/-- The server's writer before anything was set or written. -/
def freshWriter : http.ResponseWriter :=
  http.ResponseWriter.server { header := [], status := none, body := [] }

/-- A terminal handler that writes the body `hello`. -/
def helloHandler : http.Handler := fun w _ => w.Write (lit "hello")

/-- What a Memory-mode read at time `now` yields from the binding `o` of
its key: the payload while the deadline is ahead, a miss otherwise. -/
def readValue (o : Option MemoryCacheItem) (now : Time) : Bytes × Bool :=
  match o with
  | some cached => if now < cached.ExpiresAt then (cached.Data, true) else ([], false)
  | none => ([], false)

/-- What a Memory-mode image read yields from the bindings of the payload
key (read at `now1`) and of the content-type key (read at `now2`). -/
def readImage (o1 o2 : Option MemoryCacheItem) (now1 now2 : Time) : Bytes × GoString × Bool :=
  if (readValue o1 now1).2 = true ∧ (readValue o2 now2).2 = true then
    ((readValue o1 now1).1, stringOfBytes (readValue o2 now2).1, true)
  else ([], lit "", false)

/-- The writer `w` with its header map replaced by `h` and nothing else
changed. -/
def http.ResponseWriter.withHeader : http.ResponseWriter → http.Header → http.ResponseWriter
  | server resp, h => server { resp with header := h }
  | gzip pending under, h => gzip pending (http.ResponseWriter.withHeader under h)

/-- Go `(*Cache).Close`. -/
def Cache.Close {R E : Type} (api : RedisAPI R E) (c : Cache R) : Option E × Cache R :=
  if c.useRedis then
    match c.redis with
    | some r =>
      match api.Close r with
      | (err, r1) => (err, { c with redis := some r1 })
    | none => (none, c)
  else (none, c)

/-- What `New` uses of go-redis to reach the remote store: `redis.ParseURL`,
the literal `&redis.Options{Addr: addr}`, `redis.NewClient`, and `PING` under
its five-second timeout, whose outcome (`none` for success) is an input. -/
structure RedisDriver (R E O : Type) where
  ParseURL : GoString → Except E O
  addrOptions : GoString → O
  NewClient : O → R
  Ping : R → Option E × R

/-- The client handle `New` opens for a non-empty locator. -/
def New.client {R E O : Type} (drv : RedisDriver R E O) (redisURL : GoString) : R :=
  drv.NewClient
    (match drv.ParseURL redisURL with
      | Except.ok opts => opts
      | Except.error _ => drv.addrOptions redisURL)

/-- Go `New`. What it prints is not part of the model. -/
def New {R E O : Type} (drv : RedisDriver R E O) (redisURL : GoString) : Cache R :=
  let c : Cache R := { redis := none, memoryCache := [], useRedis := false }
  if redisURL ≠ lit "" then
    let opts :=
      match drv.ParseURL redisURL with
      | Except.ok opts => opts
      | Except.error _ => drv.addrOptions redisURL
    let client := drv.NewClient opts
    match drv.Ping client with
    | (some _, _) => c
    | (none, client1) => { c with redis := some client1, useRedis := true }
  else c

/-- A remote store that records the key of every command it receives and
holds nothing; its `SET` fails with `ERR` when `failSet` is set. -/
def recordingRedis (failSet : Bool) : RedisAPI (List GoString) GoString where
  Get := fun r key => (Except.error (lit "redis: nil"), r ++ [key])
  Set := fun r key _ _ => (if failSet then some (lit "ERR") else none, r ++ [key])
  Del := fun r key => (none, r ++ [key])
  Close := fun r => (none, r)

/-- A cache in Remote mode whose remote store has received no command, with
one entry left in its memory store. -/
def remoteCache : Cache (List GoString) :=
  { redis := some [], memoryCache := [(lit "a", { Data := [9], ExpiresAt := 10 })],
    useRedis := true }

/-- A driver whose `PING` fails when `pingFails` is set. -/
def sampleDriver (pingFails : Bool) : RedisDriver (List GoString) GoString GoString where
  ParseURL := fun url => Except.ok url
  addrOptions := fun addr => addr
  NewClient := fun _ => []
  Ping := fun r => (if pingFails then some (lit "dial tcp: connection refused") else none, r)

/-! ## Paths (`path/filepath` on Unix, `path`)

`Clean` follows the rules of its documentation, element by element: empty
elements and `.` are dropped, `..` removes the element before it, a `..`
that would climb above the root of a rooted path is dropped, and a `..` at
the start of a relative path is kept. -/

/-- The elements of a path between its slashes (byte 47), empty ones
included. -/
def splitSlash : GoString → List GoString
  | [] => [[]]
  | c :: s =>
    if c = 47 then [] :: splitSlash s
    else
      match splitSlash s with
      | seg :: rest => (c :: seg) :: rest
      | [] => [[c]]

/-- Go `strings.Join(elems, "/")`. -/
def joinSlash : List GoString → GoString
  | [] => []
  | [e] => e
  | e :: rest => e ++ 47 :: joinSlash rest

/-- Whether a path begins with a slash. -/
def isRooted (path : GoString) : Bool := path.head? = some 47

/-- One element read by `Clean`; `st` holds the elements kept so far, the
last one first. -/
def filepath.Clean.step (rooted : Bool) (st : List GoString) (e : GoString) : List GoString :=
  if e = [] ∨ e = lit "." then st
  else if e = lit ".." then
    match st with
    | top :: rest => if top = lit ".." then e :: st else rest
    | [] => if rooted then [] else [e]
  else e :: st

/-- The elements of the cleaned path. -/
def filepath.Clean.elems (path : GoString) : List GoString :=
  ((splitSlash path).foldl (filepath.Clean.step (isRooted path)) []).reverse

/-- Go `filepath.Clean` (and `path.Clean`). -/
def filepath.Clean (path : GoString) : GoString :=
  if path = [] then lit "."
  else if isRooted path then 47 :: joinSlash (filepath.Clean.elems path)
  else if filepath.Clean.elems path = [] then lit "."
  else joinSlash (filepath.Clean.elems path)

/-- Go `filepath.Join(a, b)`: the non-empty elements joined by a slash,
cleaned. -/
def filepath.Join (a b : GoString) : GoString :=
  if a ≠ [] then filepath.Clean (a ++ 47 :: b)
  else if b ≠ [] then filepath.Clean b
  else []

/-- The loop of Go `filepath.Ext`, from the last byte backwards. -/
def filepath.Ext.loop : List UInt8 → GoString → GoString
  | [], _ => []
  | c :: before, suffix =>
    if c = 47 then []
    else if c = 46 then c :: suffix
    else filepath.Ext.loop before (c :: suffix)

/-- Go `filepath.Ext`. -/
def filepath.Ext (path : GoString) : GoString := filepath.Ext.loop path.reverse []

/-- A path element that is a name: not empty, not `.`, not `..`, without a
slash. -/
def nameElem (e : GoString) : Prop :=
  e ≠ [] ∧ e ≠ lit "." ∧ e ≠ lit ".." ∧ (47 : UInt8) ∉ e

/-- The path written from its cleaned elements. -/
def renderPath (rooted : Bool) (elems : List GoString) : GoString :=
  if rooted then 47 :: joinSlash elems
  else if elems = [] then lit "."
  else joinSlash elems

/-- The shape of the elements `Clean` keeps, the last one first: names, then
the `..` elements a relative path begins with. -/
def cleanStack (rooted : Bool) (st : List GoString) : Prop :=
  ∃ (names : List GoString) (n : Nat),
    st = names ++ List.replicate n (lit "..") ∧ (∀ e ∈ names, nameElem e) ∧
      (rooted = true → n = 0)

/-- Whether `x` names, lexically, `root` itself or something under it: the
cleaned elements of `root` begin those of `x`, and what follows has no `..`. -/
def atOrBelow (root x : GoString) : Bool :=
  (isRooted x == isRooted root) &&
    (filepath.Clean.elems root).isPrefixOf (filepath.Clean.elems x) &&
    !((filepath.Clean.elems x).drop (filepath.Clean.elems root).length).contains (lit "..")

/-! ## The static file handler -/

/-- Go `os.FileInfo`, as far as the handler looks at it. -/
structure FileInfo where
  IsDir : Bool
  deriving DecidableEq

/-- The file system as `os.Stat` and `os.ReadFile` see it; `none` is an
error. -/
structure FileSystem where
  Stat : GoString → Option FileInfo
  ReadFile : GoString → Option Bytes

/-- The handlers of `net/http` the file handler hands over to:
`http.FileServer(http.Dir(root))` and `http.NotFound`. -/
structure http.Library where
  FileServer : GoString → http.Handler
  NotFound : http.ResponseWriter → http.ResponseWriter

/-- The file `http.FileServer(http.Dir(root))` opens for a request whose URL
path is `upath`: the path is made rooted and cleaned, and `http.Dir.Open`
joins `root` (`.` if empty) with the cleaned rooted name. -/
def http.Dir.target (root upath : GoString) : GoString :=
  let upath1 := if isRooted upath then upath else 47 :: upath
  let name := filepath.Clean upath1
  let dir := if root = [] then lit "." else root
  filepath.Join dir (filepath.Clean (47 :: name))

/-- Go `Serve404`, with the paths given to the file system. -/
def Serve404 (lib : http.Library) (os : FileSystem) (w : http.ResponseWriter)
    (root : GoString) : http.ResponseWriter × List GoString :=
  let notFoundPath := filepath.Join root (lit "404.html")
  match os.ReadFile notFoundPath with
  | some content =>
    ((((w.setHeader (lit "Content-Type") (lit "text/html; charset=utf-8")).WriteHeader
      404).Write content), [notFoundPath])
  | none => (lib.NotFound w, [notFoundPath])

/-- The part of Go `FileServerWithExtensions` from `htmlPath := ...` on;
`probed` holds the paths given to the file system before. -/
def FileServerWithExtensions.fallback (lib : http.Library) (os : FileSystem) (root : GoString)
    (w : http.ResponseWriter) (r : http.Request) (cleanPath fullPath : GoString)
    (probed : List GoString) : http.ResponseWriter × List GoString :=
  let fs := lib.FileServer root
  let htmlPath := fullPath ++ lit ".html"
  match os.Stat htmlPath with
  | some _ => (fs w { r with Path := r.Path ++ lit ".html" }, probed ++ [htmlPath])
  | none =>
    if filepath.Ext cleanPath ≠ lit "" then
      ((Serve404 lib os w root).1, probed ++ [htmlPath] ++ (Serve404 lib os w root).2)
    else
      ((Serve404 lib os w root).1, probed ++ [htmlPath] ++ (Serve404 lib os w root).2)

/-- Go `FileServerWithExtensions`: the writer the handler leaves, and the
paths it gave to `os.Stat` and `os.ReadFile`, in order. -/
def FileServerWithExtensions (lib : http.Library) (os : FileSystem) (root : GoString)
    (w : http.ResponseWriter) (r : http.Request) : http.ResponseWriter × List GoString :=
  let fs := lib.FileServer root
  let cleanPath := filepath.Clean r.Path
  let fullPath := filepath.Join root cleanPath
  match os.Stat fullPath with
  | some info =>
    if !info.IsDir then (fs w r, [fullPath])
    else
      let indexPath := filepath.Join fullPath (lit "index.html")
      match os.Stat indexPath with
      | some _ => (fs w r, [fullPath, indexPath])
      | none =>
        FileServerWithExtensions.fallback lib os root w r cleanPath fullPath
          [fullPath, indexPath]
  | none => FileServerWithExtensions.fallback lib os root w r cleanPath fullPath [fullPath]

/-- A file system under `/srv/www` holding the directory itself and the
regular files `about.html` and `404.html`, and next to it `/srv/www.html`
and `/srv/secret`. -/
def sampleFiles : FileSystem where
  Stat := fun path =>
    if path = lit "/srv/www" then some { IsDir := true }
    else if path = lit "/srv/www/about.html" ∨ path = lit "/srv/www/404.html" ∨
        path = lit "/srv/www.html" ∨ path = lit "/srv/secret" then some { IsDir := false }
    else none
  ReadFile := fun path =>
    if path = lit "/srv/www/about.html" then some (lit "<h1>about</h1>")
    else if path = lit "/srv/www/404.html" then some (lit "<h1>gone</h1>")
    else if path = lit "/srv/www.html" then some (lit "outside")
    else if path = lit "/srv/secret" then some (lit "secret")
    else none

/-- A stand-in for `net/http`: its file server writes the name of the file it
opens for the request, and its `NotFound` answers 404 with the standard
text. -/
def sampleLibrary : http.Library where
  FileServer := fun root w r => w.Write (http.Dir.target root r.Path)
  NotFound := fun w => (w.WriteHeader 404).Write (lit "404 page not found")

/-- A GET request for the URL path `p`. -/
def requestFor (p : GoString) : http.Request :=
  { Method := lit "GET", Path := p, Header := [] }

/-! ## The memory store with slices as references

A Go `[]byte` is a reference to a backing array. To speak about who shares
an array with whom, the memory branch of `Set` and `Get` is given a second
time with the payload as a slice header into a heap of arrays; read through
the heap it is the memory branch of `Cache.Set` and `Cache.Get` above. -/

/-- The backing arrays, by address. -/
abbrev Heap := Nat → Bytes

/-- A Go slice header: backing array, offset and length. -/
structure Slice where
  array : Nat
  off : Nat
  len : Nat
  deriving DecidableEq

/-- The bytes a slice shows. -/
def Heap.read (h : Heap) (s : Slice) : Bytes := ((h s.array).drop s.off).take s.len

/-- Go `s[i] = b`. -/
def Heap.write (h : Heap) (s : Slice) (i : Nat) (b : UInt8) : Heap :=
  Function.update h s.array ((h s.array).set (s.off + i) b)

/-- Go `MemoryCacheItem`, its `Data` as a slice header. -/
structure MemoryCacheItemRef where
  Data : Slice
  ExpiresAt : Time
  deriving DecidableEq

/-- Go `memoryCache`, its payloads as slice headers. -/
abbrev MemoryStore := GoMap MemoryCacheItemRef

/-- The memory branch of Go `(*Cache).Set`: the item stored holds `value`
itself. -/
def MemoryStore.Set (m : MemoryStore) (now : Time) (key : GoString) (value : Slice)
    (ttl : Duration) : MemoryStore :=
  GoMap.Store m key { Data := value, ExpiresAt := now + ttl }

/-- The memory branch of Go `(*Cache).Get`: it returns `cached.Data` itself;
`none` is the nil slice. -/
def MemoryStore.Get (m : MemoryStore) (now : Time) (key : GoString) :
    (Option Slice × Bool) × MemoryStore :=
  match GoMap.Load m key with
  | some cached =>
    if now < cached.ExpiresAt then ((some cached.Data, true), m)
    else ((none, false), GoMap.Delete m key)
  | none => ((none, false), m)

/-- The memory store read through the heap: each payload as the bytes its
slice shows. -/
def MemoryStore.view (h : Heap) (m : MemoryStore) : GoMap MemoryCacheItem :=
  m.map (fun p => (p.1, { Data := h.read p.2.Data, ExpiresAt := p.2.ExpiresAt }))

/-- A heap whose array 0 holds the bytes 1, 2, 3. -/
def sampleHeap : Heap := fun a => if a = 0 then [1, 2, 3] else []

/-- The slice over the whole of array 0. -/
def sampleSlice : Slice := { array := 0, off := 0, len := 3 }

/-- A remote key/value store that holds the two keys written last: a `SET`
keeps, besides the key it writes, only the key written before it, and evicts
the rest. -/
def evictingRedis : RedisAPI (GoMap Bytes) GoString where
  Get := fun r key =>
    (match GoMap.Load r key with
      | some value => Except.ok value
      | none => Except.error (lit "redis: nil"), r)
  Set := fun r key value _ => (none, (key, value) :: (GoMap.Delete r key).take 1)
  Del := fun r key => (none, GoMap.Delete r key)
  Close := fun r => (none, r)

/-- A cache in Remote mode on the evicting store, which holds the image pair
of the URL `u`. -/
def remoteImageCache : Cache (GoMap Bytes) :=
  { redis := some [(lit "img_ct:u", lit "image/png"), (lit "img:u", [1])],
    memoryCache := [], useRedis := true }

/-- A cache in Remote mode on the evicting store, which holds the feed entry
of the uid `1`. -/
def remoteFeedCache : Cache (GoMap Bytes) :=
  { redis := some [(lit "dynamic:1", [2])], memoryCache := [], useRedis := true }

/-! # Theorems -/

/-! ## Maps -/

theorem GoMap.Delete_cons {V : Type} (a : GoString) (b : V) (rest : GoMap V) (k : GoString) :
    GoMap.Delete ((a, b) :: rest) k =
      if a = k then GoMap.Delete rest k else (a, b) :: GoMap.Delete rest k := by
  by_cases h : a = k <;> simp [GoMap.Delete, List.filter_cons, h]

theorem GoMap.Load_Delete_self {V : Type} (m : GoMap V) (k : GoString) :
    (m.Delete k).Load k = none := by
  induction m with
  | nil => rfl
  | cons p rest ih =>
    obtain ⟨a, b⟩ := p
    rw [GoMap.Delete_cons]
    by_cases h : a = k
    · rw [if_pos h]; exact ih
    · rw [if_neg h, GoMap.Load, if_neg h]; exact ih

theorem GoMap.Load_Delete_ne {V : Type} (m : GoMap V) (k k' : GoString) (hne : k ≠ k') :
    (m.Delete k).Load k' = m.Load k' := by
  induction m with
  | nil => rfl
  | cons p rest ih =>
    obtain ⟨a, b⟩ := p
    rw [GoMap.Delete_cons]
    by_cases h : a = k
    · have h' : a ≠ k' := fun e => hne (h.symm.trans e)
      rw [if_pos h, GoMap.Load, if_neg h']; exact ih
    · rw [if_neg h]
      by_cases h2 : a = k'
      · rw [GoMap.Load, GoMap.Load, if_pos h2, if_pos h2]
      · rw [GoMap.Load, GoMap.Load, if_neg h2, if_neg h2]; exact ih

theorem GoMap.Load_Store_self {V : Type} (m : GoMap V) (k : GoString) (v : V) :
    (m.Store k v).Load k = some v := by
  simp [GoMap.Store, GoMap.Load]

theorem GoMap.Load_Store_ne {V : Type} (m : GoMap V) (k k' : GoString) (v : V) (hne : k ≠ k') :
    (m.Store k v).Load k' = m.Load k' := by
  simp [GoMap.Store, GoMap.Load, hne, GoMap.Load_Delete_ne m k k' hne]

theorem GoMap.not_mem_keys_Delete {V : Type} (m : GoMap V) (k : GoString) :
    k ∉ (m.Delete k).keys := by
  simp [GoMap.keys, GoMap.Delete, List.mem_filter]

theorem GoMap.Load_eq_none_iff {V : Type} (m : GoMap V) (k : GoString) :
    m.Load k = none ↔ k ∉ m.keys := by
  induction m with
  | nil => simp [GoMap.Load, GoMap.keys]
  | cons p rest ih =>
    by_cases h : p.1 = k
    · simp [GoMap.Load, GoMap.keys, h]
    · have h' : k ≠ p.1 := fun e => h e.symm
      simpa [GoMap.Load, GoMap.keys, h, h'] using ih

/-! ## The cache in Memory mode -/

theorem Cache.Get_memory {R E : Type} (api : RedisAPI R E) (c : Cache R)
    (hmem : c.useRedis = false) (now : Time) (k : GoString) :
    c.Get api now k =
      match c.memoryCache.Load k with
      | some cached =>
        if now < cached.ExpiresAt then some ((cached.Data, true), c)
        else some (([], false), { c with memoryCache := c.memoryCache.Delete k })
      | none => some (([], false), c) := by
  simp [Cache.Get, hmem]

theorem Cache.Set_memory {R E : Type} (api : RedisAPI R E) (c : Cache R)
    (hmem : c.useRedis = false) (now : Time) (k : GoString) (v : Bytes) (ttl : Duration) :
    c.Set api now k v ttl =
      some (none, { c with memoryCache :=
        c.memoryCache.Store k { Data := v, ExpiresAt := now + ttl } }) := by
  simp [Cache.Set, hmem]

theorem Cache.Delete_memory {R E : Type} (api : RedisAPI R E) (c : Cache R)
    (hmem : c.useRedis = false) (k : GoString) :
    c.Delete api k = some (none, { c with memoryCache := c.memoryCache.Delete k }) := by
  simp [Cache.Delete, hmem]

/-- In Memory mode every `Get` returns, stays in Memory mode, and either
leaves the store as it is or deletes the key it read. -/
theorem Cache.Get_memory_cases {R E : Type} (api : RedisAPI R E) (c : Cache R)
    (hmem : c.useRedis = false) (now : Time) (k : GoString) :
    ∃ res c1, c.Get api now k = some (res, c1) ∧ c1.useRedis = false ∧
      (c1 = c ∨ c1 = { c with memoryCache := c.memoryCache.Delete k }) := by
  rw [Cache.Get_memory api c hmem]
  cases hl : c.memoryCache.Load k with
  | none => exact ⟨_, _, rfl, hmem, Or.inl rfl⟩
  | some cached =>
    by_cases hlt : now < cached.ExpiresAt
    · simp only [hlt, if_true]; exact ⟨_, _, rfl, hmem, Or.inl rfl⟩
    · simp only [hlt, if_false]; exact ⟨_, _, rfl, hmem, Or.inr rfl⟩

/-- A `Set` in Memory mode pins its key to the payload and deadline written. -/
theorem Pinned.of_Set {R E : Type} (api : RedisAPI R E) (c : Cache R)
    (hmem : c.useRedis = false) (t : Time) (k : GoString) (v : Bytes) (ttl : Duration)
    (T : Time) :
    ∃ c1, c.Set api t k v ttl = some (none, c1) ∧ Pinned c1 k v (t + ttl) T := by
  refine ⟨_, Cache.Set_memory api c hmem t k v ttl, hmem, Or.inl ?_⟩
  exact GoMap.Load_Store_self _ _ _

/-- A call that is no write of `k` and happens no later than `T` keeps `k`
pinned. -/
theorem Pinned.step {R E : Type} (api : RedisAPI R E) (c : Cache R) (k : GoString)
    (v : Bytes) (dl T : Time) (hp : Pinned c k v dl T) (op : Op)
    (hw : op.writes k = false) (hnow : op.now ≤ T) :
    ∃ c1, c.step api op = some c1 ∧ Pinned c1 k v dl T := by
  obtain ⟨hmem, hload⟩ := hp
  cases op with
  | get now key =>
    simp only [Op.now] at hnow
    simp only [Cache.step, Cache.Get_memory api c hmem]
    cases hl : c.memoryCache.Load key with
    | none => exact ⟨c, rfl, hmem, hload⟩
    | some cached =>
      by_cases hlt : now < cached.ExpiresAt
      · simp only [hlt, if_true]; exact ⟨c, rfl, hmem, hload⟩
      · simp only [hlt, if_false]
        refine ⟨_, rfl, hmem, ?_⟩
        by_cases hk : key = k
        · subst hk
          refine Or.inr ⟨GoMap.Load_Delete_self _ _, ?_⟩
          rcases hload with h1 | h1
          · rw [hl] at h1
            have hc : cached = { Data := v, ExpiresAt := dl } := Option.some.inj h1
            rw [hc] at hlt
            exact le_trans (not_lt.mp hlt) hnow
          · exact h1.2
        · show GoMap.Load (GoMap.Delete c.memoryCache key) k = _ ∨ _
          rw [GoMap.Load_Delete_ne _ _ _ hk]; exact hload
  | set now key value ttl =>
    have hk : key ≠ k := by simpa [Op.writes] using hw
    simp only [Cache.step, Cache.Set_memory api c hmem]
    refine ⟨_, rfl, hmem, ?_⟩
    show GoMap.Load (GoMap.Store c.memoryCache key _) k = _ ∨ _
    rw [GoMap.Load_Store_ne _ _ _ _ hk]; exact hload
  | delete now key =>
    have hk : key ≠ k := by simpa [Op.writes] using hw
    simp only [Cache.step, Cache.Delete_memory api c hmem]
    refine ⟨_, rfl, hmem, ?_⟩
    show GoMap.Load (GoMap.Delete c.memoryCache key) k = _ ∨ _
    rw [GoMap.Load_Delete_ne _ _ _ hk]; exact hload

/-- A sequence of such calls keeps `k` pinned. -/
theorem Pinned.run {R E : Type} (api : RedisAPI R E) (k : GoString) (v : Bytes)
    (dl T : Time) (ops : List Op) :
    ∀ (c : Cache R), Pinned c k v dl T →
      (∀ op ∈ ops, op.writes k = false ∧ op.now ≤ T) →
      ∃ c1, c.run api ops = some c1 ∧ Pinned c1 k v dl T := by
  induction ops with
  | nil => intro c hp _; exact ⟨c, rfl, hp⟩
  | cons op rest ih =>
    intro c hp hops
    have h0 := hops op (List.mem_cons_self _ _)
    obtain ⟨c1, hs, hp1⟩ := Pinned.step api c k v dl T hp op h0.1 h0.2
    obtain ⟨c2, hr, hp2⟩ := ih c1 hp1 (fun o ho => hops o (List.mem_cons_of_mem _ ho))
    exact ⟨c2, by simp only [Cache.run, hs, hr], hp2⟩

/-- Reading a pinned key at time `T` hits exactly before the deadline. -/
theorem Pinned.Get {R E : Type} (api : RedisAPI R E) (c : Cache R) (k : GoString)
    (v : Bytes) (dl T : Time) (hp : Pinned c k v dl T) :
    ∃ c1, c.Get api T k = some ((if T < dl then (v, true) else ([], false)), c1) ∧
      Pinned c1 k v dl T := by
  obtain ⟨hmem, hload⟩ := hp
  rw [Cache.Get_memory api c hmem]
  rcases hload with h1 | ⟨h1, h2⟩
  · rw [h1]
    by_cases hlt : T < dl
    · simp only [hlt, if_true]; exact ⟨c, rfl, hmem, Or.inl h1⟩
    · simp only [hlt, if_false]
      exact ⟨_, rfl, hmem, Or.inr ⟨GoMap.Load_Delete_self _ _, not_lt.mp hlt⟩⟩
  · rw [h1]
    have hlt : ¬ T < dl := not_lt.mpr h2
    simp only [hlt, if_false]
    exact ⟨c, rfl, hmem, Or.inr ⟨h1, h2⟩⟩

/-! ## Key prefixes -/

theorem lit_dynamic : lit "dynamic:" = [100, 121, 110, 97, 109, 105, 99, 58] := by decide

theorem lit_img : lit "img:" = [105, 109, 103, 58] := by decide

theorem lit_img_ct : lit "img_ct:" = [105, 109, 103, 95, 99, 116, 58] := by decide

theorem dynamic_ne_img (a b : GoString) : lit "dynamic:" ++ a ≠ lit "img:" ++ b := by
  rw [lit_dynamic, lit_img]; simp

theorem dynamic_ne_img_ct (a b : GoString) : lit "dynamic:" ++ a ≠ lit "img_ct:" ++ b := by
  rw [lit_dynamic, lit_img_ct]; simp

theorem img_ne_img_ct (a b : GoString) : lit "img:" ++ a ≠ lit "img_ct:" ++ b := by
  rw [lit_img, lit_img_ct]; simp

/-! ## Reads in Memory mode as functions of the bindings -/

theorem Cache.Get_memory_value {R E : Type} (api : RedisAPI R E) (c : Cache R)
    (hmem : c.useRedis = false) (now : Time) (k : GoString) :
    ∃ c1, c.Get api now k = some (readValue (c.memoryCache.Load k) now, c1) ∧
      c1.useRedis = false ∧
      ((readValue (c.memoryCache.Load k) now).2 = true → c1 = c) ∧
      (∀ k', k' ≠ k → c1.memoryCache.Load k' = c.memoryCache.Load k') := by
  rw [Cache.Get_memory api c hmem]
  cases hl : c.memoryCache.Load k with
  | none => exact ⟨c, rfl, hmem, fun _ => rfl, fun _ _ => rfl⟩
  | some cached =>
    by_cases hlt : now < cached.ExpiresAt
    · simp only [readValue, hlt, if_true]
      exact ⟨c, rfl, hmem, fun _ => rfl, fun _ _ => rfl⟩
    · simp only [readValue, hlt, if_false]
      refine ⟨_, rfl, hmem, fun h => by simp at h, fun k' hk => ?_⟩
      exact GoMap.Load_Delete_ne _ _ _ (Ne.symm hk)

theorem Cache.GetImage_memory_value {R E : Type} (api : RedisAPI R E) (c : Cache R)
    (hmem : c.useRedis = false) (now1 now2 : Time) (U : GoString) :
    ∃ c2, c.GetImage api now1 now2 U =
        some (readImage (c.memoryCache.Load (lit "img:" ++ U))
          (c.memoryCache.Load (lit "img_ct:" ++ U)) now1 now2, c2) ∧
      c2.useRedis = false := by
  obtain ⟨c1, hg1, hmem1, hsame, hframe⟩ :=
    Cache.Get_memory_value api c hmem now1 (lit "img:" ++ U)
  obtain ⟨c2, hg2, hmem2, _, _⟩ :=
    Cache.Get_memory_value api c1 hmem1 now2 (lit "img_ct:" ++ U)
  rw [hframe _ (Ne.symm (img_ne_img_ct U U))] at hg2
  unfold Cache.GetImage readImage
  rw [hg1]
  generalize readValue (c.memoryCache.Load (lit "img:" ++ U)) now1 = r1 at *
  obtain ⟨d1, ok1⟩ := r1
  cases ok1 with
  | false => exact ⟨c1, by simp, hmem1⟩
  | true =>
    simp only [Bool.not_true, Bool.false_eq_true, if_false]
    rw [hg2]
    generalize readValue (c.memoryCache.Load (lit "img_ct:" ++ U)) now2 = r2 at *
    obtain ⟨d2, ok2⟩ := r2
    cases ok2 with
    | false => exact ⟨c2, by simp, hmem2⟩
    | true => exact ⟨c2, by simp, hmem2⟩

/-! ## Time-to-live in Memory mode -/

/-- C1: in Memory mode, after `Set(k, v, ttl)` at time `t`, and after any
calls that are neither a `Set` nor a `Delete` on `k` and happen no later
than `t + d`, `Get(k)` at time `t + d` (`d ≥ 0`) returns `(v, true)` if and
only if `d < ttl` and `(nil, false)` otherwise; an entry written with
`ttl ≤ 0` is never readable. -/
theorem Cache.set_then_get_honours_ttl {R E : Type} (api : RedisAPI R E) (c : Cache R)
    (hmem : c.useRedis = false) (k : GoString) (v : Bytes) (ttl : Duration) (t d : Time)
    (hd : 0 ≤ d) (ops : List Op)
    (hops : ∀ op ∈ ops, op.writes k = false ∧ op.now ≤ t + d) :
    ∃ c1 c2 c3 res, c.Set api t k v ttl = some (none, c1) ∧ c1.run api ops = some c2 ∧
      c2.Get api (t + d) k = some (res, c3) ∧
      (res = (v, true) ↔ d < ttl) ∧ (¬ d < ttl → res = ([], false)) ∧
      (ttl ≤ 0 → res = ([], false)) := by
  obtain ⟨c1, hset, hp1⟩ := Pinned.of_Set api c hmem t k v ttl (t + d)
  obtain ⟨c2, hrun, hp2⟩ := Pinned.run api k v (t + ttl) (t + d) ops c1 hp1 hops
  obtain ⟨c3, hget, _⟩ := Pinned.Get api c2 k v (t + ttl) (t + d) hp2
  have hiff : t + d < t + ttl ↔ d < ttl := Int.add_lt_add_iff_left t
  refine ⟨c1, c2, c3, _, hset, hrun, hget, ?_, ?_, ?_⟩
  · by_cases hlt : d < ttl
    · simp [hiff, hlt]
    · simp [hiff, hlt]
  · intro hlt
    simp [hiff, hlt]
  · intro hle
    have hlt : ¬ d < ttl := not_lt.mpr (le_trans hle hd)
    simp [hiff, hlt]

theorem Cache.set_then_get_honours_ttl_witness :
    emptyMemoryCache.useRedis = false ∧ (0 : Time) ≤ 3 ∧
    (∀ op ∈ [Op.get 1 (lit "a"), Op.set 2 (lit "b") [7] 1, Op.delete 3 (lit "b")],
      op.writes (lit "a") = false ∧ op.now ≤ 0 + 3) ∧
    ∃ c1 c2 c3 res, emptyMemoryCache.Set emptyRedis 0 (lit "a") [1, 2] 5 = some (none, c1) ∧
      c1.run emptyRedis [Op.get 1 (lit "a"), Op.set 2 (lit "b") [7] 1, Op.delete 3 (lit "b")]
        = some c2 ∧
      c2.Get emptyRedis (0 + 3) (lit "a") = some (res, c3) ∧
      (res = ([1, 2], true) ↔ (3 : Time) < 5) ∧ (¬ (3 : Time) < 5 → res = ([], false)) ∧
      ((5 : Duration) ≤ 0 → res = ([], false)) :=
  ⟨rfl, by decide, by decide,
    Cache.set_then_get_honours_ttl emptyRedis emptyMemoryCache rfl (lit "a") [1, 2] 5 0 3
      (by decide) [Op.get 1 (lit "a"), Op.set 2 (lit "b") [7] 1, Op.delete 3 (lit "b")]
      (by decide)⟩

/-- C2: in Memory mode, `Get(k)` on an entry whose deadline has been reached
(`deadline ≤ now`) reports a miss and removes `k` from the store, which no
longer contains `k`; `Get(k)` on a live entry (`now < deadline`) returns its
payload and leaves the cache unchanged. -/
theorem Cache.Get_expired_deletes_live_keeps {R E : Type} (api : RedisAPI R E) (c : Cache R)
    (hmem : c.useRedis = false) (now : Time) (k : GoString) (item : MemoryCacheItem)
    (hload : c.memoryCache.Load k = some item) :
    (item.ExpiresAt ≤ now →
      ∃ c1, c.Get api now k = some (([], false), c1) ∧
        c1.memoryCache = c.memoryCache.Delete k ∧
        c1.memoryCache.Load k = none ∧ k ∉ c1.memoryCache.keys) ∧
    (now < item.ExpiresAt → c.Get api now k = some ((item.Data, true), c)) := by
  rw [Cache.Get_memory api c hmem, hload]
  constructor
  · intro hle
    have hlt : ¬ now < item.ExpiresAt := not_lt.mpr hle
    simp only [hlt, if_false]
    exact ⟨_, rfl, rfl, GoMap.Load_Delete_self _ _, GoMap.not_mem_keys_Delete _ _⟩
  · intro hlt
    simp only [hlt, if_true]

theorem Cache.Get_expired_deletes_live_keeps_witness :
    oneEntryCache.useRedis = false ∧
    oneEntryCache.memoryCache.Load (lit "a") = some (MemoryCacheItem.mk [9] 10) ∧
    (((MemoryCacheItem.mk [9] 10).ExpiresAt ≤ 10 →
      ∃ c1, oneEntryCache.Get emptyRedis 10 (lit "a") = some (([], false), c1) ∧
        c1.memoryCache = oneEntryCache.memoryCache.Delete (lit "a") ∧
        c1.memoryCache.Load (lit "a") = none ∧ lit "a" ∉ c1.memoryCache.keys) ∧
    ((10 : Time) < (MemoryCacheItem.mk [9] 10).ExpiresAt →
      oneEntryCache.Get emptyRedis 10 (lit "a")
        = some (((MemoryCacheItem.mk [9] 10).Data, true), oneEntryCache))) :=
  ⟨rfl, by decide,
    Cache.Get_expired_deletes_live_keeps emptyRedis oneEntryCache rfl 10 (lit "a")
      (MemoryCacheItem.mk [9] 10) (by decide)⟩

/-- C3: in Memory mode, after `Set(k, v1, ttl1)` followed by `Set(k, v2, ttl2)`
at time `t2`, the entry of `k` is `(v2, t2 + ttl2)` and `Get(k)` at time
`t2 + d` returns `(v2, true)` if and only if `d < ttl2`, and `(nil, false)`
otherwise, whatever `v1`, `ttl1` and the time of the first `Set`. -/
theorem Cache.set_set_get_overwrites {R E : Type} (api : RedisAPI R E) (c : Cache R)
    (hmem : c.useRedis = false) (k : GoString) (v1 v2 : Bytes) (ttl1 ttl2 : Duration)
    (t1 t2 d : Time) :
    ∃ c1 c2 c3 res, c.Set api t1 k v1 ttl1 = some (none, c1) ∧
      c1.Set api t2 k v2 ttl2 = some (none, c2) ∧
      c2.memoryCache.Load k = some { Data := v2, ExpiresAt := t2 + ttl2 } ∧
      c2.Get api (t2 + d) k = some (res, c3) ∧
      (res = (v2, true) ↔ d < ttl2) ∧ (¬ d < ttl2 → res = ([], false)) := by
  obtain ⟨c1, hset1, hp1⟩ := Pinned.of_Set api c hmem t1 k v1 ttl1 t1
  obtain ⟨c2, hset2, hp2⟩ := Pinned.of_Set api c1 hp1.1 t2 k v2 ttl2 (t2 + d)
  obtain ⟨c3, hget, _⟩ := Pinned.Get api c2 k v2 (t2 + ttl2) (t2 + d) hp2
  have hiff : t2 + d < t2 + ttl2 ↔ d < ttl2 := Int.add_lt_add_iff_left t2
  have hload : c2.memoryCache.Load k = some { Data := v2, ExpiresAt := t2 + ttl2 } := by
    rw [Cache.Set_memory api c1 hp1.1] at hset2
    have h2 := (Prod.mk.inj (Option.some.inj hset2)).2
    rw [← h2]
    exact GoMap.Load_Store_self _ _ _
  refine ⟨c1, c2, c3, _, hset1, hset2, hload, hget, ?_, ?_⟩
  · by_cases hlt : d < ttl2
    · simp [hiff, hlt]
    · simp [hiff, hlt]
  · intro hlt
    simp [hiff, hlt]

theorem Cache.set_set_get_overwrites_witness :
    emptyMemoryCache.useRedis = false ∧
    ∃ c1 c2 c3 res, emptyMemoryCache.Set emptyRedis 0 (lit "a") [1] 100 = some (none, c1) ∧
      c1.Set emptyRedis 4 (lit "a") [2] 10 = some (none, c2) ∧
      c2.memoryCache.Load (lit "a") = some { Data := [2], ExpiresAt := 4 + 10 } ∧
      c2.Get emptyRedis (4 + 10) (lit "a") = some (res, c3) ∧
      (res = ([2], true) ↔ (10 : Time) < 10) ∧ (¬ (10 : Time) < 10 → res = ([], false)) :=
  ⟨rfl, Cache.set_set_get_overwrites emptyRedis emptyMemoryCache rfl (lit "a") [1] [2]
    100 10 0 4 10⟩

/-! ## Image pairs -/

theorem readImage_eq_hit_iff (o1 o2 : Option MemoryCacheItem) (now1 now2 : Time)
    (data : Bytes) (ct : GoString) :
    readImage o1 o2 now1 now2 = (data, ct, true) ↔
      readValue o1 now1 = (data, true) ∧
        ∃ raw, readValue o2 now2 = (raw, true) ∧ ct = stringOfBytes raw := by
  unfold readImage
  generalize readValue o1 now1 = r1
  generalize readValue o2 now2 = r2
  obtain ⟨d1, ok1⟩ := r1
  obtain ⟨d2, ok2⟩ := r2
  cases ok1 <;> cases ok2 <;> simp
  intro _
  constructor
  · intro h; exact h.symm
  · intro h; exact h.symm

/-- C4: in every mode and state, `GetImage(U)` reports a hit if and only if
`Get("img:"+U)` hits and then `Get("img_ct:"+U)` hits, and it returns those
two values, the second converted to a string; every other result is
`(nil, "", false)`. In Memory mode the two reads may be taken on the same
state, a missing binding of either key gives a miss, and so does
`Delete("img_ct:"+U)` alone. -/
theorem Cache.GetImage_hit_iff_both_hit {R E : Type} (api : RedisAPI R E) (c : Cache R)
    (now1 now2 : Time) (U : GoString) :
    (∀ data ct c2, c.GetImage api now1 now2 U = some ((data, ct, true), c2) ↔
      ∃ c1 raw, c.Get api now1 (lit "img:" ++ U) = some ((data, true), c1) ∧
        c1.Get api now2 (lit "img_ct:" ++ U) = some ((raw, true), c2) ∧
        ct = stringOfBytes raw) ∧
    (∀ res c2, c.GetImage api now1 now2 U = some (res, c2) → res.2.2 = false →
      res = ([], lit "", false)) ∧
    (c.useRedis = false → ∀ data ct,
      (∃ c2, c.GetImage api now1 now2 U = some ((data, ct, true), c2)) ↔
        ((∃ c1, c.Get api now1 (lit "img:" ++ U) = some ((data, true), c1)) ∧
          ∃ raw c1, c.Get api now2 (lit "img_ct:" ++ U) = some ((raw, true), c1) ∧
            ct = stringOfBytes raw)) ∧
    (c.useRedis = false →
      (c.memoryCache.Load (lit "img:" ++ U) = none ∨
        c.memoryCache.Load (lit "img_ct:" ++ U) = none) →
      ∃ c2, c.GetImage api now1 now2 U = some (([], lit "", false), c2)) ∧
    (c.useRedis = false →
      ∃ c1 c2, c.Delete api (lit "img_ct:" ++ U) = some (none, c1) ∧
        c1.GetImage api now1 now2 U = some (([], lit "", false), c2)) := by
  have hmiss : ∀ (c0 : Cache R), c0.useRedis = false →
      (c0.memoryCache.Load (lit "img:" ++ U) = none ∨
        c0.memoryCache.Load (lit "img_ct:" ++ U) = none) →
      ∃ c2, c0.GetImage api now1 now2 U = some (([], lit "", false), c2) := by
    intro c0 hmem hnone
    obtain ⟨c2, hgi, _⟩ := Cache.GetImage_memory_value api c0 hmem now1 now2 U
    refine ⟨c2, ?_⟩
    rw [hgi]
    rcases hnone with h | h <;> simp [h, readImage, readValue]
  refine ⟨?_, ?_, ?_, hmiss c, ?_⟩
  · intro data ct c2
    cases h1 : c.Get api now1 (lit "img:" ++ U) with
    | none => simp [Cache.GetImage, h1]
    | some p1 =>
      obtain ⟨⟨d1, ok1⟩, c1⟩ := p1
      cases ok1 with
      | false => simp [Cache.GetImage, h1]
      | true =>
        cases h2 : c1.Get api now2 (lit "img_ct:" ++ U) with
        | none =>
          simp only [Cache.GetImage, h1, Bool.not_true, Bool.false_eq_true, if_false, h2]
          constructor
          · intro h; cases h
          · rintro ⟨c1', raw, hc1, hc2, _⟩
            have e1 : c1 = c1' := (Prod.mk.inj (Option.some.inj hc1)).2
            subst e1
            rw [h2] at hc2; cases hc2
        | some p2 =>
          obtain ⟨⟨d2, ok2⟩, c2'⟩ := p2
          cases ok2 with
          | false =>
            simp only [Cache.GetImage, h1, Bool.not_true, Bool.false_eq_true, if_false, h2,
              Bool.not_false, if_true]
            constructor
            · intro h; simp at h
            · rintro ⟨c1', raw, hc1, hc2, _⟩
              have e1 : c1 = c1' := (Prod.mk.inj (Option.some.inj hc1)).2
              subst e1
              rw [h2] at hc2; simp at hc2
          | true =>
            simp only [Cache.GetImage, h1, Bool.not_true, Bool.false_eq_true, if_false, h2]
            constructor
            · intro h
              simp only [Option.some.injEq, Prod.mk.injEq, and_true] at h
              obtain ⟨⟨hd, hct⟩, hc⟩ := h
              subst hd; subst hc
              exact ⟨c1, d2, rfl, h2, hct.symm⟩
            · rintro ⟨c1', raw, hc1, hc2, hct⟩
              have e0 := Prod.mk.inj (Option.some.inj hc1)
              have e1 : c1 = c1' := e0.2
              have ed : d1 = data := (Prod.mk.inj e0.1).1
              subst e1
              rw [h2] at hc2
              have e2 := Prod.mk.inj (Option.some.inj hc2)
              have er : d2 = raw := (Prod.mk.inj e2.1).1
              have ec : c2' = c2 := e2.2
              rw [ed, er, ec, hct]
  · intro res c2
    cases h1 : c.Get api now1 (lit "img:" ++ U) with
    | none => simp [Cache.GetImage, h1]
    | some p1 =>
      obtain ⟨⟨d1, ok1⟩, c1⟩ := p1
      cases ok1 with
      | false =>
        simp only [Cache.GetImage, h1, Bool.not_false, if_true, Option.some.injEq,
          Prod.mk.injEq]
        rintro ⟨h, _⟩ _; exact h.symm
      | true =>
        cases h2 : c1.Get api now2 (lit "img_ct:" ++ U) with
        | none => simp [Cache.GetImage, h1, h2]
        | some p2 =>
          obtain ⟨⟨d2, ok2⟩, c2'⟩ := p2
          cases ok2 with
          | false =>
            simp only [Cache.GetImage, h1, Bool.not_true, Bool.false_eq_true, if_false, h2,
              Bool.not_false, if_true, Option.some.injEq, Prod.mk.injEq]
            rintro ⟨h, _⟩ _; exact h.symm
          | true =>
            simp only [Cache.GetImage, h1, Bool.not_true, Bool.false_eq_true, if_false, h2,
              Option.some.injEq, Prod.mk.injEq]
            rintro ⟨h, _⟩ hf
            rw [← h] at hf; simp at hf
  · intro hmem data ct
    obtain ⟨c2, hgi, _⟩ := Cache.GetImage_memory_value api c hmem now1 now2 U
    obtain ⟨ca, hga, _, _, _⟩ := Cache.Get_memory_value api c hmem now1 (lit "img:" ++ U)
    obtain ⟨cb, hgb, _, _, _⟩ := Cache.Get_memory_value api c hmem now2 (lit "img_ct:" ++ U)
    rw [hgi, hga, hgb]
    constructor
    · rintro ⟨c2', h⟩
      have h' := (Prod.mk.inj (Option.some.inj h)).1
      obtain ⟨h1, raw, h2, h3⟩ := (readImage_eq_hit_iff _ _ _ _ _ _).mp h'
      exact ⟨⟨ca, by rw [h1]⟩, raw, cb, by rw [h2], h3⟩
    · rintro ⟨⟨c1, h1⟩, raw, c1', h2, h3⟩
      have h1' := (Prod.mk.inj (Option.some.inj h1)).1
      have h2' := (Prod.mk.inj (Option.some.inj h2)).1
      exact ⟨c2, by rw [(readImage_eq_hit_iff _ _ _ _ _ _).mpr ⟨h1', raw, h2', h3⟩]⟩
  · intro hmem
    obtain ⟨c2, h⟩ :=
      hmiss { c with memoryCache := c.memoryCache.Delete (lit "img_ct:" ++ U) } hmem
        (Or.inr (GoMap.Load_Delete_self _ _))
    exact ⟨_, c2, Cache.Delete_memory api c hmem _, h⟩

theorem Pinned.readValue {R : Type} (c : Cache R) (k : GoString) (v : Bytes) (dl T : Time)
    (hp : Pinned c k v dl T) :
    Moesekai.readValue (c.memoryCache.Load k) T = if T < dl then (v, true) else ([], false) := by
  rcases hp.2 with h | ⟨h, hle⟩
  · rw [h]; rfl
  · rw [h]
    have hlt : ¬ T < dl := not_lt.mpr hle
    simp [Moesekai.readValue, hlt]

theorem Cache.SetImage_memory {R E : Type} (api : RedisAPI R E) (c : Cache R)
    (hmem : c.useRedis = false) (t1 t2 : Time) (U : GoString) (p : Bytes) (ct : GoString)
    (T1 T2 : Time) :
    ∃ c1, c.SetImage api t1 t2 U p ct = some (none, c1) ∧
      Pinned c1 (lit "img:" ++ U) p (t1 + ImageCacheTTL) T1 ∧
      Pinned c1 (lit "img_ct:" ++ U) (bytesOfString ct) (t2 + ImageCacheTTL) T2 ∧
      (∀ k, k ≠ lit "img:" ++ U → k ≠ lit "img_ct:" ++ U →
        c1.memoryCache.Load k = c.memoryCache.Load k) := by
  have hs1 := Cache.Set_memory api c hmem t1 (lit "img:" ++ U) p ImageCacheTTL
  have hs2 := Cache.Set_memory api
    { c with memoryCache :=
        c.memoryCache.Store (lit "img:" ++ U) (MemoryCacheItem.mk p (t1 + ImageCacheTTL)) }
    hmem t2 (lit "img_ct:" ++ U) (bytesOfString ct) ImageCacheTTL
  refine ⟨{ c with memoryCache := (GoMap.Store
      (GoMap.Store c.memoryCache (lit "img:" ++ U) (MemoryCacheItem.mk p (t1 + ImageCacheTTL)))
      (lit "img_ct:" ++ U) (MemoryCacheItem.mk (bytesOfString ct) (t2 + ImageCacheTTL))) },
    ?_, ⟨hmem, Or.inl ?_⟩, ⟨hmem, Or.inl ?_⟩, ?_⟩
  · unfold Cache.SetImage
    rw [hs1]
    exact hs2
  · show GoMap.Load (GoMap.Store (GoMap.Store c.memoryCache _ _) _ _) _ = _
    rw [GoMap.Load_Store_ne _ _ _ _ (Ne.symm (img_ne_img_ct U U))]
    exact GoMap.Load_Store_self _ _ _
  · exact GoMap.Load_Store_self _ _ _
  · intro k hk1 hk2
    show GoMap.Load (GoMap.Store (GoMap.Store c.memoryCache _ _) _ _) _ = _
    rw [GoMap.Load_Store_ne _ _ _ _ (Ne.symm hk2), GoMap.Load_Store_ne _ _ _ _ (Ne.symm hk1)]

/-- C5: in Memory mode `SetImage(U, p, ct)`, whose two writes read the clock
at `t1 ≤ t2`, returns nil; after any calls that write neither of the two keys
of `U`, `GetImage(U)`, whose two reads happen at `g1 ≤ g2`, returns
`(p, ct, true)` exactly when `g1 < t1 + 60 min` and `g2 < t2 + 60 min`, and a
miss otherwise. So it hits when it ends before `t1 + 60 min` and misses when
it starts at or after `t1 + 60 min`; for instantaneous calls (`t1 = t2 = t`,
`g1 = g2 = g`) it hits if and only if `g < t + 60 min`. -/
theorem Cache.SetImage_then_GetImage {R E : Type} (api : RedisAPI R E) (c : Cache R)
    (hmem : c.useRedis = false) (U : GoString) (p : Bytes) (ct : GoString)
    (t1 t2 g1 g2 : Time) (ht : t1 ≤ t2) (hg : g1 ≤ g2) (ops : List Op)
    (hops : ∀ op ∈ ops, op.writes (lit "img:" ++ U) = false ∧
      op.writes (lit "img_ct:" ++ U) = false ∧ op.now ≤ g1) :
    ∃ c1 c2 c3 res, c.SetImage api t1 t2 U p ct = some (none, c1) ∧
      c1.run api ops = some c2 ∧
      c2.GetImage api g1 g2 U = some (res, c3) ∧
      (res = (p, ct, true) ↔ (g1 < t1 + 60 * Minute ∧ g2 < t2 + 60 * Minute)) ∧
      (res = (p, ct, true) ∨ res = ([], lit "", false)) ∧
      (g2 < t1 + 60 * Minute → res = (p, ct, true)) ∧
      (t1 + 60 * Minute ≤ g1 → res = ([], lit "", false)) ∧
      (t1 = t2 → g1 = g2 → (res = (p, ct, true) ↔ g1 < t1 + 60 * Minute)) := by
  have httl : ImageCacheTTL = 60 * Minute := by decide
  obtain ⟨c1, hset, hp1, hp2, _⟩ := Cache.SetImage_memory api c hmem t1 t2 U p ct g1 g2
  rw [httl] at hp1 hp2
  obtain ⟨c2, hrun, hq1⟩ := Pinned.run api _ _ _ _ ops c1 hp1
    (fun op ho => ⟨(hops op ho).1, (hops op ho).2.2⟩)
  obtain ⟨c2', hrun', hq2⟩ := Pinned.run api _ _ _ _ ops c1 hp2
    (fun op ho => ⟨(hops op ho).2.1, le_trans (hops op ho).2.2 hg⟩)
  have e2 : c2' = c2 := Option.some.inj (hrun'.symm.trans hrun)
  rw [e2] at hq2
  obtain ⟨c3, hgi, _⟩ := Cache.GetImage_memory_value api c2 hq1.1 g1 g2 U
  have hr1 := Pinned.readValue c2 _ _ _ _ hq1
  have hr2 := Pinned.readValue c2 _ _ _ _ hq2
  have hres : readImage (c2.memoryCache.Load (lit "img:" ++ U))
      (c2.memoryCache.Load (lit "img_ct:" ++ U)) g1 g2 =
      if g1 < t1 + 60 * Minute ∧ g2 < t2 + 60 * Minute then (p, ct, true)
      else ([], lit "", false) := by
    unfold readImage
    rw [hr1, hr2]
    by_cases h1 : g1 < t1 + 60 * Minute <;> by_cases h2 : g2 < t2 + 60 * Minute <;>
      simp [h1, h2, stringOfBytes, bytesOfString]
  rw [hres] at hgi
  have hiff : (if g1 < t1 + 60 * Minute ∧ g2 < t2 + 60 * Minute then (p, ct, true)
      else (([], lit "", false) : Bytes × GoString × Bool)) = (p, ct, true) ↔
      (g1 < t1 + 60 * Minute ∧ g2 < t2 + 60 * Minute) := by
    by_cases h : g1 < t1 + 60 * Minute ∧ g2 < t2 + 60 * Minute
    · simp [h]
    · simp [h]
  refine ⟨c1, c2, c3, _, hset, hrun, hgi, hiff, ?_, ?_, ?_, ?_⟩
  · by_cases h : g1 < t1 + 60 * Minute ∧ g2 < t2 + 60 * Minute
    · left; simp [h]
    · right; simp [h]
  · intro h
    have h1 : g1 < t1 + 60 * Minute := lt_of_le_of_lt hg h
    have h2 : g2 < t2 + 60 * Minute := lt_of_lt_of_le h (Int.add_le_add_right ht _)
    simp [h1, h2]
  · intro h
    have h1 : ¬ g1 < t1 + 60 * Minute := not_lt.mpr h
    simp [h1]
  · intro e1 e2
    subst e1; subst e2
    rw [hiff]
    exact and_self_iff

theorem Cache.SetImage_then_GetImage_witness :
    emptyMemoryCache.useRedis = false ∧ (0 : Time) ≤ 2 ∧ (7 : Time) ≤ 9 ∧
    (∀ op ∈ [Op.get 3 (lit "img:u"), Op.set 4 (lit "dynamic:1") [5] 6],
      op.writes (lit "img:" ++ lit "u") = false ∧
      op.writes (lit "img_ct:" ++ lit "u") = false ∧ op.now ≤ 7) ∧
    ∃ c1 c2 c3 res,
      emptyMemoryCache.SetImage emptyRedis 0 2 (lit "u") [255, 216] (lit "image/jpeg")
        = some (none, c1) ∧
      c1.run emptyRedis [Op.get 3 (lit "img:u"), Op.set 4 (lit "dynamic:1") [5] 6] = some c2 ∧
      c2.GetImage emptyRedis 7 9 (lit "u") = some (res, c3) ∧
      (res = ([255, 216], lit "image/jpeg", true) ↔
        ((7 : Time) < 0 + 60 * Minute ∧ (9 : Time) < 2 + 60 * Minute)) ∧
      (res = ([255, 216], lit "image/jpeg", true) ∨ res = ([], lit "", false)) ∧
      ((9 : Time) < 0 + 60 * Minute → res = ([255, 216], lit "image/jpeg", true)) ∧
      ((0 : Time) + 60 * Minute ≤ 7 → res = ([], lit "", false)) ∧
      ((0 : Time) = 2 → (7 : Time) = 9 →
        (res = ([255, 216], lit "image/jpeg", true) ↔ (7 : Time) < 0 + 60 * Minute)) :=
  ⟨rfl, by decide, by decide, by decide,
    Cache.SetImage_then_GetImage emptyRedis emptyMemoryCache rfl (lit "u") [255, 216]
      (lit "image/jpeg") 0 2 7 9 (by decide) (by decide)
      [Op.get 3 (lit "img:u"), Op.set 4 (lit "dynamic:1") [5] 6] (by decide)⟩

/-! ## Feed entries -/

/-- C6: `GetDynamic(uid)` is `Get("dynamic:"+uid)` and `SetDynamic(uid, data)`
is `Set("dynamic:"+uid, data, 10 min)`; hence in Memory mode
`SetDynamic(uid, data)` at time `t` followed by `GetDynamic(uid)` at `t + d`
returns `(data, true)` when `d < 10 min` and a miss when `d ≥ 10 min`, and a
generic `Set("dynamic:42", v, 10 min)` is read back by `GetDynamic("42")`. -/
theorem Cache.dynamic_helpers {R E : Type} (api : RedisAPI R E) (c : Cache R)
    (uid : GoString) (data v : Bytes) (t d : Time) :
    (∀ now, c.GetDynamic api now uid = c.Get api now (lit "dynamic:" ++ uid)) ∧
    (∀ now, c.SetDynamic api now uid data =
      c.Set api now (lit "dynamic:" ++ uid) data (10 * Minute)) ∧
    (c.useRedis = false →
      ∃ c1 c2 res, c.SetDynamic api t uid data = some (none, c1) ∧
        c1.GetDynamic api (t + d) uid = some (res, c2) ∧
        (d < 10 * Minute → res = (data, true)) ∧
        (10 * Minute ≤ d → res = ([], false))) ∧
    (c.useRedis = false →
      ∃ c1 c2 res, c.Set api t (lit "dynamic:42") v (10 * Minute) = some (none, c1) ∧
        c1.GetDynamic api (t + d) (lit "42") = some (res, c2) ∧
        (d < 10 * Minute → res = (v, true)) ∧
        (10 * Minute ≤ d → res = ([], false))) := by
  have hkey : lit "dynamic:42" = lit "dynamic:" ++ lit "42" := by decide
  have hread : ∀ (k : GoString) (w : Bytes), c.useRedis = false →
      ∃ c1 c2 res, c.Set api t k w (10 * Minute) = some (none, c1) ∧
        c1.Get api (t + d) k = some (res, c2) ∧
        (d < 10 * Minute → res = (w, true)) ∧
        (10 * Minute ≤ d → res = ([], false)) := by
    intro k w hmem
    obtain ⟨c1, hset, hp⟩ := Pinned.of_Set api c hmem t k w (10 * Minute) (t + d)
    obtain ⟨c2, hget, _⟩ := Pinned.Get api c1 k w _ _ hp
    have hiff : t + d < t + 10 * Minute ↔ d < 10 * Minute := Int.add_lt_add_iff_left t
    refine ⟨c1, c2, _, hset, hget, ?_, ?_⟩
    · intro h; simp [hiff, h]
    · intro h
      have h' : ¬ d < 10 * Minute := not_lt.mpr h
      simp [hiff, h']
  refine ⟨fun _ => rfl, fun _ => rfl, ?_, ?_⟩
  · intro hmem
    exact hread (lit "dynamic:" ++ uid) data hmem
  · intro hmem
    rw [hkey]
    exact hread (lit "dynamic:" ++ lit "42") v hmem

theorem Cache.dynamic_helpers_witness :
    (∀ now, emptyMemoryCache.GetDynamic emptyRedis now (lit "42") =
      emptyMemoryCache.Get emptyRedis now (lit "dynamic:" ++ lit "42")) ∧
    (∀ now, emptyMemoryCache.SetDynamic emptyRedis now (lit "42") [123, 125] =
      emptyMemoryCache.Set emptyRedis now (lit "dynamic:" ++ lit "42") [123, 125]
        (10 * Minute)) ∧
    (emptyMemoryCache.useRedis = false →
      ∃ c1 c2 res, emptyMemoryCache.SetDynamic emptyRedis 0 (lit "42") [123, 125]
          = some (none, c1) ∧
        c1.GetDynamic emptyRedis (0 + 10 * Minute) (lit "42") = some (res, c2) ∧
        (10 * Minute < 10 * Minute → res = ([123, 125], true)) ∧
        (10 * Minute ≤ 10 * Minute → res = ([], false))) ∧
    (emptyMemoryCache.useRedis = false →
      ∃ c1 c2 res, emptyMemoryCache.Set emptyRedis 0 (lit "dynamic:42") [1] (10 * Minute)
          = some (none, c1) ∧
        c1.GetDynamic emptyRedis (0 + 10 * Minute) (lit "42") = some (res, c2) ∧
        (10 * Minute < 10 * Minute → res = ([1], true)) ∧
        (10 * Minute ≤ 10 * Minute → res = ([], false))) :=
  Cache.dynamic_helpers emptyRedis emptyMemoryCache (lit "42") [123, 125] [1] 0 (10 * Minute)

/-! ## Key spaces of the helpers -/

theorem Cache.Get_memory_fst {R E : Type} (api : RedisAPI R E) (c : Cache R)
    (hmem : c.useRedis = false) (now : Time) (k : GoString) :
    (c.Get api now k).map Prod.fst = some (readValue (c.memoryCache.Load k) now) := by
  obtain ⟨c1, h, _⟩ := Cache.Get_memory_value api c hmem now k
  rw [h]; rfl

theorem Cache.GetImage_memory_fst {R E : Type} (api : RedisAPI R E) (c : Cache R)
    (hmem : c.useRedis = false) (now1 now2 : Time) (U : GoString) :
    (c.GetImage api now1 now2 U).map Prod.fst =
      some (readImage (c.memoryCache.Load (lit "img:" ++ U))
        (c.memoryCache.Load (lit "img_ct:" ++ U)) now1 now2) := by
  obtain ⟨c2, h, _⟩ := Cache.GetImage_memory_value api c hmem now1 now2 U
  rw [h]; rfl

theorem Cache.Set_memory_frame {R E : Type} (api : RedisAPI R E) (c : Cache R)
    (hmem : c.useRedis = false) (t : Time) (k : GoString) (v : Bytes) (ttl : Duration) :
    ∃ c1, c.Set api t k v ttl = some (none, c1) ∧ c1.useRedis = false ∧
      ∀ k', k' ≠ k → c1.memoryCache.Load k' = c.memoryCache.Load k' := by
  refine ⟨_, Cache.Set_memory api c hmem t k v ttl, hmem, fun k' hk => ?_⟩
  exact GoMap.Load_Store_ne _ _ _ _ (Ne.symm hk)

/-- C7, the claim fails: in Remote mode the result of a read is the
backend's. On a store that keeps the two keys written last, `GetImage("u")`
hits, and after `SetDynamic("1", ..)`, which returns nil, it misses;
`GetDynamic("1")` hits, and after `SetImage("u", ..)` it misses; and
`GetImage("u")` misses after `SetImage("v", ..)`. -/
theorem helpers_interfere_on_evicting_backend :
    (remoteImageCache.GetImage evictingRedis 0 0 (lit "u")).map Prod.fst =
      some ([1], lit "image/png", true) ∧
    (remoteImageCache.SetDynamic evictingRedis 0 (lit "1") [2]).map Prod.fst = some none ∧
    ((remoteImageCache.SetDynamic evictingRedis 0 (lit "1") [2]).bind
      (fun x => (x.2.GetImage evictingRedis 0 0 (lit "u")).map Prod.fst)) =
      some ([], lit "", false) ∧
    (remoteFeedCache.GetDynamic evictingRedis 0 (lit "1")).map Prod.fst = some ([2], true) ∧
    (remoteFeedCache.SetImage evictingRedis 0 0 (lit "u") [1] (lit "image/png")).map Prod.fst =
      some none ∧
    ((remoteFeedCache.SetImage evictingRedis 0 0 (lit "u") [1] (lit "image/png")).bind
      (fun x => (x.2.GetDynamic evictingRedis 0 (lit "1")).map Prod.fst)) =
      some ([], false) ∧
    lit "v" ≠ lit "u" ∧
    ((remoteImageCache.SetImage evictingRedis 0 0 (lit "v") [3] (lit "image/gif")).bind
      (fun x => (x.2.GetImage evictingRedis 0 0 (lit "u")).map Prod.fst)) =
      some ([], lit "", false) := by
  decide

/-- C7 as amended: the helper key mappings partition the key space: for all
strings `a` and `b` the keys `"dynamic:"+a`, `"img:"+b` and `"img_ct:"+b`
are pairwise distinct across helpers, and each mapping is injective.
Consequently, in Memory mode, `SetDynamic` never changes the result of any
`GetImage`, `SetImage` never changes the result of any `GetDynamic`, and
`SetImage(a, ..)` never changes the result of `GetImage(b)` for `a ≠ b`. In
Remote mode `SetDynamic(a, ..)` is the backend's `SET` of `"dynamic:"+a` and
`SetImage(a, ..)` is the backend's `SET` of `"img:"+a` followed, if that
succeeds, by its `SET` of `"img_ct:"+a`: the helpers send commands on their
own keys only. -/
theorem helper_keys_partition (a b : GoString) :
    lit "dynamic:" ++ a ≠ lit "img:" ++ b ∧
    lit "dynamic:" ++ a ≠ lit "img_ct:" ++ b ∧
    lit "img:" ++ a ≠ lit "img_ct:" ++ b ∧
    (lit "dynamic:" ++ a = lit "dynamic:" ++ b → a = b) ∧
    (lit "img:" ++ a = lit "img:" ++ b → a = b) ∧
    (lit "img_ct:" ++ a = lit "img_ct:" ++ b → a = b) ∧
    (∀ (R E : Type) (api : RedisAPI R E) (c : Cache R), c.useRedis = false →
      ∀ (t g1 g2 : Time) (data : Bytes),
        ∃ c1, c.SetDynamic api t a data = some (none, c1) ∧
          (c1.GetImage api g1 g2 b).map Prod.fst = (c.GetImage api g1 g2 b).map Prod.fst) ∧
    (∀ (R E : Type) (api : RedisAPI R E) (c : Cache R), c.useRedis = false →
      ∀ (t1 t2 g : Time) (p : Bytes) (ct : GoString),
        ∃ c1, c.SetImage api t1 t2 a p ct = some (none, c1) ∧
          (c1.GetDynamic api g b).map Prod.fst = (c.GetDynamic api g b).map Prod.fst) ∧
    (a ≠ b → ∀ (R E : Type) (api : RedisAPI R E) (c : Cache R), c.useRedis = false →
      ∀ (t1 t2 g1 g2 : Time) (p : Bytes) (ct : GoString),
        ∃ c1, c.SetImage api t1 t2 a p ct = some (none, c1) ∧
          (c1.GetImage api g1 g2 b).map Prod.fst = (c.GetImage api g1 g2 b).map Prod.fst) ∧
    (∀ (R E : Type) (api : RedisAPI R E) (c : Cache R) (r : R), c.useRedis = true →
      c.redis = some r → ∀ (t : Time) (data : Bytes),
        c.SetDynamic api t a data =
          some ((api.Set r (lit "dynamic:" ++ a) data (10 * Minute)).1,
            Cache.mk (some (api.Set r (lit "dynamic:" ++ a) data (10 * Minute)).2)
              c.memoryCache c.useRedis)) ∧
    (∀ (R E : Type) (api : RedisAPI R E) (c : Cache R) (r : R), c.useRedis = true →
      c.redis = some r → ∀ (t1 t2 : Time) (p : Bytes) (ct : GoString),
        (∀ e r1, api.Set r (lit "img:" ++ a) p (60 * Minute) = (some e, r1) →
          c.SetImage api t1 t2 a p ct =
            some (some e, Cache.mk (some r1) c.memoryCache c.useRedis)) ∧
        (∀ r1, api.Set r (lit "img:" ++ a) p (60 * Minute) = (none, r1) →
          c.SetImage api t1 t2 a p ct =
            some ((api.Set r1 (lit "img_ct:" ++ a) (bytesOfString ct) (60 * Minute)).1,
              Cache.mk (some (api.Set r1 (lit "img_ct:" ++ a) (bytesOfString ct)
                (60 * Minute)).2) c.memoryCache c.useRedis))) := by
  have hsetr : ∀ (R E : Type) (api : RedisAPI R E) (c : Cache R) (r : R),
      c.useRedis = true → c.redis = some r →
      ∀ (t : Time) (k : GoString) (v : Bytes) (ttl : Duration),
        c.Set api t k v ttl =
          some ((api.Set r k v ttl).1,
            Cache.mk (some (api.Set r k v ttl).2) c.memoryCache c.useRedis) := by
    intro R E api c r hremote hr t k v ttl
    unfold Cache.Set
    rw [hremote, hr]
    rfl
  have httl : ImageCacheTTL = 60 * Minute := by decide
  refine ⟨dynamic_ne_img a b, dynamic_ne_img_ct a b, img_ne_img_ct a b,
    List.append_cancel_left, List.append_cancel_left, List.append_cancel_left, ?_, ?_, ?_,
    ?_, ?_⟩
  · intro R E api c hmem t g1 g2 data
    obtain ⟨c1, hset, hmem1, hframe⟩ :=
      Cache.Set_memory_frame api c hmem t (lit "dynamic:" ++ a) data DynamicCacheTTL
    refine ⟨c1, hset, ?_⟩
    rw [Cache.GetImage_memory_fst api c1 hmem1, Cache.GetImage_memory_fst api c hmem,
      hframe _ (Ne.symm (dynamic_ne_img a b)), hframe _ (Ne.symm (dynamic_ne_img_ct a b))]
  · intro R E api c hmem t1 t2 g p ct
    obtain ⟨c1, hset, hp, _, hframe⟩ := Cache.SetImage_memory api c hmem t1 t2 a p ct 0 0
    refine ⟨c1, hset, ?_⟩
    unfold Cache.GetDynamic
    rw [Cache.Get_memory_fst api c1 hp.1, Cache.Get_memory_fst api c hmem,
      hframe _ (dynamic_ne_img b a) (dynamic_ne_img_ct b a)]
  · intro hab R E api c hmem t1 t2 g1 g2 p ct
    obtain ⟨c1, hset, hp, _, hframe⟩ := Cache.SetImage_memory api c hmem t1 t2 a p ct 0 0
    refine ⟨c1, hset, ?_⟩
    have hba : b ≠ a := Ne.symm hab
    rw [Cache.GetImage_memory_fst api c1 hp.1, Cache.GetImage_memory_fst api c hmem,
      hframe _ (fun e => hba (List.append_cancel_left e)) (img_ne_img_ct b a),
      hframe _ (fun e => img_ne_img_ct a b e.symm) (fun e => hba (List.append_cancel_left e))]
  · intro R E api c r hremote hr t data
    exact hsetr R E api c r hremote hr t _ data _
  · intro R E api c r hremote hr t1 t2 p ct
    constructor
    · intro e r1 h1
      unfold Cache.SetImage
      rw [httl, hsetr R E api c r hremote hr t1 _ p _, h1]
    · intro r1 h1
      unfold Cache.SetImage
      rw [httl, hsetr R E api c r hremote hr t1 _ p _, h1]
      exact hsetr R E api (Cache.mk (some r1) c.memoryCache c.useRedis) r1 hremote rfl t2 _ _ _

/-! ## Middleware chain -/

theorem nested_append_singleton (h : http.Handler) (l : List (http.Handler → http.Handler))
    (m : http.Handler → http.Handler) : nested h (l ++ [m]) = nested (m h) l := by
  induction l with
  | nil => rfl
  | cons w rest ih =>
    show w (nested h (rest ++ [m])) = w (nested (m h) rest)
    rw [ih]

theorem Chain.loop_eq_nested (ws : List (http.Handler → http.Handler)) :
    ∀ (n : Nat) (h : http.Handler), n ≤ ws.length →
      Chain.loop ws n h = nested h (ws.take n) := by
  intro n
  induction n with
  | zero => intro h _; simp [Chain.loop, nested]
  | succ n ih =>
    intro h hn
    have hlt : n < ws.length := hn
    have hget : ws[n]? = some ws[n] := List.getElem?_eq_getElem hlt
    rw [Chain.loop, hget]
    simp only
    rw [ih (ws[n] h) (Nat.le_of_lt hlt), List.take_succ, hget]
    simp only [Option.toList]
    rw [nested_append_singleton]

theorem Chain_eq_nested (h : http.Handler) (ws : List (http.Handler → http.Handler)) :
    Chain h ws = nested h ws := by
  unfold Chain
  rw [Chain.loop_eq_nested ws ws.length h (Nat.le_refl _), List.take_length]

theorem nested_marking (h : http.Handler) (tags : List (Bytes × Bytes)) :
    ∀ (w : http.ResponseWriter) (r : http.Request),
      nested h (tags.map (fun p => marking p.1 p.2)) w r =
        (tags.reverse.map Prod.snd).foldl http.ResponseWriter.Write
          (h ((tags.map Prod.fst).foldl http.ResponseWriter.Write w) r) := by
  induction tags with
  | nil => intro w r; rfl
  | cons p rest ih =>
    intro w r
    simp only [List.map_cons, nested, marking, List.reverse_cons, List.map_append,
      List.foldl_append, List.foldl_cons, List.foldl_nil, List.map_nil]
    rw [ih]

/-- C8: for every terminal handler `h` and middlewares `[w1, ..., wn]`,
`Chain(h, w1, ..., wn)` is `w1(w2(...wn(h)...))`: the first middleware is the
outermost wrapper and with no middleware `Chain` returns `h` itself. With
middlewares that write a mark on the way in and another on the way out, the
marks come in the order `w1, ..., wn` before `h` runs and in the order
`wn, ..., w1` after it. -/
theorem Chain_first_is_outermost (h : http.Handler)
    (ws : List (http.Handler → http.Handler)) :
    Chain h ws = nested h ws ∧
    Chain h [] = h ∧
    (∀ w1, Chain h (w1 :: ws) = w1 (Chain h ws)) ∧
    (∀ (tags : List (Bytes × Bytes)) (w : http.ResponseWriter) (r : http.Request),
      Chain h (tags.map (fun p => marking p.1 p.2)) w r =
        (tags.reverse.map Prod.snd).foldl http.ResponseWriter.Write
          (h ((tags.map Prod.fst).foldl http.ResponseWriter.Write w) r)) := by
  refine ⟨Chain_eq_nested h ws, rfl, ?_, ?_⟩
  · intro w1
    rw [Chain_eq_nested, Chain_eq_nested]
    rfl
  · intro tags w r
    rw [Chain_eq_nested]
    exact nested_marking h tags w r

/-! ## Response writers -/

theorem strings.Contains_iff_infix (s substr : GoString) :
    strings.Contains s substr = true ↔ substr <:+: s := by
  induction s with
  | nil =>
    cases substr with
    | nil => simp [strings.Contains]
    | cons b rest => simp [strings.Contains]
  | cons c s ih =>
    rw [strings.Contains, Bool.or_eq_true, ih, List.isPrefixOf_iff_prefix, List.infix_cons_iff]

theorem http.ResponseWriter.Header_setHeader (w : http.ResponseWriter) (key value : GoString) :
    (w.setHeader key value).Header = http.Header.Set w.Header key value := by
  induction w with
  | server resp => rfl
  | gzip pending under ih => simpa [http.ResponseWriter.setHeader, http.ResponseWriter.Header] using ih

theorem http.ResponseWriter.response_setHeader (w : http.ResponseWriter) (key value : GoString) :
    (w.setHeader key value).response.status = w.response.status ∧
      (w.setHeader key value).response.body = w.response.body := by
  induction w with
  | server resp => exact ⟨rfl, rfl⟩
  | gzip pending under ih =>
    simpa [http.ResponseWriter.setHeader, http.ResponseWriter.response] using ih

theorem http.ResponseWriter.depth_setHeader (w : http.ResponseWriter) (key value : GoString) :
    (w.setHeader key value).depth = w.depth := by
  induction w with
  | server resp => rfl
  | gzip pending under ih => simpa [http.ResponseWriter.setHeader, http.ResponseWriter.depth] using ih

theorem http.ResponseWriter.Header_WriteHeader (w : http.ResponseWriter) (code : Nat) :
    (w.WriteHeader code).Header = w.Header := by
  induction w with
  | server resp => rfl
  | gzip pending under ih =>
    simpa [http.ResponseWriter.WriteHeader, http.ResponseWriter.Header] using ih

theorem http.Header.Load_Set_self (h : http.Header) (key value : GoString) :
    GoMap.Load (http.Header.Set h key value) key = some [value] :=
  GoMap.Load_Store_self _ _ _

theorem http.Header.Load_Set_ne (h : http.Header) (key value k' : GoString) (hne : key ≠ k') :
    GoMap.Load (http.Header.Set h key value) k' = GoMap.Load h k' :=
  GoMap.Load_Store_ne _ _ _ _ hne

/-! ## Compression -/

/-- C9, the claim fails: a request with `Accept-Encoding: GZIP` contains
`gzip` under a case-insensitive match, yet `Gzip` passes it through with the
original writer and sets no `Content-Encoding`. -/
theorem Gzip_uppercase_passes_through :
    specAcceptsGzip (http.Header.Get (requestAccepting (lit "GZIP")).Header
      (lit "Accept-Encoding")) = true ∧
    Gzip id helloHandler freshWriter (requestAccepting (lit "GZIP")) =
      helloHandler freshWriter (requestAccepting (lit "GZIP")) ∧
    GoMap.Load (Gzip id helloHandler freshWriter (requestAccepting (lit "GZIP"))).Header
      (lit "Content-Encoding") = none := by
  decide

/-- C9 as amended: `Gzip` passes the request through unchanged (the handler
gets the original writer, no `Content-Encoding` is set) exactly when the
`Accept-Encoding` header does not contain `gzip` as a case-sensitive
substring, which is the case for `GZIP` and for `GZip, deflate`; for every
other request, such as `gzip, deflate`, it sets `Content-Encoding: gzip`
before the downstream handler has written anything and hands the handler the
compressing writer, whose encoder is closed when the handler returns. -/
theorem Gzip_passes_through_iff_no_gzip (compress : Bytes → Bytes) (w : http.ResponseWriter)
    (r : http.Request) :
    ((∀ next : http.Handler, Gzip compress next w r = next w r) ↔
      strings.Contains (http.Header.Get r.Header (lit "Accept-Encoding")) (lit "gzip")
        = false) ∧
    (strings.Contains (http.Header.Get r.Header (lit "Accept-Encoding")) (lit "gzip") = true ↔
      lit "gzip" <:+: http.Header.Get r.Header (lit "Accept-Encoding")) ∧
    (strings.Contains (http.Header.Get r.Header (lit "Accept-Encoding")) (lit "gzip") = true →
      ∀ next : http.Handler, Gzip compress next w r =
        gzipClose compress
          (next (http.ResponseWriter.gzip [] (w.setHeader (lit "Content-Encoding") (lit "gzip")))
            r)) ∧
    GoMap.Load
      (http.ResponseWriter.gzip [] (w.setHeader (lit "Content-Encoding") (lit "gzip"))).Header
      (lit "Content-Encoding") = some [lit "gzip"] ∧
    (w.setHeader (lit "Content-Encoding") (lit "gzip")).response.status = w.response.status ∧
    (w.setHeader (lit "Content-Encoding") (lit "gzip")).response.body = w.response.body ∧
    (∀ b, (http.ResponseWriter.gzip [] (w.setHeader (lit "Content-Encoding") (lit "gzip"))).Write b
      = http.ResponseWriter.gzip b (w.setHeader (lit "Content-Encoding") (lit "gzip"))) ∧
    strings.Contains (lit "GZIP") (lit "gzip") = false ∧
    strings.Contains (lit "GZip, deflate") (lit "gzip") = false ∧
    strings.Contains (lit "gzip, deflate") (lit "gzip") = true := by
  refine ⟨?_, strings.Contains_iff_infix _ _, ?_, ?_,
    (http.ResponseWriter.response_setHeader w _ _).1,
    (http.ResponseWriter.response_setHeader w _ _).2, fun b => rfl,
    by decide, by decide, by decide⟩
  · constructor
    · intro hall
      by_contra hc
      have hc' : strings.Contains (http.Header.Get r.Header (lit "Accept-Encoding"))
          (lit "gzip") = true := by simpa using hc
      have h := hall (fun w' _ =>
        if w'.depth = w.depth then
          http.ResponseWriter.server { header := [], status := none, body := [] }
        else http.ResponseWriter.server { header := [], status := some 1, body := [] })
      simp [Gzip, hc', gzipClose, http.ResponseWriter.depth,
        http.ResponseWriter.depth_setHeader] at h
    · intro hc next
      simp [Gzip, hc]
  · intro hc next
    simp [Gzip, hc]
  · show GoMap.Load (w.setHeader (lit "Content-Encoding") (lit "gzip")).Header _ = _
    rw [http.ResponseWriter.Header_setHeader]
    exact http.Header.Load_Set_self _ _ _

/-! ## Cross-origin headers -/

theorem allowedOrigins_index_iff (origin : GoString) :
    allowedOrigins.index origin = true ↔
      origin ∈ [lit "https://pjsk.moe", lit "https://www.pjsk.moe",
        lit "https://snowyviewer.exmeaning.com"] := by
  simp only [GoMap.index, allowedOrigins, GoMap.Load, List.mem_cons, List.mem_singleton,
    List.not_mem_nil, or_false]
  by_cases h1 : lit "https://pjsk.moe" = origin
  · simp [h1]
  · by_cases h2 : lit "https://www.pjsk.moe" = origin
    · simp [h2]
    · by_cases h3 : lit "https://snowyviewer.exmeaning.com" = origin
      · simp [h3]
      · simp [h1, h2, h3, Ne.symm h1, Ne.symm h2, Ne.symm h3, eq_comm]

theorem wildcard_not_allowed : allowedOrigins.index (lit "*") = false := by decide

/-- C10: `CORS` hands one writer `w1` to the downstream handler (or, for
`OPTIONS`, answers on it). On `w1`, `Access-Control-Allow-Origin` is the
request's `Origin` and `Vary` is `Origin` when `Origin` is one of the three
allowlisted origins; when `Origin` is absent or not allowlisted both headers
are as they were before `CORS` ran, hence absent on a response that had
neither, so that there the two are set if and only if `Origin` is
allowlisted; `CORS` never puts `*` into `Access-Control-Allow-Origin`; and
whatever the origin and method, `Access-Control-Allow-Methods` is
`GET, OPTIONS` and `Access-Control-Allow-Headers` is `Content-Type`. No other
header, nor the status, nor the body is touched before the handler runs. -/
theorem CORS_sets_headers (next : http.Handler) (w : http.ResponseWriter) (r : http.Request) :
    ∃ w1 : http.ResponseWriter,
      CORS next w r = (if r.Method = lit "OPTIONS" then w1.WriteHeader 200 else next w1 r) ∧
      (w1.WriteHeader 200).Header = w1.Header ∧
      (http.Header.Get r.Header (lit "Origin") ∈
          [lit "https://pjsk.moe", lit "https://www.pjsk.moe",
            lit "https://snowyviewer.exmeaning.com"] →
        GoMap.Load w1.Header (lit "Access-Control-Allow-Origin") =
            some [http.Header.Get r.Header (lit "Origin")] ∧
          GoMap.Load w1.Header (lit "Vary") = some [lit "Origin"]) ∧
      (http.Header.Get r.Header (lit "Origin") ∉
          [lit "https://pjsk.moe", lit "https://www.pjsk.moe",
            lit "https://snowyviewer.exmeaning.com"] →
        GoMap.Load w1.Header (lit "Access-Control-Allow-Origin") =
            GoMap.Load w.Header (lit "Access-Control-Allow-Origin") ∧
          GoMap.Load w1.Header (lit "Vary") = GoMap.Load w.Header (lit "Vary")) ∧
      (GoMap.Load r.Header (lit "Origin") = none →
        http.Header.Get r.Header (lit "Origin") ∉
          [lit "https://pjsk.moe", lit "https://www.pjsk.moe",
            lit "https://snowyviewer.exmeaning.com"]) ∧
      (GoMap.Load w.Header (lit "Access-Control-Allow-Origin") = none →
        GoMap.Load w.Header (lit "Vary") = none →
        ((GoMap.Load w1.Header (lit "Access-Control-Allow-Origin") =
              some [http.Header.Get r.Header (lit "Origin")] ∧
            GoMap.Load w1.Header (lit "Vary") = some [lit "Origin"]) ↔
          http.Header.Get r.Header (lit "Origin") ∈
            [lit "https://pjsk.moe", lit "https://www.pjsk.moe",
              lit "https://snowyviewer.exmeaning.com"])) ∧
      (GoMap.Load w1.Header (lit "Access-Control-Allow-Origin") = some [lit "*"] →
        GoMap.Load w.Header (lit "Access-Control-Allow-Origin") = some [lit "*"]) ∧
      GoMap.Load w1.Header (lit "Access-Control-Allow-Methods") = some [lit "GET, OPTIONS"] ∧
      GoMap.Load w1.Header (lit "Access-Control-Allow-Headers") = some [lit "Content-Type"] ∧
      (∀ k, k ≠ lit "Access-Control-Allow-Origin" → k ≠ lit "Vary" →
        k ≠ lit "Access-Control-Allow-Methods" → k ≠ lit "Access-Control-Allow-Headers" →
        GoMap.Load w1.Header k = GoMap.Load w.Header k) ∧
      w1.response.status = w.response.status ∧ w1.response.body = w.response.body := by
  have kOM : lit "Access-Control-Allow-Origin" ≠ lit "Access-Control-Allow-Methods" := by decide
  have kOH : lit "Access-Control-Allow-Origin" ≠ lit "Access-Control-Allow-Headers" := by decide
  have kOV : lit "Access-Control-Allow-Origin" ≠ lit "Vary" := by decide
  have kVM : lit "Vary" ≠ lit "Access-Control-Allow-Methods" := by decide
  have kVH : lit "Vary" ≠ lit "Access-Control-Allow-Headers" := by decide
  have kMH : lit "Access-Control-Allow-Methods" ≠ lit "Access-Control-Allow-Headers" := by
    decide
  have habsent : GoMap.Load r.Header (lit "Origin") = none →
      http.Header.Get r.Header (lit "Origin") ∉
        [lit "https://pjsk.moe", lit "https://www.pjsk.moe",
          lit "https://snowyviewer.exmeaning.com"] := by
    intro h
    have he : http.Header.Get r.Header (lit "Origin") = lit "" := by
      simp [http.Header.Get, h]
    rw [he]; decide
  by_cases hal : allowedOrigins.index (http.Header.Get r.Header (lit "Origin")) = true
  · have hmem := (allowedOrigins_index_iff _).mp hal
    have hne : http.Header.Get r.Header (lit "Origin") ≠ lit "*" := by
      intro e
      rw [e, wildcard_not_allowed] at hal
      exact Bool.false_ne_true hal
    refine ⟨(((w.setHeader (lit "Access-Control-Allow-Origin")
        (http.Header.Get r.Header (lit "Origin"))).setHeader (lit "Vary")
        (lit "Origin")).setHeader (lit "Access-Control-Allow-Methods")
        (lit "GET, OPTIONS")).setHeader (lit "Access-Control-Allow-Headers")
        (lit "Content-Type"), ?_, http.ResponseWriter.Header_WriteHeader _ _, ?_, ?_, habsent,
        ?_, ?_, ?_, ?_, ?_, ?_, ?_⟩
    · simp only [CORS, hal, if_true]
    · intro _
      simp only [http.ResponseWriter.Header_setHeader]
      constructor
      · rw [http.Header.Load_Set_ne _ _ _ _ (Ne.symm kOH),
          http.Header.Load_Set_ne _ _ _ _ (Ne.symm kOM),
          http.Header.Load_Set_ne _ _ _ _ (Ne.symm kOV), http.Header.Load_Set_self]
      · rw [http.Header.Load_Set_ne _ _ _ _ (Ne.symm kVH),
          http.Header.Load_Set_ne _ _ _ _ (Ne.symm kVM), http.Header.Load_Set_self]
    · intro hn; exact absurd hmem hn
    · intro _ _
      simp only [http.ResponseWriter.Header_setHeader]
      rw [http.Header.Load_Set_ne _ _ _ _ (Ne.symm kOH),
        http.Header.Load_Set_ne _ _ _ _ (Ne.symm kOM),
        http.Header.Load_Set_ne _ _ _ _ (Ne.symm kOV), http.Header.Load_Set_self,
        http.Header.Load_Set_ne _ _ _ _ (Ne.symm kVH),
        http.Header.Load_Set_ne _ _ _ _ (Ne.symm kVM), http.Header.Load_Set_self]
      simp [hmem]
    · simp only [http.ResponseWriter.Header_setHeader]
      rw [http.Header.Load_Set_ne _ _ _ _ (Ne.symm kOH),
        http.Header.Load_Set_ne _ _ _ _ (Ne.symm kOM),
        http.Header.Load_Set_ne _ _ _ _ (Ne.symm kOV), http.Header.Load_Set_self]
      intro h
      exact absurd (List.head_eq_of_cons_eq (Option.some.inj h)) hne
    · simp only [http.ResponseWriter.Header_setHeader]
      rw [http.Header.Load_Set_ne _ _ _ _ (Ne.symm kMH), http.Header.Load_Set_self]
    · simp only [http.ResponseWriter.Header_setHeader]
      rw [http.Header.Load_Set_self]
    · intro k h1 h2 h3 h4
      simp only [http.ResponseWriter.Header_setHeader]
      rw [http.Header.Load_Set_ne _ _ _ _ (Ne.symm h4),
        http.Header.Load_Set_ne _ _ _ _ (Ne.symm h3),
        http.Header.Load_Set_ne _ _ _ _ (Ne.symm h2),
        http.Header.Load_Set_ne _ _ _ _ (Ne.symm h1)]
    · simp only [http.ResponseWriter.response_setHeader]
    · simp only [http.ResponseWriter.response_setHeader]
  · have hmem : http.Header.Get r.Header (lit "Origin") ∉
        [lit "https://pjsk.moe", lit "https://www.pjsk.moe",
          lit "https://snowyviewer.exmeaning.com"] :=
      fun h => hal ((allowedOrigins_index_iff _).mpr h)
    refine ⟨(w.setHeader (lit "Access-Control-Allow-Methods")
        (lit "GET, OPTIONS")).setHeader (lit "Access-Control-Allow-Headers")
        (lit "Content-Type"), ?_, http.ResponseWriter.Header_WriteHeader _ _, ?_, ?_, habsent,
        ?_, ?_, ?_, ?_, ?_, ?_, ?_⟩
    · simp only [CORS, hal, Bool.false_eq_true, if_false]
    · intro h; exact absurd h hmem
    · intro _
      simp only [http.ResponseWriter.Header_setHeader]
      constructor
      · rw [http.Header.Load_Set_ne _ _ _ _ (Ne.symm kOH),
          http.Header.Load_Set_ne _ _ _ _ (Ne.symm kOM)]
      · rw [http.Header.Load_Set_ne _ _ _ _ (Ne.symm kVH),
          http.Header.Load_Set_ne _ _ _ _ (Ne.symm kVM)]
    · intro h1 h2
      simp only [http.ResponseWriter.Header_setHeader]
      rw [http.Header.Load_Set_ne _ _ _ _ (Ne.symm kOH),
        http.Header.Load_Set_ne _ _ _ _ (Ne.symm kOM), h1]
      simp [hmem]
    · simp only [http.ResponseWriter.Header_setHeader]
      rw [http.Header.Load_Set_ne _ _ _ _ (Ne.symm kOH),
        http.Header.Load_Set_ne _ _ _ _ (Ne.symm kOM)]
      exact id
    · simp only [http.ResponseWriter.Header_setHeader]
      rw [http.Header.Load_Set_ne _ _ _ _ (Ne.symm kMH), http.Header.Load_Set_self]
    · simp only [http.ResponseWriter.Header_setHeader]
      rw [http.Header.Load_Set_self]
    · intro k h1 h2 h3 h4
      simp only [http.ResponseWriter.Header_setHeader]
      rw [http.Header.Load_Set_ne _ _ _ _ (Ne.symm h4),
        http.Header.Load_Set_ne _ _ _ _ (Ne.symm h3)]
    · simp only [http.ResponseWriter.response_setHeader]
    · simp only [http.ResponseWriter.response_setHeader]

/-! ## Preflight requests -/

theorem http.ResponseWriter.withHeader_Header (w : http.ResponseWriter) :
    w.withHeader w.Header = w := by
  induction w with
  | server resp => rfl
  | gzip pending under ih =>
    simpa [http.ResponseWriter.withHeader, http.ResponseWriter.Header] using ih

theorem http.ResponseWriter.setHeader_withHeader (w : http.ResponseWriter) (h : http.Header)
    (key value : GoString) :
    (w.withHeader h).setHeader key value = w.withHeader (http.Header.Set h key value) := by
  induction w with
  | server resp => rfl
  | gzip pending under ih =>
    simpa [http.ResponseWriter.withHeader, http.ResponseWriter.setHeader] using ih

theorem http.ResponseWriter.response_withHeader (w : http.ResponseWriter) (h : http.Header) :
    (w.withHeader h).response = { w.response with header := h } := by
  induction w with
  | server resp => rfl
  | gzip pending under ih =>
    simpa [http.ResponseWriter.withHeader, http.ResponseWriter.response] using ih

theorem http.ResponseWriter.response_WriteHeader (w : http.ResponseWriter) (code : Nat) :
    (w.WriteHeader code).response =
      { w.response with status := some (w.response.status.getD code) } := by
  induction w with
  | server resp => rfl
  | gzip pending under ih =>
    simpa [http.ResponseWriter.WriteHeader, http.ResponseWriter.response] using ih

/-- The writer `CORS` has built when it reaches its test of the method: the
writer it was given with a new header map. -/
theorem CORS_eq_withHeader (w : http.ResponseWriter) (r : http.Request) :
    ∃ hdr : http.Header, ∀ next : http.Handler,
      CORS next w r =
        if r.Method = lit "OPTIONS" then (w.withHeader hdr).WriteHeader 200
        else next (w.withHeader hdr) r := by
  by_cases hal : allowedOrigins.index (http.Header.Get r.Header (lit "Origin")) = true
  · refine ⟨http.Header.Set (http.Header.Set (http.Header.Set (http.Header.Set w.Header
      (lit "Access-Control-Allow-Origin") (http.Header.Get r.Header (lit "Origin")))
      (lit "Vary") (lit "Origin")) (lit "Access-Control-Allow-Methods") (lit "GET, OPTIONS"))
      (lit "Access-Control-Allow-Headers") (lit "Content-Type"), fun next => ?_⟩
    simp only [CORS, hal, if_true]
    rw [← http.ResponseWriter.setHeader_withHeader, ← http.ResponseWriter.setHeader_withHeader,
      ← http.ResponseWriter.setHeader_withHeader, ← http.ResponseWriter.setHeader_withHeader,
      http.ResponseWriter.withHeader_Header]
  · refine ⟨http.Header.Set (http.Header.Set w.Header
      (lit "Access-Control-Allow-Methods") (lit "GET, OPTIONS"))
      (lit "Access-Control-Allow-Headers") (lit "Content-Type"), fun next => ?_⟩
    simp only [CORS, hal, Bool.false_eq_true, if_false]
    rw [← http.ResponseWriter.setHeader_withHeader, ← http.ResponseWriter.setHeader_withHeader,
      http.ResponseWriter.withHeader_Header]

/-- C11: for a request whose method is `OPTIONS`, `CORS` answers on the
writer it was given: it sends status 200 (the status is 200 unless one had
been sent before), writes no body and does not run the downstream handler,
its result being the same for every handler. For every other method its
result is the downstream handler run once on the same writer, of which only
the header map has changed, and on the same request; `CORS` itself sends no
status and writes no body. -/
theorem CORS_options_short_circuits (w : http.ResponseWriter) (r : http.Request) :
    ∃ hdr : http.Header,
      (r.Method = lit "OPTIONS" →
        (∀ next : http.Handler, CORS next w r = (w.withHeader hdr).WriteHeader 200) ∧
        (∀ next : http.Handler, (CORS next w r).response =
          { header := hdr, status := some (w.response.status.getD 200),
            body := w.response.body }) ∧
        (w.response.status = none →
          ∀ next : http.Handler, (CORS next w r).response.status = some 200) ∧
        (∀ next : http.Handler, (CORS next w r).response.body = w.response.body)) ∧
      (r.Method ≠ lit "OPTIONS" →
        (∀ next : http.Handler, CORS next w r = next (w.withHeader hdr) r) ∧
        (w.withHeader hdr).response.status = w.response.status ∧
        (w.withHeader hdr).response.body = w.response.body ∧
        CORS helloHandler w r = (w.withHeader hdr).Write (lit "hello")) := by
  obtain ⟨hdr, h⟩ := CORS_eq_withHeader w r
  refine ⟨hdr, ?_, ?_⟩
  · intro hm
    have h1 : ∀ next : http.Handler, CORS next w r = (w.withHeader hdr).WriteHeader 200 := by
      intro next; rw [h next, if_pos hm]
    have h2 : ∀ next : http.Handler, (CORS next w r).response =
        { header := hdr, status := some (w.response.status.getD 200),
          body := w.response.body } := by
      intro next
      rw [h1 next, http.ResponseWriter.response_WriteHeader,
        http.ResponseWriter.response_withHeader]
    refine ⟨h1, h2, ?_, ?_⟩
    · intro hs next
      rw [h2 next, hs]; rfl
    · intro next
      rw [h2 next]
  · intro hm
    have h1 : ∀ next : http.Handler, CORS next w r = next (w.withHeader hdr) r := by
      intro next; rw [h next, if_neg hm]
    refine ⟨h1, ?_, ?_, ?_⟩
    · rw [http.ResponseWriter.response_withHeader]
    · rw [http.ResponseWriter.response_withHeader]
    · rw [h1 helloHandler]; rfl

/-! ## Remote mode -/

theorem Cache.Get_remote {R E : Type} (api : RedisAPI R E) (c : Cache R) (r : R)
    (hremote : c.useRedis = true) (hr : c.redis = some r) (now : Time) (k : GoString) :
    c.Get api now k =
      some ((match (api.Get r k).1 with
        | Except.ok val => (val, true)
        | Except.error _ => ([], false)), { c with redis := some (api.Get r k).2 }) := by
  unfold Cache.Get
  rw [hremote, hr]
  simp only [if_true]
  rcases hres : api.Get r k with ⟨res, r1⟩
  cases res <;> rfl

theorem Cache.Set_remote {R E : Type} (api : RedisAPI R E) (c : Cache R) (r : R)
    (hremote : c.useRedis = true) (hr : c.redis = some r) (now : Time) (k : GoString)
    (v : Bytes) (ttl : Duration) :
    c.Set api now k v ttl =
      some ((api.Set r k v ttl).1, { c with redis := some (api.Set r k v ttl).2 }) := by
  unfold Cache.Set
  rw [hremote, hr]
  rfl

theorem Cache.Delete_remote {R E : Type} (api : RedisAPI R E) (c : Cache R) (r : R)
    (hremote : c.useRedis = true) (hr : c.redis = some r) (k : GoString) :
    c.Delete api k =
      some ((api.Del r k).1, { c with redis := some (api.Del r k).2 }) := by
  unfold Cache.Delete
  rw [hremote, hr]
  rfl

/-- C15: for every backend, `SetImage(U, p, ct)` first issues
`Set("img:"+U, p, 60 min)`; if that returns an error `e`, `SetImage` returns
`e` and the cache is as that one `Set` left it, the `Set` for `"img_ct:"+U`
not being issued; if it succeeds, `SetImage` is the `Set` of
`"img_ct:"+U` to `ct` for 60 min and returns that call's result. In Remote
mode the same is stated on the backend's commands, and a backend that records
its commands has seen one key after a failed first `SET` and both keys, in
order, otherwise. -/
theorem Cache.SetImage_error_handling {R E : Type} (api : RedisAPI R E) (c : Cache R)
    (t1 t2 : Time) (U : GoString) (p : Bytes) (ct : GoString) :
    (∀ e c1, c.Set api t1 (lit "img:" ++ U) p (60 * Minute) = some (some e, c1) →
      c.SetImage api t1 t2 U p ct = some (some e, c1)) ∧
    (∀ c1, c.Set api t1 (lit "img:" ++ U) p (60 * Minute) = some (none, c1) →
      c.SetImage api t1 t2 U p ct =
        c1.Set api t2 (lit "img_ct:" ++ U) (bytesOfString ct) (60 * Minute)) ∧
    (∀ r, c.useRedis = true → c.redis = some r →
      (∀ e r1, api.Set r (lit "img:" ++ U) p (60 * Minute) = (some e, r1) →
        c.SetImage api t1 t2 U p ct = some (some e, { c with redis := some r1 })) ∧
      (∀ r1, api.Set r (lit "img:" ++ U) p (60 * Minute) = (none, r1) →
        c.SetImage api t1 t2 U p ct =
          some ((api.Set r1 (lit "img_ct:" ++ U) (bytesOfString ct) (60 * Minute)).1,
            { c with redis := some (Prod.snd
                (api.Set r1 (lit "img_ct:" ++ U) (bytesOfString ct) (60 * Minute))) }))) ∧
    remoteCache.SetImage (recordingRedis true) t1 t2 U p ct =
      some (some (lit "ERR"), { remoteCache with redis := some [lit "img:" ++ U] }) ∧
    remoteCache.SetImage (recordingRedis false) t1 t2 U p ct =
      some (none, { remoteCache with redis := some [lit "img:" ++ U, lit "img_ct:" ++ U] }) := by
  have httl : ImageCacheTTL = 60 * Minute := by decide
  have hA : ∀ e c1, c.Set api t1 (lit "img:" ++ U) p (60 * Minute) = some (some e, c1) →
      c.SetImage api t1 t2 U p ct = some (some e, c1) := by
    intro e c1 h
    unfold Cache.SetImage
    rw [httl, h]
  have hB : ∀ c1, c.Set api t1 (lit "img:" ++ U) p (60 * Minute) = some (none, c1) →
      c.SetImage api t1 t2 U p ct =
        c1.Set api t2 (lit "img_ct:" ++ U) (bytesOfString ct) (60 * Minute) := by
    intro c1 h
    unfold Cache.SetImage
    rw [httl, h]
  refine ⟨hA, hB, ?_, rfl, rfl⟩
  intro r hremote hr
  constructor
  · intro e r1 h1
    apply hA
    rw [Cache.Set_remote api c r hremote hr, h1]
  · intro r1 h1
    have hs : c.Set api t1 (lit "img:" ++ U) p (60 * Minute) =
        some (none, { c with redis := some r1 }) := by
      rw [Cache.Set_remote api c r hremote hr, h1]
    rw [hB _ hs, Cache.Set_remote api { c with redis := some r1 } r1 hremote rfl]

/-- C16: in Remote mode `Get(k)` returns `(value, true)` when the backend
`GET` returns `value` without error and `(nil, false)` for every backend
error, so it hits exactly when the backend returned without error and never
surfaces an error; `Set` and `Delete` return the backend's error unchanged
(nil on success); and the memory store is neither written (it is the same
afterwards) nor read (the results are the same whatever it holds). -/
theorem Cache.remote_mode_delegates {R E : Type} (api : RedisAPI R E) (c : Cache R) (r : R)
    (hremote : c.useRedis = true) (hr : c.redis = some r) (now : Time) (k : GoString)
    (v : Bytes) (ttl : Duration) :
    (∀ val r1, api.Get r k = (Except.ok val, r1) →
      c.Get api now k = some ((val, true), { c with redis := some r1 })) ∧
    (∀ e r1, api.Get r k = (Except.error e, r1) →
      c.Get api now k = some (([], false), { c with redis := some r1 })) ∧
    (∀ res c1, c.Get api now k = some (res, c1) →
      (res.2 = true ↔ ∃ val, (api.Get r k).1 = Except.ok val)) ∧
    c.Set api now k v ttl =
      some ((api.Set r k v ttl).1, { c with redis := some (api.Set r k v ttl).2 }) ∧
    c.Delete api k = some ((api.Del r k).1, { c with redis := some (api.Del r k).2 }) ∧
    (∀ m : GoMap MemoryCacheItem,
      Cache.Get api { c with memoryCache := m } now k =
        (c.Get api now k).map (fun x => (x.1, { x.2 with memoryCache := m })) ∧
      Cache.Set api { c with memoryCache := m } now k v ttl =
        (c.Set api now k v ttl).map (fun x => (x.1, { x.2 with memoryCache := m })) ∧
      Cache.Delete api { c with memoryCache := m } k =
        (c.Delete api k).map (fun x => (x.1, { x.2 with memoryCache := m }))) := by
  have hg := Cache.Get_remote api c r hremote hr now k
  refine ⟨?_, ?_, ?_, Cache.Set_remote api c r hremote hr now k v ttl,
    Cache.Delete_remote api c r hremote hr k, ?_⟩
  · intro val r1 h
    rw [hg, h]
  · intro e r1 h
    rw [hg, h]
  · intro res c1 h
    rw [hg] at h
    have h1 := (Prod.mk.inj (Option.some.inj h)).1
    rw [← h1]
    cases (api.Get r k).1 with
    | ok val => simp
    | error e => simp
  · intro m
    refine ⟨?_, ?_, ?_⟩
    · rw [Cache.Get_remote api { c with memoryCache := m } r hremote hr, hg]; rfl
    · rw [Cache.Set_remote api { c with memoryCache := m } r hremote hr,
        Cache.Set_remote api c r hremote hr]; rfl
    · rw [Cache.Delete_remote api { c with memoryCache := m } r hremote hr,
        Cache.Delete_remote api c r hremote hr]; rfl

theorem Cache.remote_mode_delegates_witness :
    remoteCache.useRedis = true ∧ remoteCache.redis = some [] ∧
    ((∀ val r1, (recordingRedis true).Get [] (lit "a") = (Except.ok val, r1) →
      remoteCache.Get (recordingRedis true) 0 (lit "a") =
        some ((val, true), { remoteCache with redis := some r1 })) ∧
    (∀ e r1, (recordingRedis true).Get [] (lit "a") = (Except.error e, r1) →
      remoteCache.Get (recordingRedis true) 0 (lit "a") =
        some (([], false), { remoteCache with redis := some r1 })) ∧
    (∀ res c1, remoteCache.Get (recordingRedis true) 0 (lit "a") = some (res, c1) →
      (res.2 = true ↔ ∃ val, ((recordingRedis true).Get [] (lit "a")).1 = Except.ok val)) ∧
    remoteCache.Set (recordingRedis true) 0 (lit "a") [1] 5 =
      some (((recordingRedis true).Set [] (lit "a") [1] 5).1,
        { remoteCache with redis := some ((recordingRedis true).Set [] (lit "a") [1] 5).2 }) ∧
    remoteCache.Delete (recordingRedis true) (lit "a") =
      some (((recordingRedis true).Del [] (lit "a")).1,
        { remoteCache with redis := some ((recordingRedis true).Del [] (lit "a")).2 }) ∧
    (∀ m : GoMap MemoryCacheItem,
      Cache.Get (recordingRedis true) { remoteCache with memoryCache := m } 0 (lit "a") =
        (remoteCache.Get (recordingRedis true) 0 (lit "a")).map
          (fun x => (x.1, { x.2 with memoryCache := m })) ∧
      Cache.Set (recordingRedis true) { remoteCache with memoryCache := m } 0 (lit "a") [1] 5 =
        (remoteCache.Set (recordingRedis true) 0 (lit "a") [1] 5).map
          (fun x => (x.1, { x.2 with memoryCache := m })) ∧
      Cache.Delete (recordingRedis true) { remoteCache with memoryCache := m } (lit "a") =
        (remoteCache.Delete (recordingRedis true) (lit "a")).map
          (fun x => (x.1, { x.2 with memoryCache := m })))) :=
  ⟨rfl, rfl, Cache.remote_mode_delegates (recordingRedis true) remoteCache [] rfl rfl 0
    (lit "a") [1] 5⟩

/-! ## Memory mode: no failure, no interference -/

theorem Cache.Delete_memory_frame {R E : Type} (api : RedisAPI R E) (c : Cache R)
    (hmem : c.useRedis = false) (k : GoString) :
    ∃ c1, c.Delete api k = some (none, c1) ∧ c1.useRedis = false ∧ c1.redis = c.redis ∧
      c1.memoryCache.Load k = none ∧ k ∉ c1.memoryCache.keys ∧
      ∀ k', k' ≠ k → c1.memoryCache.Load k' = c.memoryCache.Load k' := by
  refine ⟨_, Cache.Delete_memory api c hmem k, hmem, rfl, GoMap.Load_Delete_self _ _,
    GoMap.not_mem_keys_Delete _ _, fun k' hk => ?_⟩
  exact GoMap.Load_Delete_ne _ _ _ (Ne.symm hk)

theorem Cache.Get_memory_fst_congr {R E : Type} (api : RedisAPI R E) (c c1 : Cache R)
    (hmem : c.useRedis = false) (hmem1 : c1.useRedis = false) (k : GoString)
    (hload : c1.memoryCache.Load k = c.memoryCache.Load k) (g : Time) :
    (c1.Get api g k).map Prod.fst = (c.Get api g k).map Prod.fst := by
  rw [Cache.Get_memory_fst api c1 hmem1, Cache.Get_memory_fst api c hmem, hload]

/-- C18: in Memory mode, whatever the store holds for `k`, `Delete(k)`
returns nil and removes the entry of `k`, so that the `Get(k)` that follows
returns `(nil, false)`; `Set` returns nil; and `Close` returns nil and leaves
the cache, its client handle included, as it was. -/
theorem Cache.memory_mode_never_fails {R E : Type} (api : RedisAPI R E) (c : Cache R)
    (hmem : c.useRedis = false) (now t : Time) (k : GoString) (v : Bytes) (ttl : Duration) :
    (∃ c1, c.Delete api k = some (none, c1) ∧ c1.memoryCache.Load k = none ∧
      k ∉ c1.memoryCache.keys ∧ c1.redis = c.redis ∧
      c1.Get api now k = some (([], false), c1)) ∧
    (∃ c1, c.Set api t k v ttl = some (none, c1) ∧ c1.redis = c.redis) ∧
    c.Close api = (none, c) := by
  refine ⟨?_, ⟨_, Cache.Set_memory api c hmem t k v ttl, rfl⟩, ?_⟩
  · obtain ⟨c1, hdel, hmem1, hredis, hload, hkeys, _⟩ := Cache.Delete_memory_frame api c hmem k
    refine ⟨c1, hdel, hload, hkeys, hredis, ?_⟩
    rw [Cache.Get_memory api c1 hmem1, hload]
  · simp [Cache.Close, hmem]

theorem Cache.memory_mode_never_fails_witness :
    oneEntryCache.useRedis = false ∧
    ((∃ c1, oneEntryCache.Delete emptyRedis (lit "a") = some (none, c1) ∧
      c1.memoryCache.Load (lit "a") = none ∧
      lit "a" ∉ c1.memoryCache.keys ∧ c1.redis = oneEntryCache.redis ∧
      c1.Get emptyRedis 3 (lit "a") = some (([], false), c1)) ∧
    (∃ c1, oneEntryCache.Set emptyRedis 4 (lit "a") [1] 5 = some (none, c1) ∧
      c1.redis = oneEntryCache.redis) ∧
    oneEntryCache.Close emptyRedis = (none, oneEntryCache)) :=
  ⟨rfl, Cache.memory_mode_never_fails emptyRedis oneEntryCache rfl 3 4 (lit "a") [1] 5⟩

/-- C20: in Memory mode every operation touches only its own key: for
`k ≠ k2`, `Set(k, ..)`, `Delete(k)` and `Get(k)`, the `Get` that deletes an
expired `k` included, leave the entry of `k2` (payload and deadline) as it
was, so `Get(k2)` at any time returns what it would have returned without
the operation on `k`. -/
theorem Cache.operations_touch_only_their_key {R E : Type} (api : RedisAPI R E) (c : Cache R)
    (hmem : c.useRedis = false) (k k2 : GoString) (hne : k ≠ k2) (now : Time) (v : Bytes)
    (ttl : Duration) :
    (∃ c1, c.Set api now k v ttl = some (none, c1) ∧
      c1.memoryCache.Load k2 = c.memoryCache.Load k2 ∧
      ∀ g, (c1.Get api g k2).map Prod.fst = (c.Get api g k2).map Prod.fst) ∧
    (∃ c1, c.Delete api k = some (none, c1) ∧
      c1.memoryCache.Load k2 = c.memoryCache.Load k2 ∧
      ∀ g, (c1.Get api g k2).map Prod.fst = (c.Get api g k2).map Prod.fst) ∧
    (∃ res c1, c.Get api now k = some (res, c1) ∧
      c1.memoryCache.Load k2 = c.memoryCache.Load k2 ∧
      ∀ g, (c1.Get api g k2).map Prod.fst = (c.Get api g k2).map Prod.fst) := by
  refine ⟨?_, ?_, ?_⟩
  · obtain ⟨c1, hset, hmem1, hframe⟩ := Cache.Set_memory_frame api c hmem now k v ttl
    have hl := hframe k2 (Ne.symm hne)
    exact ⟨c1, hset, hl, Cache.Get_memory_fst_congr api c c1 hmem hmem1 k2 hl⟩
  · obtain ⟨c1, hdel, hmem1, _, _, _, hframe⟩ := Cache.Delete_memory_frame api c hmem k
    have hl := hframe k2 (Ne.symm hne)
    exact ⟨c1, hdel, hl, Cache.Get_memory_fst_congr api c c1 hmem hmem1 k2 hl⟩
  · obtain ⟨c1, hget, hmem1, _, hframe⟩ := Cache.Get_memory_value api c hmem now k
    have hl := hframe k2 (Ne.symm hne)
    exact ⟨_, c1, hget, hl, Cache.Get_memory_fst_congr api c c1 hmem hmem1 k2 hl⟩

theorem Cache.operations_touch_only_their_key_witness :
    oneEntryCache.useRedis = false ∧ lit "b" ≠ lit "a" ∧
    ((∃ c1, oneEntryCache.Set emptyRedis 20 (lit "b") [1] 5 = some (none, c1) ∧
      c1.memoryCache.Load (lit "a") = oneEntryCache.memoryCache.Load (lit "a") ∧
      ∀ g, (c1.Get emptyRedis g (lit "a")).map Prod.fst =
        (oneEntryCache.Get emptyRedis g (lit "a")).map Prod.fst) ∧
    (∃ c1, oneEntryCache.Delete emptyRedis (lit "b") = some (none, c1) ∧
      c1.memoryCache.Load (lit "a") = oneEntryCache.memoryCache.Load (lit "a") ∧
      ∀ g, (c1.Get emptyRedis g (lit "a")).map Prod.fst =
        (oneEntryCache.Get emptyRedis g (lit "a")).map Prod.fst) ∧
    (∃ res c1, oneEntryCache.Get emptyRedis 20 (lit "b") = some (res, c1) ∧
      c1.memoryCache.Load (lit "a") = oneEntryCache.memoryCache.Load (lit "a") ∧
      ∀ g, (c1.Get emptyRedis g (lit "a")).map Prod.fst =
        (oneEntryCache.Get emptyRedis g (lit "a")).map Prod.fst)) :=
  ⟨rfl, by decide,
    Cache.operations_touch_only_their_key emptyRedis oneEntryCache rfl (lit "b") (lit "a")
      (by decide) 20 [1] 5⟩

/-! ## Mode selection -/

theorem Cache.Get_useRedis {R E : Type} (api : RedisAPI R E) (c : Cache R) (now : Time)
    (k : GoString) (res : Bytes × Bool) (c1 : Cache R)
    (h : c.Get api now k = some (res, c1)) : c1.useRedis = c.useRedis := by
  cases hu : c.useRedis with
  | false =>
    obtain ⟨c2, hg, hmem2, _⟩ := Cache.Get_memory_value api c hu now k
    rw [hg] at h
    have e := (Prod.mk.inj (Option.some.inj h)).2
    rw [← e]; exact hmem2
  | true =>
    cases hr : c.redis with
    | none => simp [Cache.Get, hu, hr] at h
    | some r =>
      rw [Cache.Get_remote api c r hu hr] at h
      have e := (Prod.mk.inj (Option.some.inj h)).2
      rw [← e]; exact hu

theorem Cache.Set_useRedis {R E : Type} (api : RedisAPI R E) (c : Cache R) (now : Time)
    (k : GoString) (v : Bytes) (ttl : Duration) (err : Option E) (c1 : Cache R)
    (h : c.Set api now k v ttl = some (err, c1)) : c1.useRedis = c.useRedis := by
  cases hu : c.useRedis with
  | false =>
    rw [Cache.Set_memory api c hu] at h
    have e := (Prod.mk.inj (Option.some.inj h)).2
    rw [← e]; exact hu
  | true =>
    cases hr : c.redis with
    | none => simp [Cache.Set, hu, hr] at h
    | some r =>
      rw [Cache.Set_remote api c r hu hr] at h
      have e := (Prod.mk.inj (Option.some.inj h)).2
      rw [← e]; exact hu

theorem Cache.Delete_useRedis {R E : Type} (api : RedisAPI R E) (c : Cache R)
    (k : GoString) (err : Option E) (c1 : Cache R)
    (h : c.Delete api k = some (err, c1)) : c1.useRedis = c.useRedis := by
  cases hu : c.useRedis with
  | false =>
    rw [Cache.Delete_memory api c hu] at h
    have e := (Prod.mk.inj (Option.some.inj h)).2
    rw [← e]; exact hu
  | true =>
    cases hr : c.redis with
    | none => simp [Cache.Delete, hu, hr] at h
    | some r =>
      rw [Cache.Delete_remote api c r hu hr] at h
      have e := (Prod.mk.inj (Option.some.inj h)).2
      rw [← e]; exact hu

theorem Cache.GetImage_useRedis {R E : Type} (api : RedisAPI R E) (c : Cache R)
    (now1 now2 : Time) (U : GoString) (res : Bytes × GoString × Bool) (c2 : Cache R)
    (h : c.GetImage api now1 now2 U = some (res, c2)) : c2.useRedis = c.useRedis := by
  cases h1 : c.Get api now1 (lit "img:" ++ U) with
  | none => simp [Cache.GetImage, h1] at h
  | some p1 =>
    obtain ⟨⟨d1, ok1⟩, c1⟩ := p1
    have hu1 := Cache.Get_useRedis api c now1 _ _ c1 h1
    cases ok1 with
    | false =>
      simp only [Cache.GetImage, h1, Bool.not_false, if_true, Option.some.injEq,
        Prod.mk.injEq] at h
      rw [← h.2]; exact hu1
    | true =>
      cases h2 : c1.Get api now2 (lit "img_ct:" ++ U) with
      | none => simp [Cache.GetImage, h1, h2] at h
      | some p2 =>
        obtain ⟨⟨d2, ok2⟩, c2'⟩ := p2
        have hu2 := Cache.Get_useRedis api c1 now2 _ _ c2' h2
        cases ok2 with
        | false =>
          simp only [Cache.GetImage, h1, Bool.not_true, Bool.false_eq_true, if_false, h2,
            Bool.not_false, if_true, Option.some.injEq, Prod.mk.injEq] at h
          rw [← h.2, hu2, hu1]
        | true =>
          simp only [Cache.GetImage, h1, Bool.not_true, Bool.false_eq_true, if_false, h2,
            Option.some.injEq, Prod.mk.injEq] at h
          rw [← h.2, hu2, hu1]

theorem Cache.SetImage_useRedis {R E : Type} (api : RedisAPI R E) (c : Cache R)
    (now1 now2 : Time) (U : GoString) (p : Bytes) (ct : GoString) (err : Option E)
    (c2 : Cache R) (h : c.SetImage api now1 now2 U p ct = some (err, c2)) :
    c2.useRedis = c.useRedis := by
  cases h1 : c.Set api now1 (lit "img:" ++ U) p ImageCacheTTL with
  | none => simp [Cache.SetImage, h1] at h
  | some p1 =>
    obtain ⟨e1, c1⟩ := p1
    have hu1 := Cache.Set_useRedis api c now1 _ _ _ e1 c1 h1
    cases e1 with
    | some e =>
      simp only [Cache.SetImage, h1, Option.some.injEq, Prod.mk.injEq] at h
      rw [← h.2]; exact hu1
    | none =>
      simp only [Cache.SetImage, h1] at h
      rw [Cache.Set_useRedis api c1 now2 _ _ _ err c2 h, hu1]

theorem Cache.step_useRedis {R E : Type} (api : RedisAPI R E) (c : Cache R) (op : Op)
    (c1 : Cache R) (h : c.step api op = some c1) : c1.useRedis = c.useRedis := by
  cases op with
  | get now key =>
    simp only [Cache.step, Option.map_eq_some'] at h
    obtain ⟨⟨res, c2⟩, hg, e⟩ := h
    rw [← e]; exact Cache.Get_useRedis api c now key res c2 hg
  | set now key value ttl =>
    simp only [Cache.step, Option.map_eq_some'] at h
    obtain ⟨⟨err, c2⟩, hg, e⟩ := h
    rw [← e]; exact Cache.Set_useRedis api c now key value ttl err c2 hg
  | delete now key =>
    simp only [Cache.step, Option.map_eq_some'] at h
    obtain ⟨⟨err, c2⟩, hg, e⟩ := h
    rw [← e]; exact Cache.Delete_useRedis api c key err c2 hg

theorem Cache.run_useRedis {R E : Type} (api : RedisAPI R E) (ops : List Op) :
    ∀ (c c1 : Cache R), c.run api ops = some c1 → c1.useRedis = c.useRedis := by
  induction ops with
  | nil =>
    intro c c1 h
    simp only [Cache.run, Option.some.injEq] at h
    rw [h]
  | cons op rest ih =>
    intro c c1 h
    cases hs : c.step api op with
    | none => simp [Cache.run, hs] at h
    | some c2 =>
      simp only [Cache.run, hs] at h
      rw [ih c2 c1 h, Cache.step_useRedis api c op c2 hs]

theorem Cache.Close_useRedis {R E : Type} (api : RedisAPI R E) (c : Cache R) :
    (c.Close api).2.useRedis = c.useRedis := by
  unfold Cache.Close
  cases hu : c.useRedis with
  | false => simp [hu]
  | true =>
    cases hr : c.redis with
    | none => simp [hu]
    | some r => simp [hu]

theorem New_of_empty {R E O : Type} (drv : RedisDriver R E O) :
    New drv (lit "") = { redis := none, memoryCache := [], useRedis := false } := by
  have h : lit "" = ([] : GoString) := by decide
  simp [New, h]

theorem New_of_ping {R E O : Type} (drv : RedisDriver R E O) (redisURL : GoString)
    (hne : redisURL ≠ lit "") :
    New drv redisURL =
      match (drv.Ping (New.client drv redisURL)).1 with
      | some _ => { redis := none, memoryCache := [], useRedis := false }
      | none =>
        { redis := some (drv.Ping (New.client drv redisURL)).2, memoryCache := [],
          useRedis := true } := by
  unfold New New.client
  simp only [hne, ne_eq, not_false_eq_true, if_true]
  rcases hp : drv.Ping (drv.NewClient
    (match drv.ParseURL redisURL with
      | Except.ok opts => opts
      | Except.error _ => drv.addrOptions redisURL)) with ⟨err, r1⟩
  cases err <;> rfl

/-- `New` on the sample driver: an unreachable locator and the empty locator
give Memory mode, a reachable one Remote mode. -/
theorem New_sampleDriver :
    (New (sampleDriver true) (lit "redis://127.0.0.1:1")).IsRedisEnabled = false ∧
    (New (sampleDriver true) (lit "redis://127.0.0.1:1")).redis = none ∧
    (New (sampleDriver false) (lit "redis://127.0.0.1:6379")).IsRedisEnabled = true ∧
    (New (sampleDriver false) (lit "")).IsRedisEnabled = false := by
  decide

/-- C17: with the outcome of `PING` as an input, `New(locator)` reports
`IsRedisEnabled() = true` if and only if the locator is non-empty and `PING`
succeeds. For the empty locator the result does not depend on the driver (no
handle is opened) and is the empty cache in Memory mode. When `PING` fails
the result holds no client handle and is in Memory mode; in Memory mode
`Set` followed by `Get` works on the memory store. No later `Get`, `Set`,
`Delete`, helper call or `Close` changes the mode of a cache. -/
theorem New_selects_mode {R E O : Type} (drv : RedisDriver R E O) (api : RedisAPI R E)
    (redisURL : GoString) :
    ((New drv redisURL).IsRedisEnabled = true ↔
      (redisURL ≠ lit "" ∧ (drv.Ping (New.client drv redisURL)).1 = none)) ∧
    (∀ drv2 : RedisDriver R E O,
      New drv2 (lit "") = { redis := none, memoryCache := [], useRedis := false }) ∧
    (redisURL ≠ lit "" → (drv.Ping (New.client drv redisURL)).1 = none →
      New drv redisURL =
        { redis := some (drv.Ping (New.client drv redisURL)).2, memoryCache := [],
          useRedis := true }) ∧
    ((drv.Ping (New.client drv redisURL)).1 ≠ none →
      New drv redisURL = { redis := none, memoryCache := [], useRedis := false }) ∧
    ((New drv redisURL).IsRedisEnabled = false →
      (New drv redisURL).redis = none ∧
      ∀ (t d : Time) (k : GoString) (v : Bytes) (ttl : Duration), d < ttl →
        ∃ c1 c2, (New drv redisURL).Set api t k v ttl = some (none, c1) ∧
          c1.memoryCache.Load k = some (MemoryCacheItem.mk v (t + ttl)) ∧
          c1.Get api (t + d) k = some ((v, true), c2)) ∧
    (∀ c : Cache R,
      (∀ now k res c1, c.Get api now k = some (res, c1) →
        c1.IsRedisEnabled = c.IsRedisEnabled) ∧
      (∀ now k v ttl err c1, c.Set api now k v ttl = some (err, c1) →
        c1.IsRedisEnabled = c.IsRedisEnabled) ∧
      (∀ k err c1, c.Delete api k = some (err, c1) →
        c1.IsRedisEnabled = c.IsRedisEnabled) ∧
      (∀ now uid res c1, c.GetDynamic api now uid = some (res, c1) →
        c1.IsRedisEnabled = c.IsRedisEnabled) ∧
      (∀ now uid data err c1, c.SetDynamic api now uid data = some (err, c1) →
        c1.IsRedisEnabled = c.IsRedisEnabled) ∧
      (∀ now1 now2 U res c1, c.GetImage api now1 now2 U = some (res, c1) →
        c1.IsRedisEnabled = c.IsRedisEnabled) ∧
      (∀ now1 now2 U p ct err c1, c.SetImage api now1 now2 U p ct = some (err, c1) →
        c1.IsRedisEnabled = c.IsRedisEnabled) ∧
      (c.Close api).2.IsRedisEnabled = c.IsRedisEnabled ∧
      (∀ ops c1, c.run api ops = some c1 → c1.IsRedisEnabled = c.IsRedisEnabled)) := by
  have hcases : redisURL = lit "" ∨ redisURL ≠ lit "" := em _
  have hfail : (drv.Ping (New.client drv redisURL)).1 ≠ none →
      New drv redisURL = { redis := none, memoryCache := [], useRedis := false } := by
    intro hp
    rcases hcases with he | hne
    · rw [he]; exact New_of_empty drv
    · rw [New_of_ping drv redisURL hne]
      cases hq : (drv.Ping (New.client drv redisURL)).1 with
      | none => exact absurd hq hp
      | some e => rfl
  have hok : redisURL ≠ lit "" → (drv.Ping (New.client drv redisURL)).1 = none →
      New drv redisURL =
        { redis := some (drv.Ping (New.client drv redisURL)).2, memoryCache := [],
          useRedis := true } := by
    intro hne hp
    rw [New_of_ping drv redisURL hne, hp]
  have hmemory : (New drv redisURL).IsRedisEnabled = false →
      New drv redisURL = { redis := none, memoryCache := [], useRedis := false } := by
    intro hm
    rcases hcases with he | hne
    · rw [he]; exact New_of_empty drv
    · cases hq : (drv.Ping (New.client drv redisURL)).1 with
      | none =>
        rw [hok hne hq] at hm
        simp [Cache.IsRedisEnabled] at hm
      | some e =>
        apply hfail
        rw [hq]; simp
  refine ⟨?_, fun drv2 => New_of_empty drv2, hok, hfail, ?_, ?_⟩
  · constructor
    · intro hen
      rcases hcases with he | hne
      · rw [he, New_of_empty] at hen
        simp [Cache.IsRedisEnabled] at hen
      · refine ⟨hne, ?_⟩
        by_contra hp
        rw [hfail hp] at hen
        simp [Cache.IsRedisEnabled] at hen
    · rintro ⟨hne, hp⟩
      rw [hok hne hp]; rfl
  · intro hm
    rw [hmemory hm]
    refine ⟨rfl, ?_⟩
    intro t d k v ttl hd
    obtain ⟨c1, hset, hp⟩ := Pinned.of_Set api
      ({ redis := none, memoryCache := [], useRedis := false } : Cache R) rfl t k v ttl (t + d)
    obtain ⟨c2, hget, _⟩ := Pinned.Get api c1 k v _ _ hp
    have hlt : t + d < t + ttl := (Int.add_lt_add_iff_left t).mpr hd
    rw [if_pos hlt] at hget
    refine ⟨c1, c2, hset, ?_, hget⟩
    rw [Cache.Set_memory api _ rfl] at hset
    have e := (Prod.mk.inj (Option.some.inj hset)).2
    rw [← e]
    exact GoMap.Load_Store_self _ _ _
  · intro c
    exact ⟨fun now k res c1 h => Cache.Get_useRedis api c now k res c1 h,
      fun now k v ttl err c1 h => Cache.Set_useRedis api c now k v ttl err c1 h,
      fun k err c1 h => Cache.Delete_useRedis api c k err c1 h,
      fun now uid res c1 h => Cache.Get_useRedis api c now _ res c1 h,
      fun now uid data err c1 h => Cache.Set_useRedis api c now _ data _ err c1 h,
      fun now1 now2 U res c1 h => Cache.GetImage_useRedis api c now1 now2 U res c1 h,
      fun now1 now2 U p ct err c1 h => Cache.SetImage_useRedis api c now1 now2 U p ct err c1 h,
      Cache.Close_useRedis api c,
      fun ops c1 h => Cache.run_useRedis api ops c c1 h⟩

/-! ## Static files: extension fallback and not-found page -/

theorem FileServerWithExtensions.fallback_of_html {lib : http.Library} {os : FileSystem}
    {root : GoString} {w : http.ResponseWriter} {r : http.Request}
    {cleanPath fullPath : GoString} {probed : List GoString} {info : FileInfo}
    (h : os.Stat (fullPath ++ lit ".html") = some info) :
    FileServerWithExtensions.fallback lib os root w r cleanPath fullPath probed =
      (lib.FileServer root w { r with Path := r.Path ++ lit ".html" },
        probed ++ [fullPath ++ lit ".html"]) := by
  simp only [FileServerWithExtensions.fallback, h]

theorem FileServerWithExtensions.fallback_of_no_html {lib : http.Library} {os : FileSystem}
    {root : GoString} {w : http.ResponseWriter} {r : http.Request}
    {cleanPath fullPath : GoString} {probed : List GoString}
    (h : os.Stat (fullPath ++ lit ".html") = none) :
    FileServerWithExtensions.fallback lib os root w r cleanPath fullPath probed =
      ((Serve404 lib os w root).1,
        probed ++ [fullPath ++ lit ".html"] ++ (Serve404 lib os w root).2) := by
  simp only [FileServerWithExtensions.fallback, h, ite_self]

/-- When the resolved path is neither a regular file nor a directory with an
`index.html`, the handler is its fallback part. -/
theorem FileServerWithExtensions_eq_fallback (lib : http.Library) (os : FileSystem)
    (root : GoString) (w : http.ResponseWriter) (r : http.Request)
    (hres : ∀ info, os.Stat (filepath.Join root (filepath.Clean r.Path)) = some info →
      info.IsDir = true ∧
      os.Stat (filepath.Join (filepath.Join root (filepath.Clean r.Path)) (lit "index.html"))
        = none) :
    ∃ probed, FileServerWithExtensions lib os root w r =
      FileServerWithExtensions.fallback lib os root w r (filepath.Clean r.Path)
        (filepath.Join root (filepath.Clean r.Path)) probed := by
  cases hs : os.Stat (filepath.Join root (filepath.Clean r.Path)) with
  | none =>
    refine ⟨[filepath.Join root (filepath.Clean r.Path)], ?_⟩
    simp only [FileServerWithExtensions, hs]
  | some info =>
    obtain ⟨hd, hi⟩ := hres info hs
    refine ⟨[filepath.Join root (filepath.Clean r.Path),
      filepath.Join (filepath.Join root (filepath.Clean r.Path)) (lit "index.html")], ?_⟩
    simp only [FileServerWithExtensions, hs, hd, hi, Bool.not_true, Bool.false_eq_true,
      if_false]

/-- C12, the code at the failing input: with `about.html` in the root
`/srv/www` and no `about`, the URL paths `/about` and `/about/` resolve to
the same path and the handler probes the same `/srv/www/about.html` for both;
for `/about/` it then hands the file server the URL path `/about/.html`, for
which the file server opens `/srv/www/about/.html`, a file that does not
exist, and not the file that was probed. For `/about` the file server is
handed `/about.html` and opens the probed file. -/
theorem FileServerWithExtensions_trailing_slash_serves_other_file (lib : http.Library)
    (w : http.ResponseWriter) :
    filepath.Join (lit "/srv/www") (filepath.Clean (lit "/about/")) =
      filepath.Join (lit "/srv/www") (filepath.Clean (lit "/about")) ∧
    FileServerWithExtensions lib sampleFiles (lit "/srv/www") w (requestFor (lit "/about/")) =
      (lib.FileServer (lit "/srv/www") w (requestFor (lit "/about/.html")),
        [lit "/srv/www/about", lit "/srv/www/about.html"]) ∧
    http.Dir.target (lit "/srv/www") (lit "/about/.html") = lit "/srv/www/about/.html" ∧
    sampleFiles.Stat (lit "/srv/www/about/.html") = none ∧
    http.Dir.target (lit "/srv/www") (lit "/about/.html") ≠ lit "/srv/www/about.html" ∧
    FileServerWithExtensions lib sampleFiles (lit "/srv/www") w (requestFor (lit "/about")) =
      (lib.FileServer (lit "/srv/www") w (requestFor (lit "/about.html")),
        [lit "/srv/www/about", lit "/srv/www/about.html"]) ∧
    http.Dir.target (lit "/srv/www") (lit "/about.html") = lit "/srv/www/about.html" := by
  refine ⟨by decide, ?_, by decide, by decide, by decide, ?_, by decide⟩
  · have h1 : filepath.Join (lit "/srv/www") (filepath.Clean (requestFor (lit "/about/")).Path)
        = lit "/srv/www/about" := by decide
    have h2 : sampleFiles.Stat (lit "/srv/www/about") = none := by decide
    have h3 : sampleFiles.Stat (lit "/srv/www/about" ++ lit ".html") =
        some { IsDir := false } := by decide
    have h4 : lit "/srv/www/about" ++ lit ".html" = lit "/srv/www/about.html" := by decide
    have h5 : (requestFor (lit "/about/")).Path ++ lit ".html" = lit "/about/.html" := by
      decide
    unfold FileServerWithExtensions
    simp only [h1, h2]
    rw [FileServerWithExtensions.fallback_of_html h3, h4, h5]
    rfl
  · have h1 : filepath.Join (lit "/srv/www") (filepath.Clean (requestFor (lit "/about")).Path)
        = lit "/srv/www/about" := by decide
    have h2 : sampleFiles.Stat (lit "/srv/www/about") = none := by decide
    have h3 : sampleFiles.Stat (lit "/srv/www/about" ++ lit ".html") =
        some { IsDir := false } := by decide
    have h4 : lit "/srv/www/about" ++ lit ".html" = lit "/srv/www/about.html" := by decide
    have h5 : (requestFor (lit "/about")).Path ++ lit ".html" = lit "/about.html" := by
      decide
    unfold FileServerWithExtensions
    simp only [h1, h2]
    rw [FileServerWithExtensions.fallback_of_html h3, h4, h5]
    rfl

/-- C13: when the resolved path is neither a regular file nor a directory
containing `index.html` (an existing directory without `index.html`
included) and `<resolved>.html` does not exist, the response is that of
`Serve404`: if `<root>/404.html` is readable, the `Content-Type` is
`text/html; charset=utf-8`, status 404 is sent and the file's bytes are
written, so that a response not yet begun has status 404 and that body;
otherwise it is the built-in 404 response. The file server is not run, so no
directory is listed. -/
theorem FileServerWithExtensions_not_found (lib : http.Library) (os : FileSystem)
    (root : GoString) (w : http.ResponseWriter) (r : http.Request)
    (hres : ∀ info, os.Stat (filepath.Join root (filepath.Clean r.Path)) = some info →
      info.IsDir = true ∧
      os.Stat (filepath.Join (filepath.Join root (filepath.Clean r.Path)) (lit "index.html"))
        = none)
    (hhtml : os.Stat (filepath.Join root (filepath.Clean r.Path) ++ lit ".html") = none) :
    (FileServerWithExtensions lib os root w r).1 = (Serve404 lib os w root).1 ∧
    (∀ lib2 : http.Library, lib2.NotFound = lib.NotFound →
      (FileServerWithExtensions lib2 os root w r).1 =
        (FileServerWithExtensions lib os root w r).1) ∧
    (∀ content, os.ReadFile (filepath.Join root (lit "404.html")) = some content →
      (Serve404 lib os w root).1 =
        ((w.setHeader (lit "Content-Type") (lit "text/html; charset=utf-8")).WriteHeader
          404).Write content ∧
      GoMap.Load (Serve404 lib os w root).1.Header (lit "Content-Type") =
        some [lit "text/html; charset=utf-8"] ∧
      ∀ resp, w = http.ResponseWriter.server resp → resp.status = none →
        (Serve404 lib os w root).1 = http.ResponseWriter.server
          { header := http.Header.Set resp.header (lit "Content-Type")
              (lit "text/html; charset=utf-8"),
            status := some 404, body := resp.body ++ content }) ∧
    (os.ReadFile (filepath.Join root (lit "404.html")) = none →
      (Serve404 lib os w root).1 = lib.NotFound w) := by
  have hfw : ∀ l : http.Library,
      (FileServerWithExtensions l os root w r).1 = (Serve404 l os w root).1 := by
    intro l
    obtain ⟨probed, h⟩ := FileServerWithExtensions_eq_fallback l os root w r hres
    rw [h, FileServerWithExtensions.fallback_of_no_html hhtml]
  have h404 : ∀ l : http.Library, ∀ content,
      os.ReadFile (filepath.Join root (lit "404.html")) = some content →
      (Serve404 l os w root).1 =
        ((w.setHeader (lit "Content-Type") (lit "text/html; charset=utf-8")).WriteHeader
          404).Write content := by
    intro l content hc
    simp only [Serve404, hc]
  have hnf : ∀ l : http.Library, os.ReadFile (filepath.Join root (lit "404.html")) = none →
      (Serve404 l os w root).1 = l.NotFound w := by
    intro l hc
    simp only [Serve404, hc]
  refine ⟨hfw lib, ?_, ?_, hnf lib⟩
  · intro lib2 hl
    rw [hfw lib2, hfw lib]
    cases hc : os.ReadFile (filepath.Join root (lit "404.html")) with
    | none => rw [hnf lib2 hc, hnf lib hc, hl]
    | some content => rw [h404 lib2 content hc, h404 lib content hc]
  · intro content hc
    refine ⟨h404 lib content hc, ?_, ?_⟩
    · rw [h404 lib content hc]
      have hW : ∀ (x : http.ResponseWriter) (b : Bytes), (x.Write b).Header = x.Header := by
        intro x b
        cases x <;> rfl
      rw [hW, http.ResponseWriter.Header_WriteHeader, http.ResponseWriter.Header_setHeader]
      exact http.Header.Load_Set_self _ _ _
    · intro resp hw hs
      rw [h404 lib content hc, hw]
      simp [http.ResponseWriter.setHeader, http.ResponseWriter.WriteHeader,
        http.ResponseWriter.Write, hs]

theorem FileServerWithExtensions_not_found_witness :
    (∀ info, sampleFiles.Stat (filepath.Join (lit "/srv/www")
        (filepath.Clean (requestFor (lit "/nope")).Path)) = some info →
      info.IsDir = true ∧
      sampleFiles.Stat (filepath.Join (filepath.Join (lit "/srv/www")
        (filepath.Clean (requestFor (lit "/nope")).Path)) (lit "index.html")) = none) ∧
    sampleFiles.Stat (filepath.Join (lit "/srv/www")
      (filepath.Clean (requestFor (lit "/nope")).Path) ++ lit ".html") = none ∧
    (FileServerWithExtensions sampleLibrary sampleFiles (lit "/srv/www") freshWriter
      (requestFor (lit "/nope"))).1 =
      (Serve404 sampleLibrary sampleFiles freshWriter (lit "/srv/www")).1 :=
  ⟨(by
      have h : sampleFiles.Stat (filepath.Join (lit "/srv/www")
          (filepath.Clean (requestFor (lit "/nope")).Path)) = none := by decide
      intro info hi
      rw [h] at hi
      cases hi),
    (by decide),
    (FileServerWithExtensions_not_found sampleLibrary sampleFiles (lit "/srv/www") freshWriter
      (requestFor (lit "/nope"))
      (by
        have h : sampleFiles.Stat (filepath.Join (lit "/srv/www")
            (filepath.Clean (requestFor (lit "/nope")).Path)) = none := by decide
        intro info hi
        rw [h] at hi
        cases hi)
      (by decide)).1⟩

/-! ## Paths -/

theorem lit_empty : lit "" = ([] : GoString) := by decide

theorem lit_dot : lit "." = ([46] : GoString) := by decide

theorem lit_dotdot : lit ".." = ([46, 46] : GoString) := by decide

theorem lit_html : lit ".html" = ([46, 104, 116, 109, 108] : GoString) := by decide

theorem nameElem_dotdot_ne {e : GoString} (h : nameElem e) : e ≠ lit ".." := h.2.2.1

theorem splitSlash_ne_nil (s : GoString) : splitSlash s ≠ [] := by
  cases s with
  | nil => simp [splitSlash]
  | cons c s =>
    unfold splitSlash
    by_cases hc : c = 47
    · simp [hc]
    · rw [if_neg hc]
      cases splitSlash s <;> simp

theorem splitSlash_cons (c : UInt8) (s : GoString) :
    splitSlash (c :: s) =
      if c = 47 then [] :: splitSlash s
      else
        match splitSlash s with
        | seg :: rest => (c :: seg) :: rest
        | [] => [[c]] := by
  rw [splitSlash]

theorem splitSlash_append_slash (a b : GoString) :
    splitSlash (a ++ 47 :: b) = splitSlash a ++ splitSlash b := by
  induction a with
  | nil => simp [splitSlash]
  | cons c a ih =>
    have hcons : (c :: a) ++ 47 :: b = c :: (a ++ 47 :: b) := rfl
    rw [hcons, splitSlash_cons c (a ++ 47 :: b), splitSlash_cons c a, ih]
    by_cases hc : c = 47
    · rw [if_pos hc, if_pos hc]; rfl
    · rw [if_neg hc, if_neg hc]
      cases hs : splitSlash a with
      | nil => exact absurd hs (splitSlash_ne_nil a)
      | cons seg rest => rfl

theorem splitSlash_of_no_slash (e : GoString) (h : (47 : UInt8) ∉ e) : splitSlash e = [e] := by
  induction e with
  | nil => rfl
  | cons c e ih =>
    have hc : c ≠ 47 := fun hc => h (by simp [hc])
    have he : (47 : UInt8) ∉ e := fun he => h (List.mem_cons_of_mem _ he)
    simp only [splitSlash, hc, if_false, ih he]

theorem not_slash_mem_of_mem_splitSlash (s : GoString) :
    ∀ e ∈ splitSlash s, (47 : UInt8) ∉ e := by
  induction s with
  | nil => intro e he; simp [splitSlash] at he; simp [he]
  | cons c s ih =>
    intro e he
    by_cases hc : c = 47
    · simp only [splitSlash, hc, if_true, List.mem_cons] at he
      rcases he with h | h
      · simp [h]
      · exact ih e h
    · simp only [splitSlash, hc, if_false] at he
      cases hs : splitSlash s with
      | nil => exact absurd hs (splitSlash_ne_nil s)
      | cons seg rest =>
        rw [hs] at he ih
        simp only [List.mem_cons] at he
        rcases he with h | h
        · rw [h]
          intro hm
          simp only [List.mem_cons] at hm
          rcases hm with h1 | h1
          · exact hc h1.symm
          · exact ih seg (List.mem_cons_self _ _) h1
        · exact ih e (List.mem_cons_of_mem _ h)

theorem splitSlash_joinSlash (T : List GoString) (hne : T ≠ [])
    (h : ∀ e ∈ T, (47 : UInt8) ∉ e) : splitSlash (joinSlash T) = T := by
  induction T with
  | nil => exact absurd rfl hne
  | cons e rest ih =>
    cases rest with
    | nil => exact splitSlash_of_no_slash e (h e (List.mem_cons_self _ _))
    | cons e2 rest2 =>
      have hrest : ∀ x ∈ e2 :: rest2, (47 : UInt8) ∉ x :=
        fun x hx => h x (List.mem_cons_of_mem _ hx)
      show splitSlash (e ++ 47 :: joinSlash (e2 :: rest2)) = _
      rw [splitSlash_append_slash, splitSlash_of_no_slash e (h e (List.mem_cons_self _ _)),
        ih (by simp) hrest]
      rfl

theorem filepath.Clean.step_name (rooted : Bool) (st : List GoString) (e : GoString)
    (h : nameElem e) : filepath.Clean.step rooted st e = e :: st := by
  obtain ⟨h1, h2, h3, _⟩ := h
  simp [filepath.Clean.step, h1, h2, h3]

theorem filepath.Clean.step_empty (rooted : Bool) (st : List GoString) :
    filepath.Clean.step rooted st [] = st := by
  simp [filepath.Clean.step]

theorem filepath.Clean.step_dot (rooted : Bool) (st : List GoString) :
    filepath.Clean.step rooted st (lit ".") = st := by
  simp [filepath.Clean.step]

/-- Reading names and empty elements pushes the names. -/
theorem filepath.Clean.foldl_names (rooted : Bool) (N : List GoString) :
    ∀ st : List GoString, (∀ e ∈ N, e = [] ∨ nameElem e) →
      N.foldl (filepath.Clean.step rooted) st =
        (N.filter (fun e => decide (e ≠ []))).reverse ++ st := by
  induction N with
  | nil => intro st _; rfl
  | cons e rest ih =>
    intro st h
    have hrest : ∀ x ∈ rest, x = [] ∨ nameElem x := fun x hx => h x (List.mem_cons_of_mem _ hx)
    rcases h e (List.mem_cons_self _ _) with he | he
    · subst he
      simp only [List.foldl_cons, filepath.Clean.step_empty, ih st hrest]
      simp
    · have hne : e ≠ [] := he.1
      simp only [List.foldl_cons, filepath.Clean.step_name rooted st e he, ih (e :: st) hrest]
      simp [List.filter_cons, hne]

theorem cleanStack_nil (rooted : Bool) : cleanStack rooted [] :=
  ⟨[], 0, rfl, fun _ h => absurd h (List.not_mem_nil _), fun _ => rfl⟩

theorem filepath.Clean.step_cleanStack (rooted : Bool) (st : List GoString) (e : GoString)
    (hst : cleanStack rooted st) (he : (47 : UInt8) ∉ e) :
    cleanStack rooted (filepath.Clean.step rooted st e) := by
  obtain ⟨names, n, hform, hnames, hn⟩ := hst
  by_cases h1 : e = [] ∨ e = lit "."
  · have : filepath.Clean.step rooted st e = st := by simp [filepath.Clean.step, h1]
    rw [this]; exact ⟨names, n, hform, hnames, hn⟩
  · have h1a : e ≠ [] := fun h => h1 (Or.inl h)
    have h1b : e ≠ lit "." := fun h => h1 (Or.inr h)
    by_cases h2 : e = lit ".."
    · subst h2
      cases names with
      | cons top rest =>
        have htop : top ≠ lit ".." := nameElem_dotdot_ne (hnames top (List.mem_cons_self _ _))
        have : filepath.Clean.step rooted st (lit "..") = rest ++ List.replicate n (lit "..") := by
          rw [hform]
          simp [filepath.Clean.step, h1a, h1b, htop]
        rw [this]
        exact ⟨rest, n, rfl, fun x hx => hnames x (List.mem_cons_of_mem _ hx), hn⟩
      | nil =>
        cases n with
        | zero =>
          cases rooted with
          | true =>
            have : filepath.Clean.step true st (lit "..") = [] := by
              rw [hform]; simp [filepath.Clean.step, h1a, h1b]
            rw [this]; exact cleanStack_nil true
          | false =>
            have : filepath.Clean.step false st (lit "..") = [lit ".."] := by
              rw [hform]; simp [filepath.Clean.step, h1a, h1b]
            rw [this]
            exact ⟨[], 1, rfl, fun _ h => absurd h (List.not_mem_nil _),
              fun h => absurd h (by decide)⟩
        | succ m =>
          have hr : rooted = false := by
            cases rooted with
            | true => exact absurd (hn rfl) (Nat.succ_ne_zero m)
            | false => rfl
          have : filepath.Clean.step rooted st (lit "..") =
              List.replicate (m + 2) (lit "..") := by
            rw [hform]
            simp [filepath.Clean.step, h1a, h1b, List.replicate_succ]
          rw [this]
          exact ⟨[], m + 2, rfl, fun _ h => absurd h (List.not_mem_nil _),
            fun h => by rw [hr] at h; exact absurd h (by decide)⟩
    · have hname : nameElem e := ⟨h1a, h1b, h2, he⟩
      rw [filepath.Clean.step_name rooted st e hname, hform]
      refine ⟨e :: names, n, rfl, ?_, hn⟩
      intro x hx
      rcases List.mem_cons.mp hx with h | h
      · rw [h]; exact hname
      · exact hnames x h

theorem filepath.Clean.foldl_cleanStack (rooted : Bool) (L : List GoString) :
    ∀ st : List GoString, cleanStack rooted st → (∀ e ∈ L, (47 : UInt8) ∉ e) →
      cleanStack rooted (L.foldl (filepath.Clean.step rooted) st) := by
  induction L with
  | nil => intro st h _; exact h
  | cons e rest ih =>
    intro st h hL
    exact ih _ (filepath.Clean.step_cleanStack rooted st e h (hL e (List.mem_cons_self _ _)))
      (fun x hx => hL x (List.mem_cons_of_mem _ hx))

theorem cleanStack_mem {rooted : Bool} {st : List GoString} (h : cleanStack rooted st) :
    ∀ e ∈ st, e ≠ [] ∧ (47 : UInt8) ∉ e := by
  obtain ⟨names, n, hform, hnames, _⟩ := h
  intro e he
  rw [hform] at he
  rcases List.mem_append.mp he with h1 | h1
  · exact ⟨(hnames e h1).1, (hnames e h1).2.2.2⟩
  · have : e = lit ".." := (List.mem_replicate.mp h1).2
    rw [this, lit_dotdot]
    exact ⟨by simp, by decide⟩

theorem filepath.Clean.foldl_dotdots (n : Nat) :
    ∀ k : Nat, (List.replicate n (lit "..")).foldl (filepath.Clean.step false)
        (List.replicate k (lit "..")) = List.replicate (n + k) (lit "..") := by
  have hstep : ∀ k : Nat, filepath.Clean.step false (List.replicate k (lit "..")) (lit "..") =
      List.replicate (k + 1) (lit "..") := by
    intro k
    have h1 : lit ".." ≠ ([] : GoString) := by decide
    have h2 : lit ".." ≠ lit "." := by decide
    cases k with
    | zero => simp [filepath.Clean.step, h1, h2]
    | succ m => simp [filepath.Clean.step, h1, h2, List.replicate_succ]
  induction n with
  | zero => intro k; simp
  | succ m ih =>
    intro k
    rw [List.replicate_succ, List.foldl_cons, hstep k, ih (k + 1)]
    congr 1
    omega

/-- Reading elements that are already clean keeps them all. -/
theorem filepath.Clean.foldl_clean (rooted : Bool) (T : List GoString)
    (h : cleanStack rooted T.reverse) :
    T.foldl (filepath.Clean.step rooted) [] = T.reverse := by
  obtain ⟨names, n, hform, hnames, hn⟩ := h
  have hT : T = List.replicate n (lit "..") ++ names.reverse := by
    have := congrArg List.reverse hform
    simpa using this
  have hdd : (List.replicate n (lit "..")).foldl (filepath.Clean.step rooted) [] =
      List.replicate n (lit "..") := by
    cases rooted with
    | true => rw [hn rfl]; rfl
    | false =>
      have := filepath.Clean.foldl_dotdots n 0
      simpa using this
  have hall : ∀ e ∈ names.reverse, e = [] ∨ nameElem e :=
    fun e he => Or.inr (hnames e (List.mem_reverse.mp he))
  have hfilter : names.reverse.filter (fun e => decide (e ≠ [])) = names.reverse := by
    rw [List.filter_eq_self]
    intro e he
    simpa using (hnames e (List.mem_reverse.mp he)).1
  rw [hform, hT, List.foldl_append, hdd, filepath.Clean.foldl_names rooted _ _ hall, hfilter]
  simp

theorem filepath.Clean.elems_cleanStack (path : GoString) :
    cleanStack (isRooted path) (filepath.Clean.elems path).reverse := by
  unfold filepath.Clean.elems
  rw [List.reverse_reverse]
  exact filepath.Clean.foldl_cleanStack _ _ [] (cleanStack_nil _)
    (not_slash_mem_of_mem_splitSlash path)

theorem filepath.Clean.elems_names_of_rooted (path : GoString) (h : isRooted path = true) :
    ∀ e ∈ filepath.Clean.elems path, nameElem e := by
  obtain ⟨names, n, hform, hnames, hn⟩ := filepath.Clean.elems_cleanStack path
  have h0 : n = 0 := hn h
  rw [h0] at hform
  intro e he
  have : e ∈ (filepath.Clean.elems path).reverse := List.mem_reverse.mpr he
  rw [hform] at this
  simp only [List.replicate_zero, List.append_nil] at this
  exact hnames e this

theorem filepath.Clean_eq_renderPath (path : GoString) :
    filepath.Clean path = renderPath (isRooted path) (filepath.Clean.elems path) := by
  by_cases hp : path = []
  · subst hp
    decide
  · unfold filepath.Clean renderPath
    rw [if_neg hp]

theorem joinSlash_head (e : GoString) (rest : List GoString) (c : UInt8) (e2 : GoString)
    (he : e = c :: e2) : (joinSlash (e :: rest)).head? = some c := by
  subst he
  cases rest <;> rfl

theorem isRooted_renderPath (rooted : Bool) (T : List GoString)
    (h : cleanStack rooted T.reverse) : isRooted (renderPath rooted T) = rooted := by
  cases rooted with
  | true => rfl
  | false =>
    cases T with
    | nil => decide
    | cons e rest =>
      have hmem := cleanStack_mem h e (List.mem_reverse.mpr (List.mem_cons_self _ _))
      cases e with
      | nil => exact absurd rfl hmem.1
      | cons c e2 =>
        have hc : c ≠ 47 := fun hc => hmem.2 (by simp [hc])
        have hr : renderPath false ((c :: e2) :: rest) = joinSlash ((c :: e2) :: rest) := by
          simp [renderPath]
        rw [hr]
        unfold isRooted
        rw [joinSlash_head (c :: e2) rest c e2 rfl]
        simp [hc]

theorem renderPath_ne_nil (rooted : Bool) (T : List GoString)
    (h : cleanStack rooted T.reverse) : renderPath rooted T ≠ [] := by
  intro he
  have h1 := isRooted_renderPath rooted T h
  cases rooted with
  | true => simp [renderPath] at he
  | false =>
    cases T with
    | nil => exact absurd he (by decide)
    | cons e rest =>
      have hmem := cleanStack_mem h e (List.mem_reverse.mpr (List.mem_cons_self _ _))
      have hr : renderPath false (e :: rest) = joinSlash (e :: rest) := by simp [renderPath]
      rw [hr] at he
      cases e with
      | nil => exact hmem.1 rfl
      | cons c e2 =>
        have := joinSlash_head (c :: e2) rest c e2 rfl
        rw [he] at this
        simp at this

/-- Cleaning is idempotent on elements: the elements of a path written from
clean elements are those elements. -/
theorem filepath.Clean.elems_renderPath (rooted : Bool) (T : List GoString)
    (h : cleanStack rooted T.reverse) :
    filepath.Clean.elems (renderPath rooted T) = T := by
  have hr := isRooted_renderPath rooted T h
  have hfold := filepath.Clean.foldl_clean rooted T h
  have hslash : ∀ e ∈ T, (47 : UInt8) ∉ e :=
    fun e he => (cleanStack_mem h e (List.mem_reverse.mpr he)).2
  unfold filepath.Clean.elems
  rw [hr]
  cases rooted with
  | true =>
    have hsplit : splitSlash (renderPath true T) = [] :: splitSlash (joinSlash T) := by
      simp [renderPath, splitSlash_cons]
    rw [hsplit, List.foldl_cons, filepath.Clean.step_empty]
    cases T with
    | nil => simp [joinSlash, splitSlash, filepath.Clean.step_empty]
    | cons e rest =>
      rw [splitSlash_joinSlash _ (by simp) hslash, hfold, List.reverse_reverse]
  | false =>
    cases T with
    | nil =>
      have : splitSlash (renderPath false []) = [lit "."] := by decide
      rw [this]
      simp [filepath.Clean.step_dot]
    | cons e rest =>
      have hrp : renderPath false (e :: rest) = joinSlash (e :: rest) := by simp [renderPath]
      rw [hrp, splitSlash_joinSlash _ (by simp) hslash, hfold, List.reverse_reverse]

theorem filepath.Clean.elems_Clean (path : GoString) :
    filepath.Clean.elems (filepath.Clean path) = filepath.Clean.elems path := by
  rw [filepath.Clean_eq_renderPath]
  exact filepath.Clean.elems_renderPath _ _ (filepath.Clean.elems_cleanStack path)

theorem isRooted_Clean (path : GoString) :
    isRooted (filepath.Clean path) = isRooted path := by
  rw [filepath.Clean_eq_renderPath]
  exact isRooted_renderPath _ _ (filepath.Clean.elems_cleanStack path)

theorem filepath.Clean_ne_nil (path : GoString) : filepath.Clean path ≠ [] := by
  rw [filepath.Clean_eq_renderPath]
  exact renderPath_ne_nil _ _ (filepath.Clean.elems_cleanStack path)

theorem isRooted_append (a b : GoString) (ha : a ≠ []) : isRooted (a ++ b) = isRooted a := by
  cases a with
  | nil => exact absurd rfl ha
  | cons c a2 => rfl

/-- The elements of `a/b`, when `b` is made of names and empty elements, are
those of `a` followed by the names of `b`. -/
theorem filepath.Clean.elems_append_slash (a b : GoString) (ha : a ≠ [])
    (hb : ∀ e ∈ splitSlash b, e = [] ∨ nameElem e) :
    filepath.Clean.elems (a ++ 47 :: b) =
      filepath.Clean.elems a ++ (splitSlash b).filter (fun e => decide (e ≠ [])) := by
  unfold filepath.Clean.elems
  rw [isRooted_append a _ ha, splitSlash_append_slash, List.foldl_append,
    filepath.Clean.foldl_names _ _ _ hb]
  simp

theorem filepath.Join_of_ne_nil (a b : GoString) (ha : a ≠ []) :
    filepath.Join a b = filepath.Clean (a ++ 47 :: b) := by
  simp [filepath.Join, ha]

theorem filepath.Clean.elems_Join (a b : GoString) (ha : a ≠ [])
    (hb : ∀ e ∈ splitSlash b, e = [] ∨ nameElem e) :
    filepath.Clean.elems (filepath.Join a b) =
        filepath.Clean.elems a ++ (splitSlash b).filter (fun e => decide (e ≠ [])) ∧
      isRooted (filepath.Join a b) = isRooted a := by
  rw [filepath.Join_of_ne_nil a b ha, filepath.Clean.elems_Clean, isRooted_Clean,
    filepath.Clean.elems_append_slash a b ha hb, isRooted_append a _ ha]
  exact ⟨rfl, rfl⟩

/-- A cleaned rooted path splits into an empty element and its names. -/
theorem splitSlash_Clean_of_rooted (p : GoString) (hp : isRooted p = true) :
    (∀ e ∈ splitSlash (filepath.Clean p), e = [] ∨ nameElem e) ∧
      (splitSlash (filepath.Clean p)).filter (fun e => decide (e ≠ [])) =
        filepath.Clean.elems p := by
  have hnames := filepath.Clean.elems_names_of_rooted p hp
  have hslash : ∀ e ∈ filepath.Clean.elems p, (47 : UInt8) ∉ e :=
    fun e he => (hnames e he).2.2.2
  have hfilter : (filepath.Clean.elems p).filter (fun e => decide (e ≠ [])) =
      filepath.Clean.elems p := by
    rw [List.filter_eq_self]
    intro e he
    simpa using (hnames e he).1
  have hsplit : splitSlash (filepath.Clean p) =
      [] :: splitSlash (joinSlash (filepath.Clean.elems p)) := by
    rw [filepath.Clean_eq_renderPath, hp]
    simp [renderPath, splitSlash_cons]
  rw [hsplit]
  cases hT : filepath.Clean.elems p with
  | nil =>
    constructor
    · intro e he
      simp [joinSlash, splitSlash] at he
      exact Or.inl he
    · simp [joinSlash, splitSlash]
  | cons e rest =>
    rw [hT] at hnames hslash hfilter
    rw [splitSlash_joinSlash _ (by simp) hslash]
    constructor
    · intro x hx
      rcases List.mem_cons.mp hx with h | h
      · exact Or.inl h
      · exact Or.inr (hnames x h)
    · rw [List.filter_cons]
      simpa using hfilter

theorem atOrBelow_of_elems (root x : GoString) (N : List GoString)
    (hr : isRooted x = isRooted root)
    (he : filepath.Clean.elems x = filepath.Clean.elems root ++ N)
    (hN : ∀ e ∈ N, e ≠ lit "..") : atOrBelow root x = true := by
  unfold atOrBelow
  rw [hr, he, List.drop_left]
  have h1 : (filepath.Clean.elems root).isPrefixOf (filepath.Clean.elems root ++ N) = true :=
    List.isPrefixOf_iff_prefix.mpr (List.prefix_append _ _)
  have h2 : lit ".." ∉ N := fun hm => hN _ hm rfl
  simp [h1, h2]

theorem joinSlash_append_last (T : List GoString) (e suffix : GoString) :
    joinSlash (T ++ [e]) ++ suffix = joinSlash (T ++ [e ++ suffix]) := by
  induction T with
  | nil => rfl
  | cons x rest ih =>
    cases rest with
    | nil => simp [joinSlash]
    | cons y rest2 =>
      have h1 : joinSlash (x :: y :: rest2 ++ [e]) = x ++ 47 :: joinSlash (y :: rest2 ++ [e]) :=
        rfl
      have h2 : joinSlash (x :: y :: rest2 ++ [e ++ suffix]) =
          x ++ 47 :: joinSlash (y :: rest2 ++ [e ++ suffix]) := rfl
      rw [h1, h2, ← ih]
      simp

theorem renderPath_append_last (rooted : Bool) (T : List GoString) (e suffix : GoString) :
    renderPath rooted (T ++ [e]) ++ suffix = renderPath rooted (T ++ [e ++ suffix]) := by
  cases rooted with
  | true =>
    simp only [renderPath, if_true, List.cons_append, joinSlash_append_last]
  | false =>
    simp only [renderPath, Bool.false_eq_true, if_false, List.append_eq_nil, List.cons_ne_nil,
      and_false, joinSlash_append_last]

theorem nameElem_append_html (e : GoString) (h : nameElem e) : nameElem (e ++ lit ".html") := by
  obtain ⟨h1, _, _, h4⟩ := h
  unfold nameElem
  rw [lit_html, lit_dot, lit_dotdot]
  cases e with
  | nil => exact absurd rfl h1
  | cons c e2 =>
    refine ⟨by simp, ?_, ?_, ?_⟩
    · intro hh
      have := congrArg List.length hh
      simp at this
    · intro hh
      have := congrArg List.length hh
      simp at this
    · intro hm
      rcases List.mem_append.mp hm with h | h
      · exact h4 h
      · revert h; decide

theorem cleanStack_replace_top (rooted : Bool) (e e2 : GoString) (st : List GoString)
    (h : cleanStack rooted (e :: st)) (he : nameElem e) (he2 : nameElem e2) :
    cleanStack rooted (e2 :: st) := by
  obtain ⟨names, n, hform, hnames, hn⟩ := h
  cases names with
  | nil =>
    simp only [List.nil_append] at hform
    have hmem : e ∈ List.replicate n (lit "..") := by rw [← hform]; exact List.mem_cons_self _ _
    exact absurd (List.mem_replicate.mp hmem).2 (nameElem_dotdot_ne he)
  | cons top rest =>
    simp only [List.cons_append, List.cons.injEq] at hform
    refine ⟨e2 :: rest, n, by rw [hform.2]; rfl, ?_, hn⟩
    intro x hx
    rcases List.mem_cons.mp hx with h1 | h1
    · rw [h1]; exact he2
    · exact hnames x (List.mem_cons_of_mem _ h1)

theorem nameElem_index_html : nameElem (lit "index.html") := by
  refine ⟨by decide, by decide, by decide, by decide⟩

theorem nameElem_404_html : nameElem (lit "404.html") := by
  refine ⟨by decide, by decide, by decide, by decide⟩

theorem splitSlash_name (e : GoString) (h : nameElem e) :
    (∀ x ∈ splitSlash e, x = [] ∨ nameElem x) ∧
      (splitSlash e).filter (fun x => decide (x ≠ [])) = [e] := by
  rw [splitSlash_of_no_slash e h.2.2.2]
  constructor
  · intro x hx
    rw [List.mem_singleton.mp hx]; exact Or.inr h
  · simp [h.1]

/-- The resolved path of a rooted URL path: its elements are those of the
root followed by names. -/
theorem filepath.Join_root_Clean (root p : GoString) (hroot : root ≠ [])
    (hp : isRooted p = true) :
    filepath.Clean.elems (filepath.Join root (filepath.Clean p)) =
        filepath.Clean.elems root ++ filepath.Clean.elems p ∧
      isRooted (filepath.Join root (filepath.Clean p)) = isRooted root ∧
      ∀ e ∈ filepath.Clean.elems p, nameElem e := by
  obtain ⟨hsplit, hfilter⟩ := splitSlash_Clean_of_rooted p hp
  obtain ⟨h1, h2⟩ := filepath.Clean.elems_Join root (filepath.Clean p) hroot hsplit
  rw [hfilter] at h1
  exact ⟨h1, h2, filepath.Clean.elems_names_of_rooted p hp⟩

theorem filepath.Join_ne_nil (a b : GoString) (ha : a ≠ []) : filepath.Join a b ≠ [] := by
  rw [filepath.Join_of_ne_nil a b ha]
  exact filepath.Clean_ne_nil _

/-- The `.html` sibling of the resolved path, when the cleaned URL path has
at least one element: the last element gets the suffix. -/
theorem filepath.Join_root_Clean_html (root p : GoString) (hroot : root ≠ [])
    (hp : isRooted p = true) (hne : filepath.Clean.elems p ≠ []) :
    ∃ N : List GoString, (∀ e ∈ N, nameElem e) ∧
      filepath.Clean.elems (filepath.Join root (filepath.Clean p) ++ lit ".html") =
        filepath.Clean.elems root ++ N ∧
      isRooted (filepath.Join root (filepath.Clean p) ++ lit ".html") = isRooted root := by
  obtain ⟨hsplit, hfilter⟩ := splitSlash_Clean_of_rooted p hp
  have hnames := filepath.Clean.elems_names_of_rooted p hp
  have hy : filepath.Clean.elems (root ++ 47 :: filepath.Clean p) =
      filepath.Clean.elems root ++ filepath.Clean.elems p := by
    rw [filepath.Clean.elems_append_slash root _ hroot hsplit, hfilter]
  have hry : isRooted (root ++ 47 :: filepath.Clean p) = isRooted root :=
    isRooted_append root _ hroot
  have hcs := filepath.Clean.elems_cleanStack (root ++ 47 :: filepath.Clean p)
  rw [hy, hry] at hcs
  obtain ⟨N1, e, hN⟩ : ∃ N1 e, filepath.Clean.elems p = N1 ++ [e] :=
    ⟨_, _, (List.dropLast_append_getLast hne).symm⟩
  have he : nameElem e := hnames e (by rw [hN]; simp)
  have hN1 : ∀ x ∈ N1, nameElem x := fun x hx => hnames x (by rw [hN]; simp [hx])
  rw [hN, ← List.append_assoc, List.reverse_append, List.reverse_singleton,
    List.singleton_append] at hcs
  have hcs2 := cleanStack_replace_top _ e (e ++ lit ".html") _ hcs he (nameElem_append_html e he)
  have hrev : (e ++ lit ".html") :: (filepath.Clean.elems root ++ N1).reverse =
      (filepath.Clean.elems root ++ N1 ++ [e ++ lit ".html"]).reverse := by simp
  rw [hrev] at hcs2
  have hfull : filepath.Join root (filepath.Clean p) ++ lit ".html" =
      renderPath (isRooted root) (filepath.Clean.elems root ++ N1 ++ [e ++ lit ".html"]) := by
    rw [filepath.Join_of_ne_nil root _ hroot, filepath.Clean_eq_renderPath, hy, hry, hN,
      ← List.append_assoc, renderPath_append_last]
  refine ⟨N1 ++ [e ++ lit ".html"], ?_, ?_, ?_⟩
  · intro x hx
    rcases List.mem_append.mp hx with h | h
    · exact hN1 x h
    · rw [List.mem_singleton.mp h]; exact nameElem_append_html e he
  · rw [hfull, filepath.Clean.elems_renderPath _ _ hcs2, List.append_assoc]
  · rw [hfull, isRooted_renderPath _ _ hcs2]

/-! ## Static files: what the handler looks at -/

theorem FileServerWithExtensions.fallback_probed (lib : http.Library) (os : FileSystem)
    (root : GoString) (w : http.ResponseWriter) (r : http.Request)
    (cleanPath fullPath : GoString) (probed : List GoString) :
    ∀ x ∈ (FileServerWithExtensions.fallback lib os root w r cleanPath fullPath probed).2,
      x ∈ probed ∨ x = fullPath ++ lit ".html" ∨ x = filepath.Join root (lit "404.html") := by
  intro x hx
  cases hs : os.Stat (fullPath ++ lit ".html") with
  | some info =>
    rw [FileServerWithExtensions.fallback_of_html hs] at hx
    simp only [List.mem_append, List.mem_singleton] at hx
    rcases hx with h | h
    · exact Or.inl h
    · exact Or.inr (Or.inl h)
  | none =>
    rw [FileServerWithExtensions.fallback_of_no_html hs] at hx
    have h404 : ∀ y ∈ (Serve404 lib os w root).2, y = filepath.Join root (lit "404.html") := by
      intro y hy
      unfold Serve404 at hy
      cases hr : os.ReadFile (filepath.Join root (lit "404.html")) with
      | none => simpa [hr] using hy
      | some content => simpa [hr] using hy
    simp only [List.mem_append, List.mem_singleton] at hx
    rcases hx with (h | h) | h
    · exact Or.inl h
    · exact Or.inr (Or.inl h)
    · exact Or.inr (Or.inr (h404 x h))

theorem FileServerWithExtensions_probed (lib : http.Library) (os : FileSystem)
    (root : GoString) (w : http.ResponseWriter) (r : http.Request) :
    ∀ x ∈ (FileServerWithExtensions lib os root w r).2,
      x = filepath.Join root (filepath.Clean r.Path) ∨
      x = filepath.Join (filepath.Join root (filepath.Clean r.Path)) (lit "index.html") ∨
      x = filepath.Join root (filepath.Clean r.Path) ++ lit ".html" ∨
      x = filepath.Join root (lit "404.html") := by
  intro x hx
  cases hs : os.Stat (filepath.Join root (filepath.Clean r.Path)) with
  | none =>
    simp only [FileServerWithExtensions, hs] at hx
    rcases FileServerWithExtensions.fallback_probed lib os root w r _ _ _ x hx with h | h | h
    · exact Or.inl (List.mem_singleton.mp h)
    · exact Or.inr (Or.inr (Or.inl h))
    · exact Or.inr (Or.inr (Or.inr h))
  | some info =>
    cases hd : info.IsDir with
    | false =>
      simp only [FileServerWithExtensions, hs, hd, Bool.not_false, if_true,
        List.mem_singleton] at hx
      exact Or.inl hx
    | true =>
      cases hi : os.Stat (filepath.Join (filepath.Join root (filepath.Clean r.Path))
          (lit "index.html")) with
      | some info2 =>
        simp only [FileServerWithExtensions, hs, hd, hi, Bool.not_true, Bool.false_eq_true,
          if_false, List.mem_cons, List.mem_singleton, List.not_mem_nil, or_false] at hx
        rcases hx with h | h
        · exact Or.inl h
        · exact Or.inr (Or.inl h)
      | none =>
        simp only [FileServerWithExtensions, hs, hd, hi, Bool.not_true, Bool.false_eq_true,
          if_false] at hx
        rcases FileServerWithExtensions.fallback_probed lib os root w r _ _ _ x hx with
          h | h | h
        · simp only [List.mem_cons, List.mem_singleton, List.not_mem_nil, or_false] at h
          rcases h with h | h
          · exact Or.inl h
          · exact Or.inr (Or.inl h)
        · exact Or.inr (Or.inr (Or.inl h))
        · exact Or.inr (Or.inr (Or.inr h))

/-- C14, the claim fails: with root `/srv/www`, a directory without
`index.html`, the request for `/` makes the handler probe `/srv/www.html`,
which lies next to the root and not at or below it; and the request for
`../secret` makes it probe `/srv/secret`, above the root, after which it
hands the request to the file server instead of answering not-found. -/
theorem FileServerWithExtensions_probes_outside_root :
    (FileServerWithExtensions sampleLibrary sampleFiles (lit "/srv/www") freshWriter
      (requestFor (lit "/"))).2 =
      [lit "/srv/www", lit "/srv/www/index.html", lit "/srv/www.html"] ∧
    atOrBelow (lit "/srv/www") (lit "/srv/www.html") = false ∧
    (FileServerWithExtensions sampleLibrary sampleFiles (lit "/srv/www") freshWriter
      (requestFor (lit "../secret"))).2 = [lit "/srv/secret"] ∧
    atOrBelow (lit "/srv/www") (lit "/srv/secret") = false ∧
    (FileServerWithExtensions sampleLibrary sampleFiles (lit "/srv/www") freshWriter
      (requestFor (lit "../secret"))).1 =
      sampleLibrary.FileServer (lit "/srv/www") freshWriter (requestFor (lit "../secret")) ∧
    (FileServerWithExtensions sampleLibrary sampleFiles (lit "/srv/www") freshWriter
      (requestFor (lit "../secret"))).1 ≠
      (Serve404 sampleLibrary sampleFiles freshWriter (lit "/srv/www")).1 := by
  decide

theorem nameElem_ne_dotdot_of_all {N : List GoString} (h : ∀ e ∈ N, nameElem e) :
    ∀ e ∈ N, e ≠ lit ".." := fun e he => nameElem_dotdot_ne (h e he)

/-- The file the file server opens lies at or below a non-empty root. -/
theorem http.Dir.target_atOrBelow (root upath : GoString) (hroot : root ≠ []) :
    atOrBelow root (http.Dir.target root upath) = true := by
  have hrooted : isRooted (47 :: filepath.Clean (if isRooted upath then upath else 47 :: upath))
      = true := rfl
  obtain ⟨h1, h2, h3⟩ := filepath.Join_root_Clean root _ hroot hrooted
  have ht : http.Dir.target root upath = filepath.Join root
      (filepath.Clean (47 :: filepath.Clean (if isRooted upath then upath else 47 :: upath))) := by
    simp [http.Dir.target, hroot]
  rw [ht]
  exact atOrBelow_of_elems root _ _ h2 h1 (nameElem_ne_dotdot_of_all h3)

/-- C14 as amended: for a non-empty root and a URL path that begins with a
slash, whatever `.` and `..` elements it has, the resolved path (root joined
with the cleaned path, in which no `..` is left) and its `index.html` lie at
or below the root, and so does its `.html` sibling when the cleaned path is
not `/`. The paths the handler gives to the file system are these and
`<root>/404.html`, so for a cleaned path other than `/` all of them lie at
or below the root. The file the file server opens for any URL path lies at
or below the root. -/
theorem FileServerWithExtensions_confined_for_rooted (lib : http.Library) (os : FileSystem)
    (root : GoString) (w : http.ResponseWriter) (r : http.Request) (hroot : root ≠ [])
    (hp : isRooted r.Path = true) :
    (∀ e ∈ filepath.Clean.elems (filepath.Clean r.Path), e ≠ lit "..") ∧
    atOrBelow root (filepath.Join root (filepath.Clean r.Path)) = true ∧
    atOrBelow root
      (filepath.Join (filepath.Join root (filepath.Clean r.Path)) (lit "index.html")) = true ∧
    (filepath.Clean r.Path ≠ lit "/" →
      atOrBelow root (filepath.Join root (filepath.Clean r.Path) ++ lit ".html") = true) ∧
    atOrBelow root (filepath.Join root (lit "404.html")) = true ∧
    (∀ x ∈ (FileServerWithExtensions lib os root w r).2,
      x = filepath.Join root (filepath.Clean r.Path) ∨
      x = filepath.Join (filepath.Join root (filepath.Clean r.Path)) (lit "index.html") ∨
      x = filepath.Join root (filepath.Clean r.Path) ++ lit ".html" ∨
      x = filepath.Join root (lit "404.html")) ∧
    (filepath.Clean r.Path ≠ lit "/" →
      ∀ x ∈ (FileServerWithExtensions lib os root w r).2, atOrBelow root x = true) ∧
    (∀ upath, atOrBelow root (http.Dir.target root upath) = true) := by
  obtain ⟨h1, h2, h3⟩ := filepath.Join_root_Clean root r.Path hroot hp
  have hfull : atOrBelow root (filepath.Join root (filepath.Clean r.Path)) = true :=
    atOrBelow_of_elems root _ _ h2 h1 (nameElem_ne_dotdot_of_all h3)
  have hfne : filepath.Join root (filepath.Clean r.Path) ≠ [] := filepath.Join_ne_nil _ _ hroot
  have hindex : atOrBelow root
      (filepath.Join (filepath.Join root (filepath.Clean r.Path)) (lit "index.html")) = true := by
    obtain ⟨hs1, hs2⟩ := splitSlash_name _ nameElem_index_html
    obtain ⟨hi1, hi2⟩ := filepath.Clean.elems_Join _ (lit "index.html") hfne hs1
    rw [hs2, h1, List.append_assoc] at hi1
    refine atOrBelow_of_elems root _ _ (hi2.trans h2) hi1 ?_
    intro e he
    rcases List.mem_append.mp he with h | h
    · exact nameElem_dotdot_ne (h3 e h)
    · rw [List.mem_singleton.mp h]; exact nameElem_dotdot_ne nameElem_index_html
  have h404 : atOrBelow root (filepath.Join root (lit "404.html")) = true := by
    obtain ⟨hs1, hs2⟩ := splitSlash_name _ nameElem_404_html
    obtain ⟨hi1, hi2⟩ := filepath.Clean.elems_Join root (lit "404.html") hroot hs1
    rw [hs2] at hi1
    refine atOrBelow_of_elems root _ _ hi2 hi1 ?_
    intro e he
    rw [List.mem_singleton.mp he]; exact nameElem_dotdot_ne nameElem_404_html
  have hclean : filepath.Clean r.Path = 47 :: joinSlash (filepath.Clean.elems r.Path) := by
    rw [filepath.Clean_eq_renderPath, hp]; rfl
  have hslash : lit "/" = ([47] : GoString) := by decide
  have hhtml : filepath.Clean r.Path ≠ lit "/" →
      atOrBelow root (filepath.Join root (filepath.Clean r.Path) ++ lit ".html") = true := by
    intro hne
    have hel : filepath.Clean.elems r.Path ≠ [] := by
      intro he
      apply hne
      rw [hclean, he, hslash]; rfl
    obtain ⟨N, hN, hE, hR⟩ := filepath.Join_root_Clean_html root r.Path hroot hp hel
    exact atOrBelow_of_elems root _ _ hR hE (nameElem_ne_dotdot_of_all hN)
  have hprobed := FileServerWithExtensions_probed lib os root w r
  refine ⟨?_, hfull, hindex, hhtml, h404, hprobed, ?_,
    fun upath => http.Dir.target_atOrBelow root upath hroot⟩
  · rw [filepath.Clean.elems_Clean]
    exact nameElem_ne_dotdot_of_all h3
  · intro hne x hx
    rcases hprobed x hx with h | h | h | h
    · rw [h]; exact hfull
    · rw [h]; exact hindex
    · rw [h]; exact hhtml hne
    · rw [h]; exact h404

theorem FileServerWithExtensions_confined_for_rooted_witness :
    lit "/srv/www" ≠ ([] : GoString) ∧
    isRooted (requestFor (lit "/../../etc/passwd")).Path = true ∧
    atOrBelow (lit "/srv/www") (filepath.Join (lit "/srv/www")
      (filepath.Clean (requestFor (lit "/../../etc/passwd")).Path)) = true :=
  ⟨by decide, by decide,
    (FileServerWithExtensions_confined_for_rooted sampleLibrary sampleFiles (lit "/srv/www")
      freshWriter (requestFor (lit "/../../etc/passwd")) (by decide) (by decide)).2.1⟩

/-! ## Ownership of the bytes -/

theorem MemoryStore.view_Delete (h : Heap) (m : MemoryStore) (k : GoString) :
    MemoryStore.view h (GoMap.Delete m k) = GoMap.Delete (MemoryStore.view h m) k := by
  induction m with
  | nil => rfl
  | cons p rest ih =>
    obtain ⟨a, b⟩ := p
    have hv : MemoryStore.view h ((a, b) :: rest) =
        (a, MemoryCacheItem.mk (h.read b.Data) b.ExpiresAt) :: MemoryStore.view h rest := rfl
    rw [GoMap.Delete_cons, hv, GoMap.Delete_cons]
    by_cases hk : a = k
    · rw [if_pos hk, if_pos hk]; exact ih
    · rw [if_neg hk, if_neg hk]
      show _ :: MemoryStore.view h (GoMap.Delete rest k) = _
      rw [ih]

theorem MemoryStore.view_Store (h : Heap) (m : MemoryStore) (k : GoString)
    (item : MemoryCacheItemRef) :
    MemoryStore.view h (GoMap.Store m k item) =
      GoMap.Store (MemoryStore.view h m) k
        (MemoryCacheItem.mk (h.read item.Data) item.ExpiresAt) := by
  show _ :: MemoryStore.view h (GoMap.Delete m k) = _
  rw [MemoryStore.view_Delete]
  rfl

theorem MemoryStore.Load_view (h : Heap) (m : MemoryStore) (k : GoString) :
    GoMap.Load (MemoryStore.view h m) k =
      (GoMap.Load m k).map (fun item => MemoryCacheItem.mk (h.read item.Data) item.ExpiresAt) := by
  induction m with
  | nil => rfl
  | cons p rest ih =>
    obtain ⟨a, b⟩ := p
    have hv : MemoryStore.view h ((a, b) :: rest) =
        (a, MemoryCacheItem.mk (h.read b.Data) b.ExpiresAt) :: MemoryStore.view h rest := rfl
    rw [hv, GoMap.Load, GoMap.Load]
    by_cases hk : a = k
    · rw [if_pos hk, if_pos hk]; rfl
    · rw [if_neg hk, if_neg hk]; exact ih

/-- Read through the heap, the reference-level memory store is the Memory
mode of the cache. -/
theorem MemoryStore.refines_Cache {R E : Type} (api : RedisAPI R E) (c : Cache R)
    (hmem : c.useRedis = false) (h : Heap) (m : MemoryStore)
    (hview : c.memoryCache = MemoryStore.view h m) (now : Time) (k : GoString) (s : Slice)
    (ttl : Duration) :
    c.Set api now k (h.read s) ttl =
        some (none, { c with memoryCache := MemoryStore.view h (m.Set now k s ttl) }) ∧
      c.Get api now k =
        some ((((m.Get now k).1.1.map h.read).getD [], (m.Get now k).1.2),
          { c with memoryCache := MemoryStore.view h (m.Get now k).2 }) := by
  constructor
  · rw [Cache.Set_memory api c hmem, hview]
    unfold MemoryStore.Set
    rw [MemoryStore.view_Store]
  · rw [Cache.Get_memory api c hmem, hview, MemoryStore.Load_view]
    unfold MemoryStore.Get
    cases hl : GoMap.Load m k with
    | none => simp [← hview]
    | some item =>
      by_cases hlt : now < item.ExpiresAt
      · simp [hlt, ← hview]
      · simp [hlt, MemoryStore.view_Delete]

theorem Heap.read_write (h : Heap) (s : Slice) (i : Nat) (b : UInt8) :
    (h.write s i b).read s = (h.read s).set i b := by
  unfold Heap.read Heap.write
  rw [Function.update_same, ← List.set_drop, List.set_take]

/-- C19, the claim fails: after `Set(k, s)` the caller writes a byte through
the slice `s` it passed; a later `Get(k)` returns that same slice, which now
shows the changed bytes and not the bytes that were passed to `Set`. -/
theorem MemoryStore.Get_sees_write_after_Set :
    MemoryStore.Get (MemoryStore.Set [] 0 (lit "k") sampleSlice 100) 5 (lit "k") =
      ((some sampleSlice, true), MemoryStore.Set [] 0 (lit "k") sampleSlice 100) ∧
    sampleHeap.read sampleSlice = [1, 2, 3] ∧
    (sampleHeap.write sampleSlice 0 9).read sampleSlice = [9, 2, 3] ∧
    (sampleHeap.write sampleSlice 0 9).read sampleSlice ≠ sampleHeap.read sampleSlice := by
  decide

/-- C19 as amended: in Memory mode `Set` stores the slice it is given and
`Get`, before the deadline, returns that same slice, the store unchanged:
the stored entry, the slice passed to `Set` and every slice returned by `Get`
have one backing array. So in whatever state the heap is at a later `Get`,
the bytes returned are what that array then holds: the bytes passed to `Set`
if nothing wrote to it, and after a write of byte `b` at index `i` through
the slice, those bytes with `b` at index `i`. -/
theorem MemoryStore.Get_returns_the_slice_Set_stored (m : MemoryStore) (t d : Time)
    (k : GoString) (s : Slice) (ttl : Duration) (hd : d < ttl) :
    MemoryStore.Get (MemoryStore.Set m t k s ttl) (t + d) k =
      ((some s, true), MemoryStore.Set m t k s ttl) ∧
    (∀ d2 : Time, d2 < ttl →
      MemoryStore.Get (MemoryStore.Get (MemoryStore.Set m t k s ttl) (t + d) k).2 (t + d2) k =
        ((some s, true), MemoryStore.Set m t k s ttl)) ∧
    (∀ (h : Heap) (i : Nat) (b : UInt8),
      ((MemoryStore.Get (MemoryStore.Set m t k s ttl) (t + d) k).1.1.map
          (h.write s i b).read) = some ((h.read s).set i b)) ∧
    (∀ h : Heap,
      ((MemoryStore.Get (MemoryStore.Set m t k s ttl) (t + d) k).1.1.map h.read) =
        some (h.read s)) := by
  have hget : ∀ d2 : Time, d2 < ttl →
      MemoryStore.Get (MemoryStore.Set m t k s ttl) (t + d2) k =
        ((some s, true), MemoryStore.Set m t k s ttl) := by
    intro d2 hd2
    have hlt : t + d2 < t + ttl := (Int.add_lt_add_iff_left t).mpr hd2
    unfold MemoryStore.Get
    have hload : GoMap.Load (MemoryStore.Set m t k s ttl) k =
        some (MemoryCacheItemRef.mk s (t + ttl)) := GoMap.Load_Store_self _ _ _
    rw [hload]
    simp [hlt]
  refine ⟨hget d hd, ?_, ?_, ?_⟩
  · intro d2 hd2
    rw [hget d hd]
    exact hget d2 hd2
  · intro h i b
    rw [hget d hd]
    simp [Heap.read_write]
  · intro h
    rw [hget d hd]
    rfl

theorem MemoryStore.Get_returns_the_slice_Set_stored_witness :
    (5 : Time) < 100 ∧
    MemoryStore.Get (MemoryStore.Set [] 0 (lit "k") sampleSlice 100) (0 + 5) (lit "k") =
      ((some sampleSlice, true), MemoryStore.Set [] 0 (lit "k") sampleSlice 100) :=
  ⟨by decide,
    (MemoryStore.Get_returns_the_slice_Set_stored [] 0 5 (lit "k") sampleSlice 100
      (by decide)).1⟩

end Moesekai
